import Mathlib

/-!
Verification of the step-yielding sorting engine of `src/sorting.py`
(reference sorts `selection_sort`, `bubble_sort`, `insertion_sort`,
`merge_sort`, `quick_sort`, `heap_sort`, `comb_sort` and their
snapshot-emitting generator variants `*_sort_visual`), together with the
driver state machine of `src/models/sort_data.py`.

Modelling conventions:
* Python lists of comparable values are modelled as `List Int`.
* Every sequence read `data[i]` / write `data[i] = v` of the source is
  rendered through the checked primitives `pget` / `pset` / `pswap`,
  which return `none` when the index is outside `0 .. len-1`; an
  algorithm therefore produces `none` exactly when the source would
  perform an out-of-range access (Python negative wrap-around indices
  are likewise treated as out of range here: the sources never use
  them, and claim C10 asserts all indices lie in `0 .. n-1`).
* A generator `yield {...}` is rendered by appending a `Snap` record to
  the emitted snapshot list; a run of a generator is the full list of
  snapshots it yields, in order.
* Python `for`/`while` loops become structurally or well-founded
  recursive helper functions named after the loop they translate.
-/

/-- One state snapshot yielded by a `*_sort_visual` generator of
`src/sorting.py`.  Each optional field models one dictionary key that the
generators put in a yielded dict (`none` models the key being absent).
The merge-sort generator's `subarrays` bookkeeping dictionary (pure
visual-layout metadata, never read by any claim or invariant) is not
modelled. -/
structure Snap where
  data : List Int
  compare : Option (List Nat) := none
  swap : Option (List Nat) := none
  shift : Option (List Nat) := none
  ins : Option (List Nat) := none
  highlight : Option (List Nat) := none
  minCandidate : Option Nat := none
  final : Option (List Nat) := none
  gap : Option Nat := none
  pivot : Option Nat := none
  pivotPlaced : Option Nat := none
  sortedUpto : Option Nat := none
  depth : Option Nat := none
  split : Option (Nat × Nat × Nat) := none
  mergeStart : Option (Nat × Nat × Nat) := none
  range : Option (Nat × Nat) := none
  heapLevel : Option Bool := none
  largest : Option Nat := none
  deriving DecidableEq

/-- Checked sequence read: Python `data[i]`, failing (`none`) when
`i` is not a valid position. -/
def pget (a : List Int) (i : Nat) : Option Int :=
  a[i]?

/-- Checked sequence write: Python `data[i] = v`. -/
def pset (a : List Int) (i : Nat) (v : Int) : Option (List Int) :=
  if i < a.length then some (a.set i v) else none

/-- Checked exchange: Python `data[i], data[j] = data[j], data[i]`. -/
def pswap (a : List Int) (i j : Nat) : Option (List Int) := do
  let x ← pget a i
  let y ← pget a j
  let a1 ← pset a i y
  pset a1 j x

/-- Total description of the exchange `data[i], data[j] = data[j], data[i]`
(used to state what `pswap` returns when it succeeds). -/
def lswap (a : List Int) (i j : Nat) : List Int :=
  (a.set i (a.getD j 0)).set j (a.getD i 0)

/-- Total sequence read with default, used in invariant statements. -/
def gd (a : List Int) (i : Nat) : Int :=
  a.getD i 0

theorem gd_eq_getElem {a : List Int} {i : Nat} (h : i < a.length) :
    gd a i = a[i] := by
  simp [gd, List.getD_eq_getElem?_getD, List.getElem?_eq_getElem h]

theorem pget_eq_some {a : List Int} {i : Nat} (h : i < a.length) :
    pget a i = some (gd a i) := by
  rw [pget, List.getElem?_eq_getElem h, gd_eq_getElem h]

theorem gd_of_pget {a : List Int} {i : Nat} {x : Int} (h : pget a i = some x) :
    i < a.length ∧ gd a i = x := by
  rw [pget] at h
  have hlt : i < a.length := by
    by_contra hc
    rw [List.getElem?_len_le (Nat.le_of_not_lt hc)] at h
    simp at h
  refine ⟨hlt, ?_⟩
  rw [List.getElem?_eq_getElem hlt] at h
  rw [gd_eq_getElem hlt]
  exact Option.some_injective _ h

theorem pset_eq_some {a : List Int} {i : Nat} (h : i < a.length) (v : Int) :
    pset a i v = some (a.set i v) := by
  simp [pset, h]

theorem pswap_eq_some {a : List Int} {i j : Nat}
    (hi : i < a.length) (hj : j < a.length) :
    pswap a i j = some (lswap a i j) := by
  simp [pswap, pget_eq_some hi, pget_eq_some hj, lswap, pset, hi, hj,
    List.length_set, gd]

@[simp] theorem length_lswap (a : List Int) (i j : Nat) :
    (lswap a i j).length = a.length := by
  simp [lswap]

theorem lswap_self (a : List Int) (i : Nat) : lswap a i i = a := by
  apply List.ext_getElem?
  intro j
  by_cases hij : i = j
  · subst hij
    by_cases hi : i < a.length
    · simp [lswap, List.getElem?_set, hi, List.getD_eq_getElem?_getD,
        List.getElem?_eq_getElem hi]
    · simp [lswap, List.getElem?_set, hi, List.getElem?_len_le,
        Nat.le_of_not_lt hi]
  · simp [lswap, List.getElem?_set, hij]

theorem gd_set_eq {a : List Int} {i : Nat} (h : i < a.length) (v : Int) :
    gd (a.set i v) i = v := by
  simp [gd, List.getD_eq_getElem?_getD, List.getElem?_set, h]

theorem gd_set_ne {a : List Int} {i k : Nat} (h : i ≠ k) (v : Int) :
    gd (a.set i v) k = gd a k := by
  simp [gd, List.getD_eq_getElem?_getD, List.getElem?_set, h]

theorem gd_lswap_left {a : List Int} {i j : Nat}
    (hi : i < a.length) (hj : j < a.length) (hij : i ≠ j) :
    gd (lswap a i j) i = gd a j := by
  unfold lswap
  rw [gd_set_ne (Ne.symm hij), gd_set_eq hi]
  rfl

theorem gd_lswap_right {a : List Int} {i j : Nat}
    (hi : i < a.length) (hj : j < a.length) :
    gd (lswap a i j) j = gd a i := by
  unfold lswap
  rw [gd_set_eq (by simpa using hj)]
  rfl

theorem gd_lswap_other {a : List Int} {i j k : Nat}
    (h1 : k ≠ i) (h2 : k ≠ j) : gd (lswap a i j) k = gd a k := by
  unfold lswap
  rw [gd_set_ne (Ne.symm h2), gd_set_ne (Ne.symm h1)]

theorem count_set_of_lt (a : List Int) {i : Nat} (h : i < a.length) (v w : Int) :
    (a.set i v).count w =
      a.count w - (if a[i] = w then 1 else 0) + (if v = w then 1 else 0) := by
  have := List.count_set v w a i h
  simpa [beq_iff_eq] using this

theorem one_le_count_of_getElem {a : List Int} {i : Nat} (h : i < a.length)
    {w : Int} (hw : a[i] = w) : 1 ≤ a.count w := by
  have : w ∈ a := hw ▸ List.getElem_mem h
  exact List.count_pos_iff.mpr this

theorem count_lswap (a : List Int) {i j : Nat}
    (hi : i < a.length) (hj : j < a.length) (v : Int) :
    (lswap a i j).count v = a.count v := by
  have hj' : j < (a.set i (a.getD j 0)).length := by simpa using hj
  have hgi : a.getD i 0 = a[i] := gd_eq_getElem hi
  have hgj : a.getD j 0 = a[j] := gd_eq_getElem hj
  have hset : (a.set i (a.getD j 0))[j] = if i = j then a.getD j 0 else a[j] :=
    List.getElem_set hj'
  unfold lswap
  rw [count_set_of_lt _ hj', count_set_of_lt _ hi, hset, hgi, hgj]
  have hite : (if i = j then a[j] else a[j]) = a[j] := by split <;> rfl
  rw [hite]
  by_cases h1 : a[i] = v
  · have hc := one_le_count_of_getElem hi h1
    by_cases h2 : a[j] = v <;> simp [h1, h2] <;> omega
  · by_cases h2 : a[j] = v <;> simp [h1, h2]

theorem lswap_perm (a : List Int) {i j : Nat}
    (hi : i < a.length) (hj : j < a.length) : (lswap a i j).Perm a := by
  rw [List.perm_iff_count]
  intro v
  exact count_lswap a hi hj v

/-- Index-wise non-decreasing predicate used for loop invariants. -/
def SortedLe (a : List Int) : Prop :=
  ∀ i j : Nat, i < j → j < a.length → gd a i ≤ gd a j

theorem sortedLe_iff {a : List Int} :
    SortedLe a ↔ List.Sorted (· ≤ ·) a := by
  constructor
  · intro h
    rw [List.Sorted, List.pairwise_iff_getElem]
    intro i j hi hj hij
    have := h i j hij hj
    rwa [gd_eq_getElem (by omega), gd_eq_getElem hj] at this
  · intro h i j hij hj
    rw [List.Sorted, List.pairwise_iff_getElem] at h
    rw [gd_eq_getElem (by omega), gd_eq_getElem hj]
    exact h i j (by omega) hj hij

theorem sortedLe_of_adjacent {a : List Int}
    (h : ∀ i : Nat, i + 1 < a.length → gd a i ≤ gd a (i + 1)) : SortedLe a := by
  intro i j hij hj
  induction j with
  | zero => omega
  | succ m ih =>
    rcases Nat.lt_or_ge i m with hlt | hge
    · exact le_trans (ih hlt (by omega)) (h m hj)
    · have : i = m := by omega
      subst this
      exact h i hj

/-! ## Selection sort (`selection_sort`, `selection_sort_visual`) -/

/-- Inner loop of `selection_sort` (src/sorting.py:19-21):
`for j in range(i+1, n): if data[j] < data[min_idx]: min_idx = j`.
`n` is the length captured before the loop. -/
def selMinLoop (n : Nat) (a : List Int) (minIdx j : Nat) : Option Nat :=
  if h : j < n then do
    let x ← pget a j
    let m ← pget a minIdx
    selMinLoop n a (if x < m then j else minIdx) (j + 1)
  else
    some minIdx
termination_by n - j

/-- Outer loop of `selection_sort` (src/sorting.py:17-23). -/
def selOuterLoop (n : Nat) (a : List Int) (i : Nat) : Option (List Int) :=
  if h : i < n then do
    let minIdx ← selMinLoop n a i (i + 1)
    let a' ← pswap a i minIdx
    selOuterLoop n a' (i + 1)
  else
    some a
termination_by n - i

/-- `selection_sort` (src/sorting.py:8-23), in-place selection sort. -/
def selection_sort (data : List Int) : Option (List Int) :=
  selOuterLoop data.length data 0

theorem selMinLoop_spec (n : Nat) (a : List Int) (minIdx j : Nat)
    (hn : n = a.length) (hm : minIdx < n) (hmj : minIdx < j) :
    ∃ m, selMinLoop n a minIdx j = some m ∧ m < n ∧ minIdx ≤ m ∧
      gd a m ≤ gd a minIdx ∧
      ∀ k, j ≤ k → k < n → gd a m ≤ gd a k := by
  rw [selMinLoop]
  by_cases h : j < n
  · rw [dif_pos h]
    rw [pget_eq_some (hn ▸ h), pget_eq_some (hn ▸ hm)]
    simp only [Option.bind_eq_bind, Option.some_bind]
    by_cases hlt : gd a j < gd a minIdx
    · rw [if_pos hlt]
      obtain ⟨m, hrec, hmn, hle, hmin, hall⟩ :=
        selMinLoop_spec n a j (j + 1) hn h (by omega)
      refine ⟨m, hrec, hmn, by omega, le_trans hmin (le_of_lt hlt), ?_⟩
      intro k hk hkn
      rcases Nat.eq_or_lt_of_le hk with hk' | hk'
      · exact hk' ▸ hmin
      · exact hall k (by omega) hkn
    · rw [if_neg hlt]
      obtain ⟨m, hrec, hmn, hle, hmin, hall⟩ :=
        selMinLoop_spec n a minIdx (j + 1) hn hm (by omega)
      refine ⟨m, hrec, hmn, hle, hmin, ?_⟩
      intro k hk hkn
      rcases Nat.eq_or_lt_of_le hk with hk' | hk'
      · subst hk'
        omega
      · exact hall k (by omega) hkn
  · rw [dif_neg h]
    exact ⟨minIdx, rfl, hm, le_refl _, le_refl _, fun k hk hkn => by omega⟩
termination_by n - j

theorem selOuterLoop_spec (n : Nat) (a : List Int) (i : Nat)
    (hn : n = a.length)
    (hpre : ∀ p q, p < q → q < i → q < n → gd a p ≤ gd a q)
    (hdom : ∀ p q, p < i → i ≤ q → q < n → gd a p ≤ gd a q) :
    ∃ r, selOuterLoop n a i = some r ∧ r.length = a.length ∧
      r.Perm a ∧ SortedLe r := by
  rw [selOuterLoop]
  by_cases h : i < n
  · rw [dif_pos h]
    obtain ⟨m, hrec, hmn, him, hle, hall⟩ :=
      selMinLoop_spec n a i (i + 1) hn h (by omega)
    rw [hrec]
    simp only [Option.bind_eq_bind, Option.some_bind]
    rw [pswap_eq_some (hn ▸ h) (hn ▸ hmn)]
    simp only [Option.bind_eq_bind, Option.some_bind]
    set a' := lswap a i m with ha'
    have hlen' : a'.length = a.length := length_lswap a i m
    have hgi : gd a' i = gd a m := by
      by_cases him' : i = m
      · subst him'
        by_cases hil : i < a.length
        · rw [gd_lswap_right hil hil]
        · simp [gd, List.getD_eq_getElem?_getD, List.getElem?_len_le,
            Nat.le_of_not_lt hil, ha', List.length_set, lswap]
      · exact gd_lswap_left (hn ▸ h) (hn ▸ hmn) him'
    have hother : ∀ k, k ≠ i → k ≠ m → gd a' k = gd a k :=
      fun k h1 h2 => gd_lswap_other h1 h2
    have hgm : gd a' m = gd a i := gd_lswap_right (hn ▸ h) (hn ▸ hmn)
    -- every position ≥ i of a' holds one of the old values at positions ≥ i
    have hvals : ∀ q, i ≤ q → q < n → ∃ q₀, i ≤ q₀ ∧ q₀ < n ∧ gd a' q = gd a q₀ := by
      intro q hq hqn
      by_cases hqi : q = i
      · exact ⟨m, him, hmn, by rw [hqi, hgi]⟩
      · by_cases hqm : q = m
        · exact ⟨i, le_refl _, h, by rw [hqm, hgm]⟩
        · exact ⟨q, hq, hqn, hother q hqi hqm⟩
    have hpre' : ∀ p q, p < q → q < i + 1 → q < n → gd a' p ≤ gd a' q := by
      intro p q hpq hqi hqn
      have hp : p < i := by omega
      have hp' : gd a' p = gd a p := hother p (by omega) (by omega)
      by_cases hqi' : q = i
      · subst hqi'
        rw [hp', hgi]
        exact hdom p m hp him hmn
      · have hq : q < i := by omega
        rw [hp', hother q (by omega) (by omega)]
        exact hpre p q hpq (by omega) hqn
    have hdom' : ∀ p q, p < i + 1 → i + 1 ≤ q → q < n → gd a' p ≤ gd a' q := by
      intro p q hp hq hqn
      obtain ⟨q₀, hq₀i, hq₀n, hq₀⟩ := hvals q (by omega) hqn
      rw [hq₀]
      by_cases hpi : p = i
      · subst hpi
        rw [hgi]
        rcases Nat.eq_or_lt_of_le hq₀i with he | hlt
        · rw [← he]
          exact hle
        · exact hall q₀ (by omega) hq₀n
      · have hp' : gd a' p = gd a p := hother p hpi (by omega)
        rw [hp']
        exact hdom p q₀ (by omega) hq₀i hq₀n
    obtain ⟨r, hrec', hrl, hrp, hrs⟩ :=
      selOuterLoop_spec n a' (i + 1) (by rw [hlen', hn]) hpre' hdom'
    exact ⟨r, hrec', by rw [hrl, hlen'],
      hrp.trans (lswap_perm a (hn ▸ h) (hn ▸ hmn)), hrs⟩
  · rw [dif_neg h]
    refine ⟨a, rfl, rfl, List.Perm.refl a, ?_⟩
    intro p q hpq hq
    exact hpre p q hpq (by omega) (by omega)
termination_by n - i

/-- `selection_sort` sorts: the checked run succeeds and returns a
non-decreasing permutation of the input. -/
theorem selection_sort_correct (l : List Int) :
    ∃ r, selection_sort l = some r ∧ r.length = l.length ∧
      r.Perm l ∧ List.Sorted (· ≤ ·) r := by
  obtain ⟨r, h1, h2, h3, h4⟩ :=
    selOuterLoop_spec l.length l 0 rfl
      (fun p q _ hq _ => by omega) (fun p q hp _ _ => by omega)
  exact ⟨r, h1, h2, h3, sortedLe_iff.mp h4⟩

/-- Inner loop of `selection_sort_visual` (src/sorting.py:225-229), also
yielding `compare` / `min_candidate` snapshots. -/
def selVisMinLoop (n : Nat) (a : List Int) (i minIdx j : Nat) :
    Option (List Snap × Nat) :=
  if h : j < n then do
    let s1 : Snap := { data := a, compare := some [minIdx, j], highlight := some [i] }
    let x ← pget a j
    let m ← pget a minIdx
    if x < m then do
      let s2 : Snap := { data := a, highlight := some [i], minCandidate := some j }
      let (sn, r) ← selVisMinLoop n a i j (j + 1)
      some (s1 :: s2 :: sn, r)
    else do
      let (sn, r) ← selVisMinLoop n a i minIdx (j + 1)
      some (s1 :: sn, r)
  else
    some ([], minIdx)
termination_by n - j

/-- Outer loop of `selection_sort_visual` (src/sorting.py:222-237). -/
def selVisOuterLoop (n : Nat) (a : List Int) (i : Nat) :
    Option (List Snap × List Int) :=
  if h : i < n then do
    let s0 : Snap := { data := a, highlight := some [i], minCandidate := some i }
    let (sn, minIdx) ← selVisMinLoop n a i i (i + 1)
    if minIdx ≠ i then do
      let a' ← pswap a i minIdx
      let (sn2, r) ← selVisOuterLoop n a' (i + 1)
      some (s0 :: sn ++ ({ data := a', swap := some [i, minIdx] } : Snap) :: sn2, r)
    else do
      let (sn2, r) ← selVisOuterLoop n a (i + 1)
      some (s0 :: sn ++ ({ data := a, final := some [i] } : Snap) :: sn2, r)
  else
    some ([], a)
termination_by n - i

/-- `selection_sort_visual` (src/sorting.py:218-239): generator version of
selection sort; the value is the ordered list of yielded snapshots. -/
def selection_sort_visual (data : List Int) : Option (List Snap) := do
  let n := data.length
  let (sn, r) ← selVisOuterLoop n data 0
  some (sn ++ [{ data := r, final := some (List.range n) }])

theorem selVisMinLoop_spec (n : Nat) (a : List Int) (i minIdx j : Nat)
    (hn : n = a.length) (hm : minIdx < n) :
    ∃ sn m, selVisMinLoop n a i minIdx j = some (sn, m) ∧
      selMinLoop n a minIdx j = some m ∧
      ∀ s ∈ sn, s.data = a := by
  rw [selVisMinLoop, selMinLoop]
  by_cases h : j < n
  · rw [dif_pos h, dif_pos h]
    rw [pget_eq_some (hn ▸ h), pget_eq_some (hn ▸ hm)]
    simp only [Option.bind_eq_bind, Option.some_bind]
    by_cases hlt : gd a j < gd a minIdx
    · rw [if_pos hlt, if_pos hlt]
      obtain ⟨sn, m, hvis, href, hdat⟩ :=
        selVisMinLoop_spec n a i j (j + 1) hn h
      rw [hvis, href]
      refine ⟨_, m, rfl, rfl, ?_⟩
      intro s hs
      simp only [List.mem_cons] at hs
      rcases hs with hs | hs | hs
      · rw [hs]
      · rw [hs]
      · exact hdat s hs
    · rw [if_neg hlt, if_neg hlt]
      obtain ⟨sn, m, hvis, href, hdat⟩ :=
        selVisMinLoop_spec n a i minIdx (j + 1) hn hm
      rw [hvis, href]
      refine ⟨_, m, rfl, rfl, ?_⟩
      intro s hs
      simp only [List.mem_cons] at hs
      rcases hs with hs | hs
      · rw [hs]
      · exact hdat s hs
  · rw [dif_neg h, dif_neg h]
    exact ⟨[], minIdx, rfl, rfl, by intro s hs; simp at hs⟩
termination_by n - j

theorem selVisOuterLoop_spec (n : Nat) (a : List Int) (i : Nat)
    (hn : n = a.length) :
    ∃ sn r, selVisOuterLoop n a i = some (sn, r) ∧
      selOuterLoop n a i = some r ∧
      ∀ s ∈ sn, s.data.length = a.length := by
  rw [selVisOuterLoop, selOuterLoop]
  by_cases h : i < n
  · rw [dif_pos h, dif_pos h]
    obtain ⟨sn, m, hvis, href, hdat⟩ := selVisMinLoop_spec n a i i (i + 1) hn h
    obtain ⟨m', href', hmn, _, _, _⟩ := selMinLoop_spec n a i (i + 1) hn h (by omega)
    have hm : m = m' := by
      rw [href] at href'
      exact Option.some_injective _ href'
    subst hm
    rw [hvis, href]
    simp only [Option.bind_eq_bind, Option.some_bind]
    rw [pswap_eq_some (hn ▸ h) (hn ▸ hmn)]
    by_cases hmi : m ≠ i
    · rw [if_pos hmi]
      simp only [Option.bind_eq_bind, Option.some_bind]
      obtain ⟨sn2, r, hvis2, href2, hdat2⟩ :=
        selVisOuterLoop_spec n (lswap a i m) (i + 1) (by rw [length_lswap, hn])
      rw [hvis2, href2]
      refine ⟨_, r, rfl, rfl, ?_⟩
      intro s hs
      rcases List.mem_cons.mp hs with h1 | h1
      · rw [h1]
      · rcases List.mem_append.mp h1 with h2 | h2
        · rw [hdat s h2]
        · rcases List.mem_cons.mp h2 with h3 | h3
          · rw [h3]
            simp
          · rw [hdat2 s h3, length_lswap]
    · rw [if_neg hmi]
      simp only [Option.bind_eq_bind, Option.some_bind]
      push_neg at hmi
      rw [hmi, lswap_self]
      obtain ⟨sn2, r, hvis2, href2, hdat2⟩ := selVisOuterLoop_spec n a (i + 1) hn
      rw [hvis2, href2]
      refine ⟨_, r, rfl, rfl, ?_⟩
      intro s hs
      rcases List.mem_cons.mp hs with h1 | h1
      · rw [h1]
      · rcases List.mem_append.mp h1 with h2 | h2
        · rw [hdat s h2]
        · rcases List.mem_cons.mp h2 with h3 | h3
          · rw [h3]
          · exact hdat2 s h3
  · rw [dif_neg h, dif_neg h]
    exact ⟨[], a, rfl, rfl, by intro s hs; simp at hs⟩
termination_by n - i

/-- Summary of one `selection_sort_visual` run: it succeeds, its snapshot
list ends with the all-final snapshot holding the `selection_sort` result,
and every snapshot's `data` has the input's length. -/
theorem selection_sort_visual_spec (l : List Int) :
    ∃ sn r, selection_sort_visual l =
        some (sn ++ [{ data := r, final := some (List.range l.length) }]) ∧
      selection_sort l = some r ∧
      ∀ s ∈ sn, s.data.length = l.length := by
  obtain ⟨sn, r, hvis, href, hdat⟩ := selVisOuterLoop_spec l.length l 0 rfl
  refine ⟨sn, r, ?_, href, hdat⟩
  rw [selection_sort_visual, hvis]
  rfl

/-! ## Bubble sort (`bubble_sort`, `bubble_sort_visual`) -/

/-- Inner pass of `bubble_sort` (src/sorting.py:37-40):
`for j in range(0, stop): if data[j] > data[j+1]: swap; swapped = True`,
where `stop = n - i - 1`.  Returns the list and the `swapped` flag. -/
def bubblePass (a : List Int) (j stop : Nat) (swapped : Bool) :
    Option (List Int × Bool) :=
  if h : j < stop then do
    let x ← pget a j
    let y ← pget a (j + 1)
    if x > y then do
      let a' ← pswap a j (j + 1)
      bubblePass a' (j + 1) stop true
    else
      bubblePass a (j + 1) stop swapped
  else
    some (a, swapped)
termination_by stop - j

/-- Outer loop of `bubble_sort` (src/sorting.py:34-43), with the
early exit `if not swapped: break`. -/
def bubbleOuterLoop (n : Nat) (a : List Int) (i : Nat) : Option (List Int) :=
  if h : i < n then do
    let (a', swapped) ← bubblePass a 0 (n - i - 1) false
    if swapped then bubbleOuterLoop n a' (i + 1) else some a'
  else
    some a
termination_by n - i

/-- `bubble_sort` (src/sorting.py:25-43), in-place bubble sort. -/
def bubble_sort (data : List Int) : Option (List Int) :=
  bubbleOuterLoop data.length data 0

/-- Positions `≥ m` agree pointwise, so the dropped suffixes are equal. -/
theorem drop_eq_of_gd_eq {a' a : List Int} (m : Nat)
    (hl : a'.length = a.length) (h : ∀ k, m ≤ k → gd a' k = gd a k) :
    a'.drop m = a.drop m := by
  apply List.ext_getElem?
  intro t
  rw [List.getElem?_drop, List.getElem?_drop]
  by_cases hk : m + t < a.length
  · have hk' : m + t < a'.length := by omega
    rw [List.getElem?_eq_getElem hk, List.getElem?_eq_getElem hk']
    have := h (m + t) (by omega)
    rw [gd_eq_getElem hk', gd_eq_getElem hk] at this
    rw [this]
  · rw [List.getElem?_len_le (by omega), List.getElem?_len_le (by omega)]

theorem take_perm_of_drop_eq {a' a : List Int} (m : Nat)
    (hp : a'.Perm a) (hd : a'.drop m = a.drop m) :
    (a'.take m).Perm (a.take m) := by
  have hper : (a'.take m ++ a.drop m).Perm (a.take m ++ a.drop m) := by
    have h1 : a'.take m ++ a.drop m = a' := by
      rw [← hd]
      exact List.take_append_drop m a'
    rw [h1, List.take_append_drop]
    exact hp
  exact (List.perm_append_right_iff (a.drop m)).mp hper

/-- A position of the permuted prefix holds some value of the original
prefix. -/
theorem exists_source_of_take_perm {a' a : List Int} {m : Nat}
    (hp : (a'.take m).Perm (a.take m)) {p : Nat} (hpm : p < m)
    (hpl : p < a'.length) :
    ∃ q, q < m ∧ q < a.length ∧ gd a' p = gd a q := by
  have hmem : gd a' p ∈ a'.take m := by
    rw [gd_eq_getElem hpl]
    have hlt : p < (a'.take m).length := by
      rw [List.length_take]
      omega
    have : (a'.take m)[p] = a'[p] := List.getElem_take a'
    rw [← this]
    exact List.getElem_mem hlt
  have hmem2 : gd a' p ∈ a.take m := hp.mem_iff.mp hmem
  obtain ⟨q, hq, hval⟩ := List.mem_iff_getElem.mp hmem2
  rw [List.length_take] at hq
  have hql : q < a.length := by omega
  refine ⟨q, by omega, hql, ?_⟩
  rw [gd_eq_getElem hql, ← hval, List.getElem_take]


/-- The `swapped` flag is never reset inside a pass. -/
theorem bubblePass_flag (a : List Int) (j stop : Nat) {r : List Int × Bool}
    (h : bubblePass a j stop true = some r) : r.2 = true := by
  rw [bubblePass] at h
  by_cases hj : j < stop
  · rw [dif_pos hj] at h
    rcases hx : pget a j with _ | x
    · rw [hx] at h
      simp at h
    rcases hy : pget a (j + 1) with _ | y
    · rw [hx, hy] at h
      simp at h
    rw [hx, hy] at h
    simp only [Option.bind_eq_bind, Option.some_bind] at h
    by_cases hgt : x > y
    · rw [if_pos hgt] at h
      rcases hsw : pswap a j (j + 1) with _ | a'
      · rw [hsw] at h
        simp at h
      rw [hsw] at h
      simp only [Option.bind_eq_bind, Option.some_bind] at h
      exact bubblePass_flag a' (j + 1) stop h
    · rw [if_neg hgt] at h
      exact bubblePass_flag a (j + 1) stop h
  · rw [dif_neg hj] at h
    simp at h
    rw [← h]
termination_by stop - j

/-- A pass that starts with `swapped = False` and ends with
`swapped = False` changed nothing and certifies the processed adjacent
pairs are in order. -/
theorem bubblePass_no_swap (a : List Int) (j stop : Nat) {a' : List Int}
    (h : bubblePass a j stop false = some (a', false)) :
    a' = a ∧ ∀ k, j ≤ k → k < stop → gd a k ≤ gd a (k + 1) := by
  rw [bubblePass] at h
  by_cases hj : j < stop
  · rw [dif_pos hj] at h
    rcases hx : pget a j with _ | x
    · rw [hx] at h
      simp at h
    rcases hy : pget a (j + 1) with _ | y
    · rw [hx, hy] at h
      simp at h
    rw [hx, hy] at h
    simp only [Option.bind_eq_bind, Option.some_bind] at h
    by_cases hgt : x > y
    · rw [if_pos hgt] at h
      rcases hsw : pswap a j (j + 1) with _ | a1
      · rw [hsw] at h
        simp at h
      rw [hsw] at h
      simp only [Option.bind_eq_bind, Option.some_bind] at h
      have := bubblePass_flag a1 (j + 1) stop h
      simp at this
    · rw [if_neg hgt] at h
      obtain ⟨he, hadj⟩ := bubblePass_no_swap a (j + 1) stop h
      refine ⟨he, ?_⟩
      intro k hk hks
      rcases Nat.eq_or_lt_of_le hk with hk' | hk'
      · rw [← hk']
        rw [(gd_of_pget hx).2, (gd_of_pget hy).2]
        omega
      · exact hadj k (by omega) hks
  · rw [dif_neg hj] at h
    simp at h
    exact ⟨h.symm, fun k hk hks => by omega⟩
termination_by stop - j

/-- Main specification of one bubble pass: it succeeds whenever the pass
range lies inside the sequence, permutes the list, leaves positions beyond
`stop` untouched, and leaves a maximum of positions `0..stop` at `stop`. -/
theorem bubblePass_spec (a : List Int) (j stop : Nat) (sw : Bool)
    (hs : stop + 1 ≤ a.length ∨ stop ≤ j) (hj : j ≤ stop)
    (hcarry : ∀ k, k < j → gd a k ≤ gd a j) :
    ∃ a' sw', bubblePass a j stop sw = some (a', sw') ∧
      a'.length = a.length ∧ a'.Perm a ∧
      (∀ k, stop < k → gd a' k = gd a k) ∧
      (∀ k, k ≤ stop → gd a' k ≤ gd a' stop) := by
  rw [bubblePass]
  by_cases hjs : j < stop
  · rw [dif_pos hjs]
    have hsl : stop + 1 ≤ a.length := by
      rcases hs with h | h
      · exact h
      · omega
    have hjl : j < a.length := by omega
    have hj1l : j + 1 < a.length := by omega
    rw [pget_eq_some hjl, pget_eq_some hj1l]
    simp only [Option.bind_eq_bind, Option.some_bind]
    by_cases hgt : gd a j > gd a (j + 1)
    · rw [if_pos hgt]
      rw [pswap_eq_some hjl hj1l]
      simp only [Option.bind_eq_bind, Option.some_bind]
      have hl1 : (lswap a j (j + 1)).length = a.length := length_lswap a j (j + 1)
      have hc1 : ∀ k, k < j + 1 →
          gd (lswap a j (j + 1)) k ≤ gd (lswap a j (j + 1)) (j + 1) := by
        intro k hk
        have hnew : gd (lswap a j (j + 1)) (j + 1) = gd a j :=
          gd_lswap_right hjl hj1l
        by_cases hkj : k = j
        · rw [hkj, gd_lswap_left hjl hj1l (by omega), hnew]
          omega
        · rw [gd_lswap_other (show k ≠ j by omega) (show k ≠ j + 1 by omega), hnew]
          exact hcarry k (by omega)
      obtain ⟨a', sw', hrec, hlen, hperm, hout, hmax⟩ :=
        bubblePass_spec (lswap a j (j + 1)) (j + 1) stop true
          (by left; omega) (by omega) hc1
      refine ⟨a', sw', hrec, by rw [hlen, hl1],
        hperm.trans (lswap_perm a hjl hj1l), ?_, hmax⟩
      intro k hk
      rw [hout k hk, gd_lswap_other (by omega) (by omega)]
    · rw [if_neg hgt]
      have hc1 : ∀ k, k < j + 1 → gd a k ≤ gd a (j + 1) := by
        intro k hk
        by_cases hkj : k = j
        · rw [hkj]
          omega
        · exact le_trans (hcarry k (by omega)) (by omega)
      exact bubblePass_spec a (j + 1) stop sw (by left; omega) (by omega) hc1
  · rw [dif_neg hjs]
    have hje : j = stop := by omega
    refine ⟨a, sw, rfl, rfl, List.Perm.refl a, fun k hk => rfl, ?_⟩
    intro k hk
    rcases Nat.eq_or_lt_of_le hk with hk' | hk'
    · exact hk' ▸ le_refl _
    · exact hje ▸ hcarry k (by omega)
termination_by stop - j

theorem bubbleOuterLoop_spec (n : Nat) (a : List Int) (i : Nat)
    (hn : n = a.length)
    (hS1 : ∀ p q, n - i ≤ p → p < q → q < n → gd a p ≤ gd a q)
    (hS2 : ∀ p q, p < n - i → n - i ≤ q → q < n → gd a p ≤ gd a q) :
    ∃ r, bubbleOuterLoop n a i = some r ∧ r.length = a.length ∧
      r.Perm a ∧ SortedLe r := by
  rw [bubbleOuterLoop]
  by_cases h : i < n
  · rw [dif_pos h]
    obtain ⟨a', sw', hpass, hlen, hperm, hout, hmax⟩ :=
      bubblePass_spec a 0 (n - i - 1) false (by left; omega) (by omega)
        (fun k hk => by omega)
    rw [hpass]
    simp only [Option.bind_eq_bind, Option.some_bind]
    have hdrop : a'.drop (n - i) = a.drop (n - i) :=
      drop_eq_of_gd_eq (n - i) hlen (fun k hk => hout k (by omega))
    have htake : (a'.take (n - i)).Perm (a.take (n - i)) :=
      take_perm_of_drop_eq (n - i) hperm hdrop
    cases sw' with
    | false =>
      obtain ⟨heq, hadj⟩ := bubblePass_no_swap a 0 (n - i - 1) hpass
      subst heq
      refine ⟨a', rfl, rfl, List.Perm.refl a', ?_⟩
      apply sortedLe_of_adjacent
      intro k hk
      by_cases hk1 : k < n - i - 1
      · exact hadj k (by omega) hk1
      · by_cases hk2 : k = n - i - 1
        · subst hk2
          exact hS2 (n - i - 1) (n - i - 1 + 1) (by omega) (by omega) (by omega)
        · exact hS1 k (k + 1) (by omega) (by omega) (by omega)
    | true =>
      have hS1' : ∀ p q, n - (i + 1) ≤ p → p < q → q < n → gd a' p ≤ gd a' q := by
        intro p q hp hpq hq
        by_cases hps : n - i ≤ p
        · rw [hout p (by omega), hout q (by omega)]
          exact hS1 p q hps hpq hq
        · have hp' : p = n - i - 1 := by omega
          obtain ⟨q₀, hq₀m, hq₀l, hq₀⟩ :=
            exists_source_of_take_perm htake
              (show p < n - i by omega) (by omega)
          rw [hq₀, hout q (by omega)]
          exact hS2 q₀ q (by omega) (by omega) hq
      have hS2' : ∀ p q, p < n - (i + 1) → n - (i + 1) ≤ q → q < n →
          gd a' p ≤ gd a' q := by
        intro p q hp hq hqn
        by_cases hqs : q = n - i - 1
        · subst hqs
          exact hmax p (by omega)
        · obtain ⟨p₀, hp₀m, hp₀l, hp₀⟩ :=
            exists_source_of_take_perm htake
              (show p < n - i by omega) (by omega)
          rw [hp₀, hout q (by omega)]
          exact hS2 p₀ q (by omega) (by omega) hqn
      obtain ⟨r, hrec, hrl, hrp, hrs⟩ :=
        bubbleOuterLoop_spec n a' (i + 1) (by rw [hn, hlen]) hS1' hS2'
      exact ⟨r, hrec, by rw [hrl, hlen], hrp.trans hperm, hrs⟩
  · rw [dif_neg h]
    refine ⟨a, rfl, rfl, List.Perm.refl a, ?_⟩
    intro p q hpq hq
    exact hS1 p q (by omega) hpq (by omega)
termination_by n - i

/-- `bubble_sort` sorts: the checked run succeeds and returns a
non-decreasing permutation of the input. -/
theorem bubble_sort_correct (l : List Int) :
    ∃ r, bubble_sort l = some r ∧ r.length = l.length ∧
      r.Perm l ∧ List.Sorted (· ≤ ·) r := by
  obtain ⟨r, h1, h2, h3, h4⟩ :=
    bubbleOuterLoop_spec l.length l 0 rfl
      (fun p q hp hpq hq => by omega) (fun p q hp hq hqn => by omega)
  exact ⟨r, h1, h2, h3, sortedLe_iff.mp h4⟩

/-- Inner pass of `bubble_sort_visual` (src/sorting.py:248-253), also
yielding `compare` / `swap` snapshots tagged with the sorted-region mark. -/
def bubVisPass (n : Nat) (a : List Int) (i j stop : Nat) (swapped : Bool) :
    Option (List Snap × List Int × Bool) :=
  if h : j < stop then do
    let s1 : Snap := { data := a, compare := some [j, j + 1], sortedUpto := some (n - i) }
    let x ← pget a j
    let y ← pget a (j + 1)
    if x > y then do
      let a' ← pswap a j (j + 1)
      let s2 : Snap := { data := a', swap := some [j, j + 1], sortedUpto := some (n - i) }
      let (sn, r, sw) ← bubVisPass n a' i (j + 1) stop true
      some (s1 :: s2 :: sn, r, sw)
    else do
      let (sn, r, sw) ← bubVisPass n a i (j + 1) stop swapped
      some (s1 :: sn, r, sw)
  else
    some ([], a, swapped)
termination_by stop - j

/-- Outer loop of `bubble_sort_visual` (src/sorting.py:246-258) with the
end-of-pass `final` snapshot and the early-exit all-final snapshot. -/
def bubVisOuterLoop (n : Nat) (a : List Int) (i : Nat) :
    Option (List Snap × List Int) :=
  if h : i < n then do
    let (sn, a', swapped) ← bubVisPass n a i 0 (n - i - 1) false
    let s3 : Snap := { data := a', final := some [n - 1 - i], sortedUpto := some (n - i) }
    if swapped then do
      let (sn2, r) ← bubVisOuterLoop n a' (i + 1)
      some (sn ++ s3 :: sn2, r)
    else
      some (sn ++ [s3,
        { data := a', final := some (List.range n), sortedUpto := some 0 }], a')
  else
    some ([], a)
termination_by n - i

/-- `bubble_sort_visual` (src/sorting.py:242-259): generator version of
bubble sort; the value is the ordered list of yielded snapshots. -/
def bubble_sort_visual (data : List Int) : Option (List Snap) := do
  let n := data.length
  let (sn, r) ← bubVisOuterLoop n data 0
  some (sn ++ [{ data := r, final := some (List.range n), sortedUpto := some 0 }])

theorem bubVisPass_link (n : Nat) (a : List Int) (i j stop : Nat) (sw : Bool)
    (hs : stop + 1 ≤ a.length ∨ stop ≤ j) :
    ∃ sn a' sw', bubVisPass n a i j stop sw = some (sn, a', sw') ∧
      bubblePass a j stop sw = some (a', sw') ∧ a'.length = a.length ∧
      ∀ s ∈ sn, s.data.length = a.length := by
  rw [bubVisPass, bubblePass]
  by_cases hj : j < stop
  · rw [dif_pos hj, dif_pos hj]
    have hsl : stop + 1 ≤ a.length := by
      rcases hs with h | h
      · exact h
      · omega
    have hjl : j < a.length := by omega
    have hj1l : j + 1 < a.length := by omega
    rw [pget_eq_some hjl, pget_eq_some hj1l]
    simp only [Option.bind_eq_bind, Option.some_bind]
    by_cases hgt : gd a j > gd a (j + 1)
    · rw [if_pos hgt, if_pos hgt]
      rw [pswap_eq_some hjl hj1l]
      simp only [Option.bind_eq_bind, Option.some_bind]
      obtain ⟨sn, a', sw', hvis, href, hlen, hdat⟩ :=
        bubVisPass_link n (lswap a j (j + 1)) i (j + 1) stop true
          (by left; rw [length_lswap]; omega)
      rw [hvis, href]
      refine ⟨_, a', sw', rfl, rfl, by rw [hlen, length_lswap], ?_⟩
      intro s hsm
      rcases List.mem_cons.mp hsm with h1 | h1
      · rw [h1]
      · rcases List.mem_cons.mp h1 with h2 | h2
        · rw [h2]
          simp
        · rw [hdat s h2, length_lswap]
    · rw [if_neg hgt, if_neg hgt]
      obtain ⟨sn, a', sw', hvis, href, hlen, hdat⟩ :=
        bubVisPass_link n a i (j + 1) stop sw (by left; omega)
      rw [hvis, href]
      refine ⟨_, a', sw', rfl, rfl, hlen, ?_⟩
      intro s hsm
      rcases List.mem_cons.mp hsm with h1 | h1
      · rw [h1]
      · exact hdat s h1
  · rw [dif_neg hj, dif_neg hj]
    exact ⟨[], a, sw, rfl, rfl, rfl, by intro s hsm; simp at hsm⟩
termination_by stop - j

theorem bubVisOuterLoop_link (n : Nat) (a : List Int) (i : Nat)
    (hn : n = a.length) :
    ∃ sn r, bubVisOuterLoop n a i = some (sn, r) ∧
      bubbleOuterLoop n a i = some r ∧ r.length = a.length ∧
      ∀ s ∈ sn, s.data.length = a.length := by
  rw [bubVisOuterLoop, bubbleOuterLoop]
  by_cases h : i < n
  · rw [dif_pos h, dif_pos h]
    obtain ⟨sn, a', sw', hvis, href, hlen, hdat⟩ :=
      bubVisPass_link n a i 0 (n - i - 1) false (by left; omega)
    rw [hvis, href]
    simp only [Option.bind_eq_bind, Option.some_bind]
    cases sw' with
    | true =>
      obtain ⟨sn2, r, hvis2, href2, hrlen, hdat2⟩ :=
        bubVisOuterLoop_link n a' (i + 1) (by rw [hn, hlen])
      rw [if_pos rfl, if_pos rfl, hvis2, href2]
      refine ⟨_, r, rfl, rfl, by rw [hrlen, hlen], ?_⟩
      intro s hsm
      rcases List.mem_append.mp hsm with h1 | h1
      · exact hdat s h1
      · rcases List.mem_cons.mp h1 with h2 | h2
        · rw [h2]
          exact hlen
        · rw [hdat2 s h2]
          exact hlen
    | false =>
      rw [if_neg (by simp), if_neg (by simp)]
      refine ⟨_, a', rfl, rfl, hlen, ?_⟩
      intro s hsm
      rcases List.mem_append.mp hsm with h1 | h1
      · exact hdat s h1
      · rcases List.mem_cons.mp h1 with h2 | h2
        · rw [h2]
          exact hlen
        · rcases List.mem_cons.mp h2 with h3 | h3
          · rw [h3]
            exact hlen
          · simp at h3
  · rw [dif_neg h, dif_neg h]
    exact ⟨[], a, rfl, rfl, rfl, by intro s hsm; simp at hsm⟩
termination_by n - i

/-- Summary of one `bubble_sort_visual` run: it succeeds, ends with the
all-final terminal snapshot holding the `bubble_sort` result, and every
snapshot's `data` has the input's length. -/
theorem bubble_sort_visual_spec (l : List Int) :
    ∃ sn r, bubble_sort_visual l =
        some (sn ++ [{ data := r, final := some (List.range l.length), sortedUpto := some 0 }]) ∧
      bubble_sort l = some r ∧
      ∀ s ∈ sn, s.data.length = l.length := by
  obtain ⟨sn, r, hvis, href, hrlen, hdat⟩ := bubVisOuterLoop_link l.length l 0 rfl
  refine ⟨sn, r, ?_, href, hdat⟩
  rw [bubble_sort_visual, hvis]
  rfl

/-! ## Comb sort (`_get_next_gap`, `comb_sort`, `comb_sort_visual`) -/

/-- `_get_next_gap` (src/sorting.py:183-189): shrink the gap by the
factor 1.3 using integer division, clamped to a minimum of 1. -/
def get_next_gap (gap : Nat) : Nat :=
  let g := gap * 10 / 13
  if g < 1 then 1 else g

/-- Inner pass of `comb_sort` (src/sorting.py:211-214):
`for i in range(0, n - gap): if data[i] > data[i+gap]: swap; swapped = True`,
with `stop = n - gap`. -/
def combPass (a : List Int) (i stop gap : Nat) (swapped : Bool) :
    Option (List Int × Bool) :=
  if h : i < stop then do
    let x ← pget a i
    let y ← pget a (i + gap)
    if x > y then do
      let a' ← pswap a i (i + gap)
      combPass a' (i + 1) stop gap true
    else
      combPass a (i + 1) stop gap swapped
  else
    some (a, swapped)
termination_by stop - i

/-- `while gap != 1 or swapped:` loop of `comb_sort` (src/sorting.py:205-214),
made total with an explicit fuel parameter; `none` on fuel exhaustion.
`comb_sort_correct` shows the fuel used by `comb_sort` always suffices. -/
def combLoop (n fuel : Nat) (a : List Int) (gap : Nat) (swapped : Bool) :
    Option (List Int) :=
  match fuel with
  | 0 => none
  | fuel + 1 =>
    if gap ≠ 1 ∨ swapped = true then do
      let gap' := get_next_gap gap
      let (a', sw') ← combPass a 0 (n - gap') gap' false
      combLoop n fuel a' gap' sw'
    else
      some a

/-- `comb_sort` (src/sorting.py:191-214), in-place comb sort.  The fuel
`2*n + 3` dominates the loop's iteration count (proved in
`comb_sort_correct`). -/
def comb_sort (data : List Int) : Option (List Int) :=
  combLoop data.length (2 * data.length + 3) data data.length true

/-- A gap-1 comb pass is exactly a bubble pass. -/
theorem combPass_one_eq_bubblePass (a : List Int) (i stop : Nat) (sw : Bool) :
    combPass a i stop 1 sw = bubblePass a i stop sw := by
  rw [combPass, bubblePass]
  by_cases h : i < stop
  · rw [dif_pos h, dif_pos h]
    rcases hx : pget a i with _ | x
    · rfl
    rcases hy : pget a (i + 1) with _ | y
    · rfl
    simp only [Option.bind_eq_bind, Option.some_bind]
    by_cases hgt : x > y
    · rw [if_pos hgt, if_pos hgt]
      rcases hsw : pswap a i (i + 1) with _ | a'
      · rfl
      simp only [Option.bind_eq_bind, Option.some_bind]
      rw [combPass_one_eq_bubblePass a' (i + 1) stop true]
    · rw [if_neg hgt, if_neg hgt]
      exact combPass_one_eq_bubblePass a (i + 1) stop sw
  · rw [dif_neg h, dif_neg h]
termination_by stop - i

/-- A bubble pass over an already-ordered range does nothing and keeps
its flag. -/
theorem bubblePass_of_sorted (a : List Int) (j stop : Nat) (sw : Bool)
    (hs : stop + 1 ≤ a.length ∨ stop ≤ j)
    (hadj : ∀ k, j ≤ k → k < stop → gd a k ≤ gd a (k + 1)) :
    bubblePass a j stop sw = some (a, sw) := by
  rw [bubblePass]
  by_cases hj : j < stop
  · rw [dif_pos hj]
    have hsl : stop + 1 ≤ a.length := by
      rcases hs with h | h
      · exact h
      · omega
    rw [pget_eq_some (show j < a.length by omega),
      pget_eq_some (show j + 1 < a.length by omega)]
    simp only [Option.bind_eq_bind, Option.some_bind]
    rw [if_neg (by have := hadj j (le_refl j) hj; omega)]
    exact bubblePass_of_sorted a (j + 1) stop sw (by left; omega)
      (fun k hk hks => hadj k (by omega) hks)
  · rw [dif_neg hj]
termination_by stop - j

/-- Basic success / permutation facts about a comb pass at any gap ≥ 1. -/
theorem combPass_basic (a : List Int) (i stop gap : Nat) (sw : Bool)
    (hs : stop + gap ≤ a.length ∨ stop ≤ i) (hgap : 1 ≤ gap) :
    ∃ a' sw', combPass a i stop gap sw = some (a', sw') ∧
      a'.length = a.length ∧ a'.Perm a := by
  rw [combPass]
  by_cases h : i < stop
  · rw [dif_pos h]
    have hsl : stop + gap ≤ a.length := by
      rcases hs with hcase | hcase
      · exact hcase
      · omega
    have hil : i < a.length := by omega
    have higl : i + gap < a.length := by omega
    rw [pget_eq_some hil, pget_eq_some higl]
    simp only [Option.bind_eq_bind, Option.some_bind]
    by_cases hgt : gd a i > gd a (i + gap)
    · rw [if_pos hgt, pswap_eq_some hil higl]
      simp only [Option.bind_eq_bind, Option.some_bind]
      obtain ⟨a', sw', hrec, hlen, hperm⟩ :=
        combPass_basic (lswap a i (i + gap)) (i + 1) stop gap true
          (by left; rw [length_lswap]; omega) hgap
      exact ⟨a', sw', hrec, by rw [hlen, length_lswap],
        hperm.trans (lswap_perm a hil higl)⟩
    · rw [if_neg hgt]
      exact combPass_basic a (i + 1) stop gap sw (by left; omega) hgap
  · rw [dif_neg h]
    exact ⟨a, sw, rfl, rfl, List.Perm.refl a⟩
termination_by stop - i

theorem get_next_gap_lt {gap : Nat} (h : 2 ≤ gap) : get_next_gap gap < gap := by
  rw [get_next_gap]
  have : gap * 10 / 13 < gap := by
    apply Nat.div_lt_of_lt_mul
    omega
  split <;> omega

theorem one_le_get_next_gap (gap : Nat) : 1 ≤ get_next_gap gap := by
  rw [get_next_gap]
  split <;> omega

/-- A full bubble pass in the presence of a sorted suffix `[m, stop]` that
dominates the prefix: the suffix is untouched and the prefix maximum ends
at `m - 1`. -/
theorem bubblePass_with_suffix (a : List Int) (j stop m : Nat) (sw : Bool)
    (hs : stop + 1 ≤ a.length ∨ stop ≤ j)
    (hm1 : 1 ≤ m) (hmstop : m - 1 ≤ stop) (hj : j ≤ m - 1)
    (hcarry : ∀ p, p < j → gd a p ≤ gd a j)
    (hsufs : ∀ p q, m ≤ p → p < q → q ≤ stop → gd a p ≤ gd a q)
    (hsufd : ∀ p q, p < m → m ≤ q → q ≤ stop → gd a p ≤ gd a q) :
    ∃ a' sw', bubblePass a j stop sw = some (a', sw') ∧
      a'.length = a.length ∧ a'.Perm a ∧
      (∀ p, m ≤ p → gd a' p = gd a p) ∧
      (∀ p, p < m → gd a' p ≤ gd a' (m - 1)) := by
  by_cases hjs : j < stop
  · rw [bubblePass, dif_pos hjs]
    have hsl : stop + 1 ≤ a.length := by
      rcases hs with hcase | hcase
      · exact hcase
      · omega
    have hjl : j < a.length := by omega
    have hj1l : j + 1 < a.length := by omega
    rw [pget_eq_some hjl, pget_eq_some hj1l]
    simp only [Option.bind_eq_bind, Option.some_bind]
    by_cases hcross : j = m - 1
    · -- the comparison at the boundary never swaps, and the rest of the
      -- pass runs inside the sorted suffix
      have hjm : j + 1 = m := by omega
      have hnoswap : ¬ gd a j > gd a (j + 1) := by
        have := hsufd j (j + 1) (by omega) (by omega) (by omega)
        omega
      rw [if_neg hnoswap]
      rw [bubblePass_of_sorted a (j + 1) stop sw (by left; omega)
        (fun k hk hks => hsufs k (k + 1) (by omega) (by omega) (by omega))]
      refine ⟨a, sw, rfl, rfl, List.Perm.refl a, fun p hp => rfl, ?_⟩
      intro p hp
      rcases Nat.lt_or_ge p (m - 1) with hp' | hp'
      · exact hcross ▸ hcarry p (by omega)
      · have : p = m - 1 := by omega
        rw [this]
    · -- ordinary pass step strictly inside the prefix
      have hjm : j + 1 ≤ m - 1 := by omega
      by_cases hgt : gd a j > gd a (j + 1)
      · rw [if_pos hgt, pswap_eq_some hjl hj1l]
        simp only [Option.bind_eq_bind, Option.some_bind]
        have hun : ∀ q, m ≤ q → gd (lswap a j (j + 1)) q = gd a q :=
          fun q hq => gd_lswap_other (by omega) (by omega)
        obtain ⟨a', sw', hrec, hlen, hperm, huns, hmax⟩ :=
          bubblePass_with_suffix (lswap a j (j + 1)) (j + 1) stop m true
            (by left; rw [length_lswap]; omega) hm1 hmstop (by omega)
            (by
              intro p hp
              have hnew : gd (lswap a j (j + 1)) (j + 1) = gd a j :=
                gd_lswap_right hjl hj1l
              by_cases hpj : p = j
              · rw [hpj, gd_lswap_left hjl hj1l (by omega), hnew]
                omega
              · rw [gd_lswap_other (show p ≠ j by omega)
                  (show p ≠ j + 1 by omega), hnew]
                exact hcarry p (by omega))
            (by
              intro p q hp hpq hq
              rw [hun p hp, hun q (by omega)]
              exact hsufs p q hp hpq hq)
            (by
              intro p q hp hq hqs
              rw [hun q hq]
              by_cases hpj : p = j
              · rw [hpj, gd_lswap_left hjl hj1l (by omega)]
                exact hsufd (j + 1) q (by omega) hq hqs
              · by_cases hpj1 : p = j + 1
                · rw [hpj1, gd_lswap_right hjl hj1l]
                  exact hsufd j q (by omega) hq hqs
                · rw [gd_lswap_other hpj hpj1]
                  exact hsufd p q hp hq hqs)
        refine ⟨a', sw', hrec, by rw [hlen, length_lswap],
          hperm.trans (lswap_perm a hjl hj1l), ?_, hmax⟩
        intro p hp
        rw [huns p hp, hun p hp]
      · rw [if_neg hgt]
        exact bubblePass_with_suffix a (j + 1) stop m sw (by left; omega)
          hm1 hmstop (by omega)
          (by
            intro p hp
            by_cases hpj : p = j
            · rw [hpj]
              omega
            · exact le_trans (hcarry p (by omega)) (by omega))
          hsufs hsufd
  · rw [bubblePass, dif_neg hjs]
    refine ⟨a, sw, rfl, rfl, List.Perm.refl a, fun p hp => rfl, ?_⟩
    intro p hp
    rcases Nat.lt_or_ge p (m - 1) with hp' | hp'
    · have hje : j = m - 1 := by omega
      exact hje ▸ hcarry p (by omega)
    · have : p = m - 1 := by omega
      rw [this]
termination_by stop - j

theorem get_next_gap_one : get_next_gap 1 = 1 := by
  rw [get_next_gap]
  norm_num

/-- The gap-1 phase of `comb_sort`: with a sorted dominating suffix from
position `m` on, the loop finishes and sorts. -/
theorem combLoop_gap1 (fuel n : Nat) (a : List Int) (sw : Bool) (m : Nat)
    (hn : n = a.length) (hfuel : m + 2 ≤ fuel) (hmn : m ≤ n)
    (hS1 : ∀ p q, m ≤ p → p < q → q < n → gd a p ≤ gd a q)
    (hS2 : ∀ p q, p < m → m ≤ q → q < n → gd a p ≤ gd a q)
    (hsw : sw = false → SortedLe a) :
    ∃ r, combLoop n fuel a 1 sw = some r ∧ r.length = a.length ∧
      r.Perm a ∧ SortedLe r := by
  obtain ⟨f, rfl⟩ : ∃ f, fuel = f + 1 := ⟨fuel - 1, by omega⟩
  rw [combLoop]
  cases sw with
  | false =>
    rw [if_neg (by simp)]
    exact ⟨a, rfl, rfl, List.Perm.refl a, hsw rfl⟩
  | true =>
    rw [if_pos (by simp)]
    simp only [get_next_gap_one, combPass_one_eq_bubblePass]
    by_cases hm0 : m = 0
    · have hsorted : SortedLe a := by
        intro p q hpq hq
        exact hS1 p q (by omega) hpq (by omega)
      rw [bubblePass_of_sorted a 0 (n - 1) false (by omega)
        (fun k hk hks => hsorted k (k + 1) (by omega) (by omega))]
      simp only [Option.bind_eq_bind, Option.some_bind]
      obtain ⟨f', rfl⟩ : ∃ f', f = f' + 1 := ⟨f - 1, by omega⟩
      rw [combLoop, if_neg (by simp)]
      exact ⟨a, rfl, rfl, List.Perm.refl a, hsorted⟩
    · have hm1 : 1 ≤ m := by omega
      have hn1 : 1 ≤ n := by omega
      obtain ⟨a1, sw1, hpass, hlen, hperm, huns, hmax⟩ :=
        bubblePass_with_suffix a 0 (n - 1) m false (by left; omega)
          hm1 (by omega) (by omega) (fun p hp => by omega)
          (fun p q hp hpq hq => hS1 p q hp hpq (by omega))
          (fun p q hp hq hqs => hS2 p q hp hq (by omega))
      rw [hpass]
      simp only [Option.bind_eq_bind, Option.some_bind]
      have hdrop : a1.drop m = a.drop m :=
        drop_eq_of_gd_eq m hlen (fun k hk => huns k hk)
      have htake : (a1.take m).Perm (a.take m) :=
        take_perm_of_drop_eq m hperm hdrop
      obtain ⟨r, hrec, hrlen, hrperm, hrs⟩ :=
        combLoop_gap1 f n a1 sw1 (m - 1) (by rw [hn, hlen]) (by omega) (by omega)
          (by
            intro p q hp hpq hq
            by_cases hpm : m ≤ p
            · rw [huns p hpm, huns q (by omega)]
              exact hS1 p q hpm hpq hq
            · have hpe : p = m - 1 := by omega
              obtain ⟨p₀, hp₀m, hp₀l, hp₀⟩ :=
                exists_source_of_take_perm htake
                  (show p < m by omega) (by omega)
              rw [hp₀, huns q (by omega)]
              exact hS2 p₀ q hp₀m (by omega) hq)
          (by
            intro p q hp hq hqn
            by_cases hqe : q = m - 1
            · subst hqe
              exact hmax p (by omega)
            · obtain ⟨p₀, hp₀m, hp₀l, hp₀⟩ :=
                exists_source_of_take_perm htake
                  (show p < m by omega) (by omega)
              rw [hp₀, huns q (by omega)]
              exact hS2 p₀ q hp₀m (by omega) hqn)
          (by
            intro hswf
            subst hswf
            obtain ⟨heq, hadj⟩ := bubblePass_no_swap a 0 (n - 1) hpass
            subst heq
            apply sortedLe_of_adjacent
            intro k hk
            exact hadj k (by omega) (by omega))
      exact ⟨r, hrec, by rw [hrlen, hlen], hrperm.trans hperm, hrs⟩

/-- The gap-shrinking phase of `comb_sort`: from any gap ≥ 2 the loop
reaches gap 1 and then sorts. -/
theorem combLoop_shrink (gap : Nat) (fuel n : Nat) (a : List Int) (sw : Bool)
    (hn : n = a.length) (hn1 : 1 ≤ n) (hgap : 2 ≤ gap)
    (hfuel : gap + n + 2 ≤ fuel) :
    ∃ r, combLoop n fuel a gap sw = some r ∧ r.length = a.length ∧
      r.Perm a ∧ SortedLe r := by
  obtain ⟨f, rfl⟩ : ∃ f, fuel = f + 1 := ⟨fuel - 1, by omega⟩
  rw [combLoop]
  rw [if_pos (by left; omega)]
  have hg1 : 1 ≤ get_next_gap gap := one_le_get_next_gap gap
  have hglt : get_next_gap gap < gap := get_next_gap_lt hgap
  by_cases hgone : get_next_gap gap = 1
  · rw [hgone]
    simp only [combPass_one_eq_bubblePass]
    obtain ⟨a1, sw1, hpass, hlen, hperm, huns, hmax⟩ :=
      bubblePass_with_suffix a 0 (n - 1) n false (by left; omega)
        hn1 (by omega) (by omega) (fun p hp => by omega)
        (fun p q hp hpq hq => by omega)
        (fun p q hp hq hqs => by omega)
    rw [hpass]
    simp only [Option.bind_eq_bind, Option.some_bind]
    obtain ⟨r, hrec, hrlen, hrperm, hrs⟩ :=
      combLoop_gap1 f n a1 sw1 (n - 1) (by rw [hn, hlen]) (by omega) (by omega)
        (fun p q hp hpq hq => by omega)
        (by
          intro p q hp hq hqn
          have hqe : q = n - 1 := by omega
          subst hqe
          exact hmax p (by omega))
        (by
          intro hswf
          subst hswf
          obtain ⟨heq, hadj⟩ := bubblePass_no_swap a 0 (n - 1) hpass
          subst heq
          apply sortedLe_of_adjacent
          intro k hk
          exact hadj k (by omega) (by omega))
    exact ⟨r, hrec, by rw [hrlen, hlen], hrperm.trans hperm, hrs⟩
  · have hg2 : 2 ≤ get_next_gap gap := by omega
    obtain ⟨a1, sw1, hpass, hlen, hperm⟩ :=
      combPass_basic a 0 (n - get_next_gap gap) (get_next_gap gap) false
        (by
          rcases le_or_lt (get_next_gap gap) n with hc | hc
          · left
            omega
          · right
            omega) hg1
    simp only [hpass, Option.bind_eq_bind, Option.some_bind]
    obtain ⟨r, hrec, hrlen, hrperm, hrs⟩ :=
      combLoop_shrink (get_next_gap gap) f n a1 sw1 (by rw [hn, hlen]) hn1 hg2
        (by omega)
    exact ⟨r, hrec, by rw [hrlen, hlen], hrperm.trans hperm, hrs⟩
termination_by gap

/-- `comb_sort` sorts: the checked run succeeds (so in particular the
clamped-gap loop terminates within the given fuel) and returns a
non-decreasing permutation of the input. -/
theorem comb_sort_correct (l : List Int) :
    ∃ r, comb_sort l = some r ∧ r.length = l.length ∧
      r.Perm l ∧ List.Sorted (· ≤ ·) r := by
  rcases Nat.lt_or_ge l.length 2 with hsmall | hlarge
  · rcases hl : l with _ | ⟨x, _ | ⟨y, t⟩⟩
    · refine ⟨[], ?_, rfl, List.Perm.refl [], List.sorted_nil⟩
      simp [comb_sort, combLoop, combPass, get_next_gap]
    · refine ⟨[x], ?_, rfl, List.Perm.refl [x], List.sorted_singleton x⟩
      simp [comb_sort, combLoop, combPass, get_next_gap]
    · rw [hl] at hsmall
      simp at hsmall
      omega
  · obtain ⟨r, hrec, hrlen, hrperm, hrs⟩ :=
      combLoop_shrink l.length (2 * l.length + 3) l.length l true rfl
        (by omega) hlarge (by omega)
    exact ⟨r, by rw [comb_sort]; exact hrec, hrlen, hrperm, sortedLe_iff.mp hrs⟩

/-- Gap update of `comb_sort_visual` (src/sorting.py:523-526):
`gap = int(gap / 1.3); if gap <= 1: gap = 1; sorted = True`.
Returns the new gap and whether it was clamped (`sorted` set).
The source divides by the float literal `1.3`; for every list length that
can arise, `int(gap / 1.3)` under IEEE-754 double arithmetic equals the
integer division `gap * 10 / 13` used here: the double nearest to 1.3
exceeds 13/10 by ≈ 3.4e-17 relatively, so the exact quotient differs from
`gap * 10 / 13` by far less than the distance (≥ 1/13) to the next
integer, and when 13 divides `10 * gap` the division result rounds to the
exact integer `gap * 10 / 13`, so truncation agrees in every case. -/
def combVisNextGap (gap : Nat) : Nat × Bool :=
  let g := gap * 10 / 13
  if g ≤ 1 then (1, true) else (g, false)

/-- Inner pass of `comb_sort_visual` (src/sorting.py:531-538), yielding
`compare` / `swap` snapshots tagged with the gap; a swap clears the
`sorted` flag. -/
def combVisPass (a : List Int) (i stop gap : Nat) (srt : Bool) :
    Option (List Snap × List Int × Bool) :=
  if h : i < stop then do
    let s1 : Snap := { data := a, compare := some [i, i + gap], gap := some gap }
    let x ← pget a i
    let y ← pget a (i + gap)
    if x > y then do
      let a' ← pswap a i (i + gap)
      let s2 : Snap := { data := a', swap := some [i, i + gap], gap := some gap }
      let (sn, r, srt') ← combVisPass a' (i + 1) stop gap false
      some (s1 :: s2 :: sn, r, srt')
    else do
      let (sn, r, srt') ← combVisPass a (i + 1) stop gap srt
      some (s1 :: sn, r, srt')
  else
    some ([], a, srt)
termination_by stop - i

/-- `while not sorted:` loop of `comb_sort_visual` (src/sorting.py:521-538),
with the same fuel discipline as `combLoop`. -/
def combVisLoop (n fuel : Nat) (a : List Int) (gap : Nat) (srt : Bool) :
    Option (List Snap × List Int) :=
  match fuel with
  | 0 => none
  | fuel + 1 =>
    if srt = true then
      some ([], a)
    else do
      let gp := combVisNextGap gap
      let s0 : Snap := { data := a, gap := some gp.1 }
      let (sn, a', srt') ← combVisPass a 0 (n - gp.1) gp.1 gp.2
      let (sn2, r) ← combVisLoop n fuel a' gp.1 srt'
      some (s0 :: sn ++ sn2, r)

/-- `comb_sort_visual` (src/sorting.py:511-541): generator version of comb
sort; the value is the ordered list of yielded snapshots. -/
def comb_sort_visual (data : List Int) : Option (List Snap) := do
  let n := data.length
  let (sn, r) ← combVisLoop n (2 * n + 3) data n false
  some (sn ++ [{ data := r, final := some (List.range n) }])

theorem combVisNextGap_fst (gap : Nat) :
    (combVisNextGap gap).1 = get_next_gap gap := by
  rw [combVisNextGap, get_next_gap]
  rcases Nat.lt_or_ge (gap * 10 / 13) 1 with h | h
  · rw [if_pos (by omega), if_pos h]
  · rcases Nat.eq_or_lt_of_le h with h' | h'
    · rw [if_pos (by omega), if_neg (by omega)]
      omega
    · rw [if_neg (by omega), if_neg (by omega)]

theorem combVisNextGap_snd (gap : Nat) :
    (combVisNextGap gap).2 = true ↔ get_next_gap gap = 1 := by
  rw [combVisNextGap, get_next_gap]
  rcases Nat.lt_or_ge (gap * 10 / 13) 1 with h | h
  · rw [if_pos (by omega), if_pos h]
    simp
  · rcases Nat.eq_or_lt_of_le h with h' | h'
    · rw [if_pos (by omega), if_neg (by omega)]
      simp
      omega
    · rw [if_neg (by omega), if_neg (by omega)]
      simp
      omega

/-- Joint description of a comb pass and its visual variant: the visual
pass yields the same final list, its `sorted` flag is the incoming flag
cleared exactly when some swap happened (`d`), and the reference pass's
`swapped` flag is the incoming flag set exactly on `d`. -/
theorem combVisPass_link (a : List Int) (i stop gap : Nat)
    (hs : stop + gap ≤ a.length ∨ stop ≤ i) (hgap : 1 ≤ gap) :
    ∃ sn a' d, a'.length = a.length ∧
      (∀ sw, combPass a i stop gap sw = some (a', sw || d)) ∧
      (∀ srt, combVisPass a i stop gap srt = some (sn, a', srt && !d)) ∧
      (∀ s ∈ sn, s.data.length = a.length) := by
  by_cases h : i < stop
  · have hsl : stop + gap ≤ a.length := by
      rcases hs with hcase | hcase
      · exact hcase
      · omega
    have hil : i < a.length := by omega
    have higl : i + gap < a.length := by omega
    by_cases hgt : gd a i > gd a (i + gap)
    · obtain ⟨sn, a', d', hlen, href, hvis, hdat⟩ :=
        combVisPass_link (lswap a i (i + gap)) (i + 1) stop gap
          (by left; rw [length_lswap]; omega) hgap
      refine ⟨({ data := a, compare := some [i, i + gap], gap := some gap } : Snap) ::
          ({ data := lswap a i (i + gap), swap := some [i, i + gap], gap := some gap } : Snap) :: sn,
        a', true, by rw [hlen, length_lswap], ?_, ?_, ?_⟩
      · intro sw
        rw [combPass, dif_pos h, pget_eq_some hil, pget_eq_some higl]
        simp only [Option.bind_eq_bind, Option.some_bind]
        rw [if_pos hgt, pswap_eq_some hil higl]
        simp only [Option.bind_eq_bind, Option.some_bind]
        rw [href true]
        simp
      · intro srt
        rw [combVisPass, dif_pos h, pget_eq_some hil, pget_eq_some higl]
        simp only [Option.bind_eq_bind, Option.some_bind]
        rw [if_pos hgt, pswap_eq_some hil higl]
        simp only [Option.bind_eq_bind, Option.some_bind]
        rw [hvis false]
        simp
      · intro s hsm
        rcases List.mem_cons.mp hsm with h1 | h1
        · rw [h1]
        · rcases List.mem_cons.mp h1 with h2 | h2
          · rw [h2]
            simp
          · rw [hdat s h2, length_lswap]
    · obtain ⟨sn, a', d', hlen, href, hvis, hdat⟩ :=
        combVisPass_link a (i + 1) stop gap (by left; omega) hgap
      refine ⟨({ data := a, compare := some [i, i + gap], gap := some gap } : Snap) :: sn,
        a', d', hlen, ?_, ?_, ?_⟩
      · intro sw
        rw [combPass, dif_pos h, pget_eq_some hil, pget_eq_some higl]
        simp only [Option.bind_eq_bind, Option.some_bind]
        rw [if_neg hgt, href sw]
      · intro srt
        rw [combVisPass, dif_pos h, pget_eq_some hil, pget_eq_some higl]
        simp only [Option.bind_eq_bind, Option.some_bind]
        rw [if_neg hgt, hvis srt]
        rfl
      · intro s hsm
        rcases List.mem_cons.mp hsm with h1 | h1
        · rw [h1]
        · exact hdat s h1
  · refine ⟨[], a, false, rfl, ?_, ?_, by intro s hsm; simp at hsm⟩
    · intro sw
      rw [combPass, dif_neg h]
      simp
    · intro srt
      rw [combVisPass, dif_neg h]
      simp
termination_by stop - i

/-- The visual comb loop follows the reference loop: the loop-control
flags stay synchronised (`sorted` holds exactly when the reference state
is `gap = 1` with a swap-free last pass) and the final data agree. -/
theorem combVisLoop_link (fuel n : Nat) (a : List Int) (gap : Nat)
    (sw srt : Bool) (r : List Int) (hn : n = a.length)
    (hsync : srt = true ↔ (gap = 1 ∧ sw = false))
    (href : combLoop n fuel a gap sw = some r) :
    ∃ sn, combVisLoop n fuel a gap srt = some (sn, r) ∧
      ∀ s ∈ sn, s.data.length = a.length := by
  match fuel with
  | 0 => simp [combLoop] at href
  | fuel + 1 =>
    rw [combLoop] at href
    rw [combVisLoop]
    by_cases hsrt : srt = true
    · obtain ⟨hg1, hswf⟩ := hsync.mp hsrt
      rw [if_neg (by rw [hg1, hswf]; simp)] at href
      rw [if_pos hsrt]
      exact ⟨[], by rw [Option.some_injective _ href], by intro s hsm; simp at hsm⟩
    · have hcond : gap ≠ 1 ∨ sw = true := by
        by_contra hc
        push_neg at hc
        exact hsrt (hsync.mpr ⟨hc.1, by cases sw <;> simp_all⟩)
      rw [if_pos hcond] at href
      rw [if_neg hsrt]
      obtain ⟨sn, a1, d, hlen, hrefp, hvisp, hdat⟩ :=
        combVisPass_link a 0 (n - get_next_gap gap) (get_next_gap gap)
          (by
            rcases le_or_lt (get_next_gap gap) n with hc | hc
            · left
              omega
            · right
              omega)
          (one_le_get_next_gap gap)
      simp only [Option.bind_eq_bind] at href
      rw [hrefp false] at href
      simp only [Option.some_bind] at href
      have hvisp' := hvisp (combVisNextGap gap).2
      obtain ⟨sn2, hrec2, hdat2⟩ :=
        combVisLoop_link fuel n a1 (get_next_gap gap)
          (false || d) ((combVisNextGap gap).2 && !d) r (by rw [hn, hlen])
          (by
            constructor
            · intro hb
              have h1 : (combVisNextGap gap).2 = true ∧ !d = true := by
                cases hd : (combVisNextGap gap).2 <;> cases hdd : d <;>
                  simp_all
              refine ⟨(combVisNextGap_snd gap).mp h1.1, ?_⟩
              cases d
              · simp
              · simp at h1
            · intro ⟨h1, h2⟩
              have := (combVisNextGap_snd gap).mpr h1
              rw [this]
              cases d
              · simp
              · simp at h2)
          href
      refine ⟨({ data := a, gap := some (get_next_gap gap) } : Snap) :: sn ++ sn2,
        ?_, ?_⟩
      · simp only [combVisNextGap_fst, hvisp', Option.bind_eq_bind,
          Option.some_bind, hrec2]
      · intro s hsm
        rcases List.mem_cons.mp hsm with h1 | h1
        · rw [h1]
        · rcases List.mem_append.mp h1 with h2 | h2
          · exact hdat s h2
          · rw [hdat2 s h2]
            exact hlen

/-- Summary of one `comb_sort_visual` run: it succeeds, ends with the
all-final terminal snapshot holding the `comb_sort` result, and every
snapshot's `data` has the input's length. -/
theorem comb_sort_visual_spec (l : List Int) :
    ∃ sn r, comb_sort_visual l =
        some (sn ++ [{ data := r, final := some (List.range l.length) }]) ∧
      comb_sort l = some r ∧
      ∀ s ∈ sn, s.data.length = l.length := by
  obtain ⟨r, href, hrlen, hrperm, hrs⟩ := comb_sort_correct l
  rw [comb_sort] at href
  obtain ⟨sn, hvis, hdat⟩ :=
    combVisLoop_link (2 * l.length + 3) l.length l l.length true false r rfl
      (by simp) href
  refine ⟨sn, r, ?_, by rw [comb_sort]; exact href, hdat⟩
  rw [comb_sort_visual, hvis]
  rfl

/-! ## Insertion sort (`insertion_sort`, `insertion_sort_visual`) -/

theorem set_gd_self {a : List Int} {i : Nat} (h : i < a.length) :
    a.set i (gd a i) = a := by
  apply List.ext_getElem?
  intro j
  by_cases hij : i = j
  · subst hij
    simp [List.getElem?_set, h, gd_eq_getElem h, List.getElem?_eq_getElem h]
  · simp [List.getElem?_set, hij]

/-- Shift loop of `insertion_sort` (src/sorting.py:58-61), together with
the final `data[j + 1] = key` write.  The Python index `j` (which may
reach `-1`) is represented as `jp = j + 1 : Nat`: the condition `j >= 0`
becomes `1 ≤ jp`, the read `data[j]` becomes `pget a (jp - 1)`, the shift
`data[j + 1] = data[j]` becomes `pset a jp x`, and the final write is
`pset a jp key`. -/
def insShiftLoop (a : List Int) (key : Int) (jp : Nat) : Option (List Int) :=
  if h : 1 ≤ jp then do
    let x ← pget a (jp - 1)
    if key < x then do
      let a' ← pset a jp x
      insShiftLoop a' key (jp - 1)
    else
      pset a jp key
  else
    pset a jp key
termination_by jp

/-- Outer loop of `insertion_sort` (src/sorting.py:53-61). -/
def insOuterLoop (n : Nat) (a : List Int) (i : Nat) : Option (List Int) :=
  if h : i < n then do
    let key ← pget a i
    let a' ← insShiftLoop a key i
    insOuterLoop n a' (i + 1)
  else
    some a
termination_by n - i

/-- `insertion_sort` (src/sorting.py:45-61), in-place insertion sort. -/
def insertion_sort (data : List Int) : Option (List Int) :=
  insOuterLoop data.length data 1

theorem insShiftLoop_spec (a : List Int) (key : Int) (jp i : Nat)
    (hjpi : jp ≤ i) (hil : i < a.length)
    (hsort : ∀ p q, p < q → q ≤ i → p ≠ jp → q ≠ jp → gd a p ≤ gd a q)
    (hgt : ∀ t, jp < t → t ≤ i → key < gd a t) :
    ∃ r, insShiftLoop a key jp = some r ∧ r.length = a.length ∧
      (∀ t, i < t → gd r t = gd a t) ∧
      (∀ p q, p < q → q ≤ i → gd r p ≤ gd r q) ∧
      r.Perm (a.set jp key) := by
  have hjl : jp < a.length := by omega
  rw [insShiftLoop]
  by_cases h1 : 1 ≤ jp
  · rw [dif_pos h1]
    have hj1l : jp - 1 < a.length := by omega
    rw [pget_eq_some hj1l]
    simp only [Option.bind_eq_bind, Option.some_bind]
    by_cases hlt : key < gd a (jp - 1)
    · rw [if_pos hlt, pset_eq_some hjl]
      simp only [Option.bind_eq_bind, Option.some_bind]
      have hlen' : (a.set jp (gd a (jp - 1))).length = a.length := by simp
      obtain ⟨r, hrec, hrlen, hout, hsorted, hperm⟩ :=
        insShiftLoop_spec (a.set jp (gd a (jp - 1))) key (jp - 1) i
          (by omega) (by omega)
          (by
            intro p q hpq hq hp' hq'
            by_cases hqj : q = jp
            · rw [hqj]
              rw [gd_set_eq hjl, gd_set_ne (show jp ≠ p by omega)]
              exact hsort p (jp - 1)
                (by omega) (by omega) (by omega) (by omega)
            · by_cases hpj : p = jp
              · rw [hpj]
                rw [gd_set_eq hjl, gd_set_ne (show jp ≠ q by omega)]
                exact hsort (jp - 1) q (by omega) hq (by omega) hqj
              · rw [gd_set_ne (Ne.symm hpj), gd_set_ne (Ne.symm hqj)]
                exact hsort p q hpq hq hpj hqj)
          (by
            intro t ht1 ht2
            by_cases htj : t = jp
            · rw [htj]
              rw [gd_set_eq hjl]
              exact hlt
            · rw [gd_set_ne (Ne.symm htj)]
              exact hgt t (by omega) ht2)
      refine ⟨r, hrec, by rw [hrlen, hlen'], ?_, hsorted, ?_⟩
      · intro t ht
        rw [hout t ht, gd_set_ne (show jp ≠ t by omega)]
      · -- (a.set jp x).set (jp-1) key is the swap of positions jp-1, jp
        -- of a.set jp key
        have hkey : ((a.set jp key).set (jp - 1) key).set jp (gd a (jp - 1)) =
            (a.set jp (gd a (jp - 1))).set (jp - 1) key := by
          rw [List.set_comm _ _ _ (show jp ≠ jp - 1 by omega),
            List.set_set, List.set_comm _ _ _ (show jp - 1 ≠ jp by omega)]
        have hsw : lswap (a.set jp key) (jp - 1) jp =
            (a.set jp (gd a (jp - 1))).set (jp - 1) key := by
          rw [lswap]
          have e1 : (a.set jp key).getD jp 0 = key := gd_set_eq hjl key
          have e2 : (a.set jp key).getD (jp - 1) 0 = gd a (jp - 1) :=
            gd_set_ne (show jp ≠ jp - 1 by omega) key
          rw [e1, e2, hkey]
        refine hperm.trans ?_
        rw [← hsw]
        exact lswap_perm (a.set jp key) (by simpa using hj1l) (by simpa using hjl)
    · rw [if_neg hlt, pset_eq_some hjl]
      refine ⟨a.set jp key, rfl, by simp, ?_, ?_, List.Perm.refl _⟩
      · intro t ht
        rw [gd_set_ne (show jp ≠ t by omega)]
      · intro p q hpq hq
        by_cases hqj : q = jp
        · rw [hqj]
          rw [gd_set_eq hjl, gd_set_ne (show jp ≠ p by omega)]
          have hple : gd a p ≤ gd a (jp - 1) := by
            rcases Nat.lt_or_ge p (jp - 1) with hp' | hp'
            · exact hsort p (jp - 1) hp' (by omega) (by omega) (by omega)
            · have : p = jp - 1 := by omega
              rw [this]
          omega
        · by_cases hpj : p = jp
          · rw [hpj]
            rw [gd_set_eq hjl, gd_set_ne (show jp ≠ q by omega)]
            exact le_of_lt (hgt q (by omega) hq)
          · rw [gd_set_ne (Ne.symm hpj), gd_set_ne (Ne.symm hqj)]
            exact hsort p q hpq hq hpj hqj
  · rw [dif_neg h1]
    have hj0 : jp = 0 := by omega
    rw [pset_eq_some hjl]
    refine ⟨a.set jp key, rfl, by simp, ?_, ?_, List.Perm.refl _⟩
    · intro t ht
      rw [gd_set_ne (show jp ≠ t by omega)]
    · intro p q hpq hq
      by_cases hqj : q = jp
      · omega
      · by_cases hpj : p = jp
        · rw [hpj]
          rw [gd_set_eq hjl, gd_set_ne (show jp ≠ q by omega)]
          exact le_of_lt (hgt q (by omega) hq)
        · rw [gd_set_ne (Ne.symm hpj), gd_set_ne (Ne.symm hqj)]
          exact hsort p q hpq hq hpj hqj
termination_by jp

theorem insOuterLoop_spec (n : Nat) (a : List Int) (i : Nat)
    (hn : n = a.length) (hi1 : 1 ≤ i)
    (hpre : ∀ p q, p < q → q < i → gd a p ≤ gd a q) :
    ∃ r, insOuterLoop n a i = some r ∧ r.length = a.length ∧
      r.Perm a ∧ SortedLe r := by
  rw [insOuterLoop]
  by_cases h : i < n
  · rw [dif_pos h]
    have hil : i < a.length := by omega
    rw [pget_eq_some hil]
    simp only [Option.bind_eq_bind, Option.some_bind]
    obtain ⟨r1, hrec1, hlen1, hout1, hsorted1, hperm1⟩ :=
      insShiftLoop_spec a (gd a i) i i (le_refl i) hil
        (fun p q hpq hq hp' hq' => hpre p q hpq (by omega))
        (fun t ht1 ht2 => by omega)
    rw [hrec1]
    simp only [Option.bind_eq_bind, Option.some_bind]
    have hperm1' : r1.Perm a := by
      rw [set_gd_self hil] at hperm1
      exact hperm1
    obtain ⟨r, hrec, hrlen, hrperm, hrs⟩ :=
      insOuterLoop_spec n r1 (i + 1) (by rw [hn, hlen1]) (by omega)
        (fun p q hpq hq => hsorted1 p q hpq (by omega))
    exact ⟨r, hrec, by rw [hrlen, hlen1], hrperm.trans hperm1', hrs⟩
  · rw [dif_neg h]
    refine ⟨a, rfl, rfl, List.Perm.refl a, ?_⟩
    intro p q hpq hq
    exact hpre p q hpq (by omega)
termination_by n - i

/-- `insertion_sort` sorts: the checked run succeeds and returns a
non-decreasing permutation of the input. -/
theorem insertion_sort_correct (l : List Int) :
    ∃ r, insertion_sort l = some r ∧ r.length = l.length ∧
      r.Perm l ∧ List.Sorted (· ≤ ·) r := by
  obtain ⟨r, h1, h2, h3, h4⟩ :=
    insOuterLoop_spec l.length l 1 rfl (le_refl 1)
      (fun p q hpq hq => by omega)
  exact ⟨r, h1, h2, h3, sortedLe_iff.mp h4⟩

/-- Shift loop of `insertion_sort_visual` (src/sorting.py:273-281), with
`compare` / `shift` snapshots; returns the final slot `jp` (`j + 1`) for
the insertion write done by the caller. -/
def insVisShiftLoop (a : List Int) (key : Int) (i jp : Nat) :
    Option (List Snap × List Int × Nat) :=
  if h : 1 ≤ jp then do
    let s1 : Snap := { data := a, highlight := some [i], compare := some [jp - 1] }
    let x ← pget a (jp - 1)
    if key < x then do
      let a' ← pset a jp x
      let s2 : Snap := { data := a', highlight := some [i], shift := some [jp - 1, jp] }
      let (sn, r) ← insVisShiftLoop a' key i (jp - 1)
      some (s1 :: s2 :: sn, r)
    else
      some ([s1], a, jp)
  else
    some ([], a, jp)
termination_by jp

/-- Outer loop of `insertion_sort_visual` (src/sorting.py:267-285). -/
def insVisOuterLoop (n : Nat) (a : List Int) (i : Nat) :
    Option (List Snap × List Int) :=
  if h : i < n then do
    let key ← pget a i
    let s0 : Snap := { data := a, highlight := some [i], compare := some [] }
    let (sn, a1, jp1) ← insVisShiftLoop a key i i
    let a2 ← pset a1 jp1 key
    let s3 : Snap := { data := a2, ins := some [jp1], final := some (List.range (i + 1)) }
    let (sn2, r) ← insVisOuterLoop n a2 (i + 1)
    some (s0 :: sn ++ s3 :: sn2, r)
  else
    some ([], a)
termination_by n - i

/-- `insertion_sort_visual` (src/sorting.py:262-287): generator version of
insertion sort; note the unconditional leading `final = [0]` snapshot. -/
def insertion_sort_visual (data : List Int) : Option (List Snap) := do
  let n := data.length
  let s0 : Snap := { data := data, final := some [0] }
  let (sn, r) ← insVisOuterLoop n data 1
  some (s0 :: sn ++ [{ data := r, final := some (List.range n) }])

theorem insVisShiftLoop_link (a : List Int) (key : Int) (i jp : Nat)
    (hjp : jp < a.length) :
    ∃ sn a1 jp1, insVisShiftLoop a key i jp = some (sn, a1, jp1) ∧
      a1.length = a.length ∧ jp1 < a1.length ∧
      insShiftLoop a key jp = some (a1.set jp1 key) ∧
      ∀ s ∈ sn, s.data.length = a.length := by
  rw [insVisShiftLoop, insShiftLoop]
  by_cases h : 1 ≤ jp
  · rw [dif_pos h, dif_pos h]
    have hj1l : jp - 1 < a.length := by omega
    rw [pget_eq_some hj1l]
    simp only [Option.bind_eq_bind, Option.some_bind]
    by_cases hlt : key < gd a (jp - 1)
    · rw [if_pos hlt, if_pos hlt, pset_eq_some hjp]
      simp only [Option.bind_eq_bind, Option.some_bind]
      obtain ⟨sn, a1, jp1, hvis, hlen, hjp1, href, hdat⟩ :=
        insVisShiftLoop_link (a.set jp (gd a (jp - 1))) key i (jp - 1)
          (by simpa using hj1l)
      rw [hvis, href]
      refine ⟨_, a1, jp1, rfl, by rw [hlen]; simp, hjp1, rfl, ?_⟩
      intro s hsm
      rcases List.mem_cons.mp hsm with h1 | h1
      · rw [h1]
      · rcases List.mem_cons.mp h1 with h2 | h2
        · rw [h2]
          simp
        · rw [hdat s h2]
          simp
    · rw [if_neg hlt, if_neg hlt, pset_eq_some hjp]
      exact ⟨[{ data := a, highlight := some [i], compare := some [jp - 1] }],
        a, jp, rfl, rfl, hjp, rfl, by
          intro s hsm
          rcases List.mem_cons.mp hsm with h1 | h1
          · rw [h1]
          · simp at h1⟩
  · rw [dif_neg h, dif_neg h, pset_eq_some hjp]
    exact ⟨[], a, jp, rfl, rfl, hjp, rfl, by intro s hsm; simp at hsm⟩
termination_by jp

theorem insVisOuterLoop_link (n : Nat) (a : List Int) (i : Nat)
    (hn : n = a.length) (hi1 : 1 ≤ i) :
    ∃ sn r, insVisOuterLoop n a i = some (sn, r) ∧
      insOuterLoop n a i = some r ∧ r.length = a.length ∧
      ∀ s ∈ sn, s.data.length = a.length := by
  rw [insVisOuterLoop, insOuterLoop]
  by_cases h : i < n
  · rw [dif_pos h, dif_pos h]
    have hil : i < a.length := by omega
    rw [pget_eq_some hil]
    simp only [Option.bind_eq_bind, Option.some_bind]
    obtain ⟨sn, a1, jp1, hvis, hlen, hjp1, href, hdat⟩ :=
      insVisShiftLoop_link a (gd a i) i i hil
    rw [hvis, href]
    simp only [Option.bind_eq_bind, Option.some_bind]
    rw [pset_eq_some hjp1]
    simp only [Option.bind_eq_bind, Option.some_bind]
    obtain ⟨sn2, r, hvis2, href2, hrlen, hdat2⟩ :=
      insVisOuterLoop_link n (a1.set jp1 (gd a i)) (i + 1)
        (by rw [hn]; rw [List.length_set, hlen]) (by omega)
    rw [hvis2, href2]
    refine ⟨_, r, rfl, rfl, by rw [hrlen, List.length_set, hlen], ?_⟩
    intro s hsm
    rcases List.mem_cons.mp hsm with h1 | h1
    · rw [h1]
    · rcases List.mem_append.mp h1 with h2 | h2
      · exact hdat s h2
      · rcases List.mem_cons.mp h2 with h3 | h3
        · rw [h3]
          simp [hlen]
        · rw [hdat2 s h3, List.length_set, hlen]
  · rw [dif_neg h, dif_neg h]
    exact ⟨[], a, rfl, rfl, rfl, by intro s hsm; simp at hsm⟩
termination_by n - i

/-- Summary of one `insertion_sort_visual` run: it succeeds, starts with
the unconditional `final = [0]` snapshot, ends with the all-final
terminal snapshot holding the `insertion_sort` result, and every
snapshot's `data` has the input's length. -/
theorem insertion_sort_visual_spec (l : List Int) :
    ∃ sn r, insertion_sort_visual l =
        some (({ data := l, final := some [0] } : Snap) ::
          sn ++ [{ data := r, final := some (List.range l.length) }]) ∧
      insertion_sort l = some r ∧
      ∀ s ∈ sn, s.data.length = l.length := by
  obtain ⟨sn, r, hvis, href, hrlen, hdat⟩ := insVisOuterLoop_link l.length l 1 rfl (le_refl 1)
  refine ⟨sn, r, ?_, href, hdat⟩
  rw [insertion_sort_visual, hvis]
  rfl

/-! ## Merge sort (`merge_sort`, `merge_sort_visual`) -/

/-- The two-pointer merge loop shared by `merge_sort` (src/sorting.py:84-102,
test `sorted_left[i] < sorted_right[j]`) and `merge_sort_visual`
(src/sorting.py:336-366, test `left_half[i] <= right_half[j]`), rendered as
recursion on the two lists and parameterised by the comparison test `t`:
when `t` holds on the front elements the left element is written next,
otherwise the right one; once a side runs out the rest is copied. -/
def mergeG {α : Type} (t : α → α → Bool) : List α → List α → List α
  | [], r => r
  | l, [] => l
  | x :: l, y :: r =>
    if t x y then x :: mergeG t l (y :: r) else y :: mergeG t (x :: l) r
termination_by l r => l.length + r.length

theorem mergeG_perm {α : Type} (t : α → α → Bool) (l r : List α) :
    (mergeG t l r).Perm (l ++ r) := by
  match l, r with
  | [], r => simp [mergeG]
  | x :: l, [] => simp [mergeG]
  | x :: l, y :: r =>
    rw [mergeG]
    by_cases ht : t x y
    · rw [if_pos ht]
      exact (mergeG_perm t l (y :: r)).cons x
    · rw [if_neg ht]
      refine ((mergeG_perm t (x :: l) r).cons y).trans ?_
      exact (List.Perm.swap x y (l ++ r)).trans (List.perm_middle.symm.cons x)
termination_by l.length + r.length

theorem mergeG_length {α : Type} (t : α → α → Bool) (l r : List α) :
    (mergeG t l r).length = l.length + r.length := by
  have := (mergeG_perm t l r).length_eq
  simpa using this

theorem mergeG_sorted (t : Int → Int → Bool)
    (hT : ∀ x y, t x y = true → x ≤ y) (hF : ∀ x y, t x y = false → y ≤ x)
    (l r : List Int) (hl : List.Sorted (· ≤ ·) l) (hr : List.Sorted (· ≤ ·) r) :
    List.Sorted (· ≤ ·) (mergeG t l r) := by
  match l, r with
  | [], r => simpa [mergeG] using hr
  | x :: l, [] => simpa [mergeG] using hl
  | x :: l, y :: r =>
    rw [mergeG]
    rw [List.sorted_cons] at hl hr
    by_cases ht : t x y
    · rw [if_pos ht]
      rw [List.sorted_cons]
      constructor
      · intro b hb
        have hb' : b ∈ l ++ y :: r := (mergeG_perm t l (y :: r)).mem_iff.mp hb
        rcases List.mem_append.mp hb' with hb' | hb'
        · exact hl.1 b hb'
        · rcases List.mem_cons.mp hb' with hb' | hb'
          · rw [hb']
            exact hT x y ht
          · exact le_trans (hT x y ht) (hr.1 b hb')
      · exact mergeG_sorted t hT hF l (y :: r) hl.2 (List.sorted_cons.mpr hr)
    · rw [if_neg ht]
      rw [List.sorted_cons]
      constructor
      · intro b hb
        have hb' : b ∈ (x :: l) ++ r := (mergeG_perm t (x :: l) r).mem_iff.mp hb
        rcases List.mem_append.mp hb' with hb' | hb'
        · rcases List.mem_cons.mp hb' with hb' | hb'
          · rw [hb']
            exact hF x y (by simpa using ht)
          · exact le_trans (hF x y (by simpa using ht)) (hl.1 b hb')
        · exact hr.1 b hb'
      · exact mergeG_sorted t hT hF (x :: l) r (List.sorted_cons.mpr hl) hr.2
termination_by l.length + r.length

/-- Contiguous segment `a[s:e]` (Python slice). -/
def seg (a : List Int) (s e : Nat) : List Int :=
  (a.drop s).take (e - s)

theorem length_seg {a : List Int} {s e : Nat} (hse : s ≤ e) (he : e ≤ a.length) :
    (seg a s e).length = e - s := by
  rw [seg, List.length_take, List.length_drop]
  omega

theorem gd_seg {a : List Int} {s e t : Nat} (ht : t < e - s) (he : e ≤ a.length) :
    gd (seg a s e) t = gd a (s + t) := by
  have h1 : t < (seg a s e).length := by
    rw [length_seg (by omega) he]
    omega
  have h2 : s + t < a.length := by omega
  rw [gd_eq_getElem h1, gd_eq_getElem h2]
  simp only [seg]
  rw [List.getElem_take, List.getElem_drop]

theorem seg_append {a : List Int} {s m e : Nat} (h1 : s ≤ m) (h2 : m ≤ e) :
    seg a s m ++ seg a m e = seg a s e := by
  simp only [seg]
  have hd : a.drop m = (a.drop s).drop (m - s) := by
    rw [List.drop_drop]
    congr 1
    omega
  rw [hd]
  have htk := List.take_add (a.drop s) (m - s) (e - m)
  rw [show m - s + (e - m) = e - s by omega] at htk
  exact htk.symm

/-- Writing the elements of `xs` one by one from position `k` on. -/
def writeSeg (a : List Int) (k : Nat) : List Int → List Int
  | [] => a
  | x :: xs => writeSeg (a.set k x) (k + 1) xs

theorem writeSeg_eq (xs : List Int) (a : List Int) (k : Nat)
    (h : k + xs.length ≤ a.length) :
    writeSeg a k xs = a.take k ++ xs ++ a.drop (k + xs.length) := by
  match xs with
  | [] =>
    simp [writeSeg]
  | x :: xs =>
    rw [writeSeg]
    have hk : k < a.length := by
      simp at h
      omega
    have hIH := writeSeg_eq xs (a.set k x) (k + 1) (by simp at h ⊢; omega)
    rw [hIH]
    have hset : a.set k x = a.take k ++ x :: a.drop (k + 1) := by
      rw [List.set_eq_take_append_cons_drop, if_pos hk]
    rw [hset]
    have htk : (a.take k ++ x :: a.drop (k + 1)).take (k + 1) = a.take k ++ [x] := by
      rw [List.take_append_eq_append_take, List.take_take]
      have h1 : min (k + 1) k = k := by omega
      have h2 : k + 1 - (a.take k).length = 1 := by
        rw [List.length_take]
        omega
      rw [h1, h2]
      rfl
    have hdr : (a.take k ++ x :: a.drop (k + 1)).drop (k + 1 + xs.length) =
        a.drop (k + (x :: xs).length) := by
      rw [List.drop_append_eq_append_drop]
      have h1 : (a.take k).length = k := by
        rw [List.length_take]
        omega
      rw [List.drop_eq_nil_of_le (by rw [h1]; omega), h1]
      rw [show k + 1 + xs.length - k = xs.length + 1 by omega]
      have h2 : List.drop (xs.length + 1) (x :: a.drop (k + 1)) =
          List.drop xs.length (a.drop (k + 1)) := rfl
      rw [h2, List.drop_drop]
      simp only [List.nil_append]
      congr 1
      simp only [List.length_cons]
      omega
    rw [htk, hdr]
    simp

theorem length_writeSeg (xs : List Int) (a : List Int) (k : Nat)
    (h : k + xs.length ≤ a.length) :
    (writeSeg a k xs).length = a.length := by
  rw [writeSeg_eq xs a k h]
  simp
  omega

theorem gd_cons_succ (x : Int) (xs : List Int) (m : Nat) :
    gd (x :: xs) (m + 1) = gd xs m := by
  simp [gd]

theorem gd_writeSeg_lt (xs : List Int) (a : List Int) (k t : Nat)
    (ht : t < k) :
    gd (writeSeg a k xs) t = gd a t := by
  match xs with
  | [] => rfl
  | x :: xs =>
    rw [writeSeg]
    rw [gd_writeSeg_lt xs (a.set k x) (k + 1) t (by omega)]
    exact gd_set_ne (by omega) x

theorem gd_writeSeg_ge (xs : List Int) (a : List Int) (k t : Nat)
    (ht : k + xs.length ≤ t) :
    gd (writeSeg a k xs) t = gd a t := by
  match xs with
  | [] => rfl
  | x :: xs =>
    rw [writeSeg]
    have hlen1 : (x :: xs).length = xs.length + 1 := by simp
    rw [gd_writeSeg_ge xs (a.set k x) (k + 1) t (by omega)]
    exact gd_set_ne (by omega) x

theorem gd_writeSeg_in (xs : List Int) (a : List Int) (k t : Nat)
    (hk : k < a.length) (hlen : k + xs.length ≤ a.length)
    (ht1 : k ≤ t) (ht2 : t < k + xs.length) :
    gd (writeSeg a k xs) t = gd xs (t - k) := by
  match xs with
  | [] =>
    simp at ht2
    omega
  | x :: xs =>
    rw [writeSeg]
    by_cases htk : t = k
    · rw [htk]
      rw [gd_writeSeg_lt xs (a.set k x) (k + 1) k (by omega)]
      rw [gd_set_eq hk]
      simp [gd]
    · have h1 : k + 1 ≤ t := by omega
      have hlen1 : (x :: xs).length = xs.length + 1 := by simp
      have hsl : (a.set k x).length = a.length := by simp
      rw [gd_writeSeg_in xs (a.set k x) (k + 1) t
        (by omega) (by omega) h1 (by omega)]
      rw [show t - k = (t - (k + 1)) + 1 by omega, gd_cons_succ]

/-- Merge loop of `merge_sort` (src/sorting.py:84-102): two-pointer merge
writing into the scratch list `merged` (Python `merged_data = [0] * len(data)`)
at position `k`, followed by the two run-out copy loops. -/
def mergeLoop (l r merged : List Int) (i j k : Nat) : Option (List Int) :=
  if hij : i < l.length ∧ j < r.length then do
    let x ← pget l i
    let y ← pget r j
    if x < y then do
      let m' ← pset merged k x
      mergeLoop l r m' (i + 1) j (k + 1)
    else do
      let m' ← pset merged k y
      mergeLoop l r m' i (j + 1) (k + 1)
  else if hi : i < l.length then do
    let x ← pget l i
    let m' ← pset merged k x
    mergeLoop l r m' (i + 1) j (k + 1)
  else if hj : j < r.length then do
    let y ← pget r j
    let m' ← pset merged k y
    mergeLoop l r m' i (j + 1) (k + 1)
  else
    some merged
termination_by (l.length - i) + (r.length - j)

/-- `merge_sort` (src/sorting.py:63-105): out-of-place merge sort returning
a new list; sublists of length ≤ 1 are returned unchanged. -/
def merge_sort (data : List Int) : Option (List Int) :=
  if h : data.length > 1 then do
    let mid := data.length / 2
    let sorted_left ← merge_sort (data.take mid)
    let sorted_right ← merge_sort (data.drop mid)
    mergeLoop sorted_left sorted_right (List.replicate data.length 0) 0 0 0
  else
    some data
termination_by data.length
decreasing_by
  · simp [List.length_take]
    omega
  · simp [List.length_drop]
    omega

theorem mergeG_nil_left {α : Type} (t : α → α → Bool) (r : List α) :
    mergeG t [] r = r := by
  rw [mergeG]

theorem mergeG_nil_right {α : Type} (t : α → α → Bool) (l : List α) :
    mergeG t l [] = l := by
  match l with
  | [] => rw [mergeG]
  | x :: l =>
    rw [mergeG]
    · simp

theorem mergeLoop_spec (l r : List Int) (merged : List Int) (i j k : Nat)
    (hm : k + (l.length - i) + (r.length - j) ≤ merged.length) :
    mergeLoop l r merged i j k =
      some (writeSeg merged k
        (mergeG (fun x y => x < y) (l.drop i) (r.drop j))) := by
  rw [mergeLoop]
  by_cases hij : i < l.length ∧ j < r.length
  · rw [dif_pos hij]
    have hdi : l.drop i = l[i] :: l.drop (i + 1) := List.drop_eq_getElem_cons hij.1
    have hdj : r.drop j = r[j] :: r.drop (j + 1) := List.drop_eq_getElem_cons hij.2
    rw [pget_eq_some hij.1, pget_eq_some hij.2]
    simp only [Option.bind_eq_bind, Option.some_bind]
    have hkm : k < merged.length := by omega
    rw [gd_eq_getElem hij.1, gd_eq_getElem hij.2]
    by_cases hlt : l[i] < r[j]
    · rw [if_pos hlt, pset_eq_some hkm]
      simp only [Option.bind_eq_bind, Option.some_bind]
      rw [mergeLoop_spec l r (merged.set k l[i]) (i + 1) j (k + 1)
        (by simp; omega)]
      rw [hdi, hdj, mergeG, if_pos (by simpa using hlt), ← hdj]
      rfl
    · rw [if_neg hlt, pset_eq_some hkm]
      simp only [Option.bind_eq_bind, Option.some_bind]
      rw [mergeLoop_spec l r (merged.set k r[j]) i (j + 1) (k + 1)
        (by simp; omega)]
      rw [hdi, hdj, mergeG, if_neg (by simpa using hlt), ← hdi]
      rfl
  · rw [dif_neg hij]
    by_cases hi : i < l.length
    · rw [dif_pos hi]
      have hj : ¬ j < r.length := fun hc => hij ⟨hi, hc⟩
      have hdi : l.drop i = l[i] :: l.drop (i + 1) := List.drop_eq_getElem_cons hi
      have hdj : r.drop j = [] := List.drop_eq_nil_of_le (by omega)
      rw [pget_eq_some hi]
      simp only [Option.bind_eq_bind, Option.some_bind]
      have hkm : k < merged.length := by omega
      rw [gd_eq_getElem hi, pset_eq_some hkm]
      simp only [Option.bind_eq_bind, Option.some_bind]
      rw [mergeLoop_spec l r (merged.set k l[i]) (i + 1) j (k + 1)
        (by simp; omega)]
      rw [hdi, hdj]
      simp only [mergeG_nil_right]
      rfl
    · rw [dif_neg hi]
      by_cases hj : j < r.length
      · rw [dif_pos hj]
        have hdj : r.drop j = r[j] :: r.drop (j + 1) := List.drop_eq_getElem_cons hj
        have hdi : l.drop i = [] := List.drop_eq_nil_of_le (by omega)
        rw [pget_eq_some hj]
        simp only [Option.bind_eq_bind, Option.some_bind]
        have hkm : k < merged.length := by omega
        rw [gd_eq_getElem hj, pset_eq_some hkm]
        simp only [Option.bind_eq_bind, Option.some_bind]
        rw [mergeLoop_spec l r (merged.set k r[j]) i (j + 1) (k + 1)
          (by simp; omega)]
        rw [hdi, hdj]
        simp only [mergeG_nil_left]
        rfl
      · rw [dif_neg hj]
        rw [List.drop_eq_nil_of_le (show l.length ≤ i by omega),
          List.drop_eq_nil_of_le (show r.length ≤ j by omega)]
        rw [mergeG]
        rfl
termination_by (l.length - i) + (r.length - j)

theorem merge_sort_correct (l : List Int) :
    ∃ r, merge_sort l = some r ∧ r.length = l.length ∧
      r.Perm l ∧ List.Sorted (· ≤ ·) r := by
  rw [merge_sort]
  by_cases h : l.length > 1
  · rw [dif_pos h]
    simp only [Option.bind_eq_bind]
    have hmid1 : (l.take (l.length / 2)).length < l.length := by
      simp [List.length_take]
      omega
    have hmid2 : (l.drop (l.length / 2)).length < l.length := by
      simp [List.length_drop]
      omega
    obtain ⟨sl, hsl, hsllen, hslperm, hslsort⟩ :=
      merge_sort_correct (l.take (l.length / 2))
    obtain ⟨sr, hsr, hsrlen, hsrperm, hsrsort⟩ :=
      merge_sort_correct (l.drop (l.length / 2))
    rw [hsl, hsr]
    simp only [Option.bind_eq_bind, Option.some_bind]
    have hlens : sl.length + sr.length = l.length := by
      rw [hsllen, hsrlen]
      simp [List.length_take, List.length_drop]
      omega
    rw [mergeLoop_spec sl sr (List.replicate l.length 0) 0 0 0
      (by simp [List.length_replicate]; omega)]
    rw [List.drop_zero, List.drop_zero]
    have hmlen : (mergeG (fun x y => x < y) sl sr).length = l.length := by
      rw [mergeG_length]
      omega
    have hws : writeSeg (List.replicate l.length 0) 0
        (mergeG (fun x y => x < y) sl sr) = mergeG (fun x y => x < y) sl sr := by
      rw [writeSeg_eq _ _ _ (by simp [List.length_replicate]; omega)]
      rw [List.take_zero, List.nil_append, hmlen]
      rw [List.drop_eq_nil_of_le (by simp [List.length_replicate])]
      simp
    rw [hws]
    refine ⟨_, rfl, hmlen, ?_, ?_⟩
    · refine (mergeG_perm _ sl sr).trans ?_
      refine (hslperm.append hsrperm).trans ?_
      rw [List.take_append_drop]
    · refine mergeG_sorted _ ?_ ?_ sl sr hslsort hsrsort
      · intro x y hxy
        simp at hxy
        omega
      · intro x y hxy
        simp at hxy
        omega
  · rw [dif_neg h]
    refine ⟨l, rfl, rfl, List.Perm.refl l, ?_⟩
    rcases l with _ | ⟨x, _ | ⟨y, t⟩⟩
    · exact List.sorted_nil
    · exact List.sorted_singleton x
    · simp at h
termination_by l.length
decreasing_by
  · exact hmid1
  · exact hmid2

theorem sorted_seg_iff {a : List Int} {s e : Nat} (hse : s ≤ e) (he : e ≤ a.length) :
    List.Sorted (· ≤ ·) (seg a s e) ↔
      ∀ p q, s ≤ p → p < q → q < e → gd a p ≤ gd a q := by
  rw [List.Sorted, List.pairwise_iff_getElem]
  constructor
  · intro h p q hp hpq hq
    have h1 : p - s < (seg a s e).length := by
      rw [length_seg hse he]
      omega
    have h2 : q - s < (seg a s e).length := by
      rw [length_seg hse he]
      omega
    have hle := h (p - s) (q - s) h1 h2 (by omega)
    rw [← gd_eq_getElem h1, ← gd_eq_getElem h2,
      gd_seg (by rw [length_seg hse he] at h1; omega) he,
      gd_seg (by rw [length_seg hse he] at h2; omega) he,
      show s + (p - s) = p by omega, show s + (q - s) = q by omega] at hle
    exact hle
  · intro h i j hi hj hij
    have hi' : i < e - s := by rw [length_seg hse he] at hi; omega
    have hj' : j < e - s := by rw [length_seg hse he] at hj; omega
    rw [← gd_eq_getElem hi, ← gd_eq_getElem hj, gd_seg hi' he, gd_seg hj' he]
    exact h (s + i) (s + j) (by omega) (by omega) (by omega)

/-- Merge phase of `merge_sort_visual` (src/sorting.py:333-366): writes the
merged elements back into the working array at position `k`, yielding a
`compare` snapshot before each comparison and an `insert` snapshot after
each write (run-out writes yield only `insert`). -/
def msVisMerge (a : List Int) (l r : List Int) (s mid : Nat) (i j k : Nat)
    (depth : Nat) : Option (List Snap × List Int) :=
  if hij : i < l.length ∧ j < r.length then do
    let s1 : Snap := { data := a, compare := some [s + i, mid + j], depth := some depth }
    let x ← pget l i
    let y ← pget r j
    if x ≤ y then do
      let a' ← pset a k x
      let s2 : Snap := { data := a', ins := some [k], depth := some depth }
      let (sn, a2) ← msVisMerge a' l r s mid (i + 1) j (k + 1) depth
      some (s1 :: s2 :: sn, a2)
    else do
      let a' ← pset a k y
      let s2 : Snap := { data := a', ins := some [k], depth := some depth }
      let (sn, a2) ← msVisMerge a' l r s mid i (j + 1) (k + 1) depth
      some (s1 :: s2 :: sn, a2)
  else if hi : i < l.length then do
    let x ← pget l i
    let a' ← pset a k x
    let s2 : Snap := { data := a', ins := some [k], depth := some depth }
    let (sn, a2) ← msVisMerge a' l r s mid (i + 1) j (k + 1) depth
    some (s2 :: sn, a2)
  else if hj : j < r.length then do
    let y ← pget r j
    let a' ← pset a k y
    let s2 : Snap := { data := a', ins := some [k], depth := some depth }
    let (sn, a2) ← msVisMerge a' l r s mid i (j + 1) (k + 1) depth
    some (s2 :: sn, a2)
  else
    some ([], a)
termination_by (l.length - i) + (r.length - j)

theorem msVisMerge_spec (a l r : List Int) (s mid i j k depth : Nat)
    (hm : k + (l.length - i) + (r.length - j) ≤ a.length) :
    ∃ sn, msVisMerge a l r s mid i j k depth =
        some (sn, writeSeg a k
          (mergeG (fun x y => x ≤ y) (l.drop i) (r.drop j))) ∧
      ∀ snap ∈ sn, snap.data.length = a.length := by
  rw [msVisMerge]
  by_cases hij : i < l.length ∧ j < r.length
  · rw [dif_pos hij]
    have hdi : l.drop i = l[i] :: l.drop (i + 1) := List.drop_eq_getElem_cons hij.1
    have hdj : r.drop j = r[j] :: r.drop (j + 1) := List.drop_eq_getElem_cons hij.2
    rw [pget_eq_some hij.1, pget_eq_some hij.2]
    simp only [Option.bind_eq_bind, Option.some_bind]
    have hkm : k < a.length := by omega
    rw [gd_eq_getElem hij.1, gd_eq_getElem hij.2]
    by_cases hle : l[i] ≤ r[j]
    · rw [if_pos hle, pset_eq_some hkm]
      simp only [Option.bind_eq_bind, Option.some_bind]
      obtain ⟨sn, hrec, hdat⟩ :=
        msVisMerge_spec (a.set k l[i]) l r s mid (i + 1) j (k + 1) depth
          (by simp; omega)
      rw [hrec]
      rw [hdi, hdj, mergeG, if_pos (by simpa using hle), ← hdj]
      refine ⟨_, rfl, ?_⟩
      intro snap hsnap
      rcases List.mem_cons.mp hsnap with h1 | h1
      · rw [h1]
      · rcases List.mem_cons.mp h1 with h2 | h2
        · rw [h2]
          simp
        · rw [hdat snap h2]
          simp
    · rw [if_neg hle, pset_eq_some hkm]
      simp only [Option.bind_eq_bind, Option.some_bind]
      obtain ⟨sn, hrec, hdat⟩ :=
        msVisMerge_spec (a.set k r[j]) l r s mid i (j + 1) (k + 1) depth
          (by simp; omega)
      rw [hrec]
      rw [hdi, hdj, mergeG, if_neg (by simpa using hle), ← hdi]
      refine ⟨_, rfl, ?_⟩
      intro snap hsnap
      rcases List.mem_cons.mp hsnap with h1 | h1
      · rw [h1]
      · rcases List.mem_cons.mp h1 with h2 | h2
        · rw [h2]
          simp
        · rw [hdat snap h2]
          simp
  · rw [dif_neg hij]
    by_cases hi : i < l.length
    · rw [dif_pos hi]
      have hj : ¬ j < r.length := fun hc => hij ⟨hi, hc⟩
      have hdi : l.drop i = l[i] :: l.drop (i + 1) := List.drop_eq_getElem_cons hi
      have hdj : r.drop j = [] := List.drop_eq_nil_of_le (by omega)
      rw [pget_eq_some hi]
      simp only [Option.bind_eq_bind, Option.some_bind]
      have hkm : k < a.length := by omega
      rw [gd_eq_getElem hi, pset_eq_some hkm]
      simp only [Option.bind_eq_bind, Option.some_bind]
      obtain ⟨sn, hrec, hdat⟩ :=
        msVisMerge_spec (a.set k l[i]) l r s mid (i + 1) j (k + 1) depth
          (by simp; omega)
      rw [hrec]
      rw [hdi, hdj]
      simp only [mergeG_nil_right]
      refine ⟨_, rfl, ?_⟩
      intro snap hsnap
      rcases List.mem_cons.mp hsnap with h1 | h1
      · rw [h1]
        simp
      · rw [hdat snap h1]
        simp
    · rw [dif_neg hi]
      by_cases hj : j < r.length
      · rw [dif_pos hj]
        have hdj : r.drop j = r[j] :: r.drop (j + 1) := List.drop_eq_getElem_cons hj
        have hdi : l.drop i = [] := List.drop_eq_nil_of_le (by omega)
        rw [pget_eq_some hj]
        simp only [Option.bind_eq_bind, Option.some_bind]
        have hkm : k < a.length := by omega
        rw [gd_eq_getElem hj, pset_eq_some hkm]
        simp only [Option.bind_eq_bind, Option.some_bind]
        obtain ⟨sn, hrec, hdat⟩ :=
          msVisMerge_spec (a.set k r[j]) l r s mid i (j + 1) (k + 1) depth
            (by simp; omega)
        rw [hrec]
        rw [hdi, hdj]
        simp only [mergeG_nil_left]
        refine ⟨_, rfl, ?_⟩
        intro snap hsnap
        rcases List.mem_cons.mp hsnap with h1 | h1
        · rw [h1]
          simp
        · rw [hdat snap h1]
          simp
      · rw [dif_neg hj]
        rw [List.drop_eq_nil_of_le (show l.length ≤ i by omega),
          List.drop_eq_nil_of_le (show r.length ≤ j by omega)]
        rw [mergeG]
        exact ⟨[], rfl, by intro snap hsnap; simp at hsnap⟩
termination_by (l.length - i) + (r.length - j)

/-- `_merge_sort_internal` (src/sorting.py:300-375): recursive split /
merge over the range `[s, e)` of the working array, yielding `split`,
`merge_start`, per-write and `final` snapshots. -/
def msVisAux (a : List Int) (s e : Nat) (depth : Nat) :
    Option (List Snap × List Int) :=
  if he : e - s ≤ 1 then
    if s < e then
      some ([{ data := a, highlight := some [s], depth := some depth }], a)
    else
      some ([], a)
  else do
    let mid := (s + e) / 2
    let s0 : Snap := { data := a, split := some (s, mid, e), depth := some depth }
    let (sn1, a1) ← msVisAux a s mid (depth + 1)
    let (sn2, a2) ← msVisAux a1 mid e (depth + 1)
    let lh := seg a2 s mid
    let rh := seg a2 mid e
    let sm : Snap := { data := a2, mergeStart := some (s, mid, e), depth := some depth }
    let (sn3, a3) ← msVisMerge a2 lh rh s mid 0 0 s depth
    some (s0 :: sn1 ++ sn2 ++ sm :: sn3 ++
      [{ data := a3, final := some (List.range' s (e - s)), depth := some depth }], a3)
termination_by e - s
decreasing_by
  · omega
  · omega

/-- `merge_sort_visual` (src/sorting.py:290-381): generator version of
merge sort; the value is the ordered list of yielded snapshots. -/
def merge_sort_visual (data : List Int) : Option (List Snap) := do
  let (sn, r) ← msVisAux data 0 data.length 0
  some (sn ++ [{ data := r, final := some (List.range data.length), depth := some 0 }])

theorem msVisAux_spec (a : List Int) (s e depth : Nat)
    (hse : s ≤ e) (he : e ≤ a.length) :
    ∃ sn a', msVisAux a s e depth = some (sn, a') ∧
      a'.length = a.length ∧
      (∀ t, t < s ∨ e ≤ t → gd a' t = gd a t) ∧
      (seg a' s e).Perm (seg a s e) ∧
      (∀ p q, s ≤ p → p < q → q < e → gd a' p ≤ gd a' q) ∧
      ∀ snap ∈ sn, snap.data.length = a.length := by
  rw [msVisAux]
  by_cases h1 : e - s ≤ 1
  · rw [dif_pos h1]
    by_cases h2 : s < e
    · rw [if_pos h2]
      refine ⟨_, a, rfl, rfl, fun t ht => rfl, List.Perm.refl _,
        fun p q hp hpq hq => by omega, ?_⟩
      intro snap hsnap
      rcases List.mem_cons.mp hsnap with h3 | h3
      · rw [h3]
      · simp at h3
    · rw [if_neg h2]
      exact ⟨[], a, rfl, rfl, fun t ht => rfl, List.Perm.refl _,
        fun p q hp hpq hq => by omega, by intro snap hsnap; simp at hsnap⟩
  · rw [dif_neg h1]
    simp only [Option.bind_eq_bind]
    have hmid1 : s < (s + e) / 2 := by omega
    have hmid2 : (s + e) / 2 < e := by omega
    obtain ⟨sn1, a1, hrec1, hlen1, hout1, hperm1, hsort1, hdat1⟩ :=
      msVisAux_spec a s ((s + e) / 2) (depth + 1) (by omega) (by omega)
    rw [hrec1]
    simp only [Option.some_bind]
    obtain ⟨sn2, a2, hrec2, hlen2, hout2, hperm2, hsort2, hdat2⟩ :=
      msVisAux_spec a1 ((s + e) / 2) e (depth + 1) (by omega) (by omega)
    rw [hrec2]
    simp only [Option.some_bind]
    have hlen2' : a2.length = a.length := by rw [hlen2, hlen1]
    set mid := (s + e) / 2 with hmiddef
    have hlh : (seg a2 s mid).length = mid - s :=
      length_seg (by omega) (by omega)
    have hrh : (seg a2 mid e).length = e - mid :=
      length_seg (by omega) (by omega)
    obtain ⟨sn3, hrec3, hdat3⟩ :=
      msVisMerge_spec a2 (seg a2 s mid) (seg a2 mid e) s mid 0 0 s depth
        (by rw [hlh, hrh]; omega)
    rw [hrec3]
    rw [List.drop_zero, List.drop_zero]
    set M := mergeG (fun x y => x ≤ y) (seg a2 s mid) (seg a2 mid e) with hMdef
    have hMlen : M.length = e - s := by
      rw [hMdef, mergeG_length, hlh, hrh]
      omega
    have hwb : s + M.length ≤ a2.length := by
      rw [hMlen, hlen2']
      omega
    have hMperm : M.Perm (seg a2 s e) := by
      refine (mergeG_perm _ _ _).trans ?_
      rw [seg_append (by omega) (by omega)]
    -- sortedness of the two merged halves
    have hseg1sorted : List.Sorted (· ≤ ·) (seg a2 s mid) := by
      rw [sorted_seg_iff (by omega) (by omega)]
      intro p q hp hpq hq
      rw [hout2 p (by left; omega), hout2 q (by left; omega)]
      exact hsort1 p q hp hpq hq
    have hseg2sorted : List.Sorted (· ≤ ·) (seg a2 mid e) := by
      rw [sorted_seg_iff (by omega) (by omega)]
      exact hsort2
    have hMsorted : List.Sorted (· ≤ ·) M := by
      refine mergeG_sorted _ ?_ ?_ _ _ hseg1sorted hseg2sorted
      · intro x y hxy
        simpa using hxy
      · intro x y hxy
        have := of_decide_eq_false hxy
        omega
    refine ⟨_, writeSeg a2 s M, rfl, ?_, ?_, ?_, ?_, ?_⟩
    · rw [length_writeSeg M a2 s hwb, hlen2']
    · intro t ht
      rcases ht with ht | ht
      · rw [gd_writeSeg_lt M a2 s t ht, hout2 t (by left; omega),
          hout1 t (by left; omega)]
      · rw [gd_writeSeg_ge M a2 s t (by omega), hout2 t (by right; omega),
          hout1 t (by right; omega)]
    · -- segment permutation
      have hseg : seg (writeSeg a2 s M) s e = M := by
        rw [writeSeg_eq M a2 s hwb]
        simp only [seg]
        rw [List.drop_append_eq_append_drop, List.drop_append_eq_append_drop]
        rw [List.drop_eq_nil_of_le
          (show (List.take s a2).length ≤ s by rw [List.length_take]; omega)]
        rw [List.nil_append, List.length_take]
        rw [show s - min s a2.length = 0 by omega, List.drop_zero]
        rw [List.take_append_eq_append_take]
        rw [show e - s - M.length = 0 by omega, List.take_zero, List.append_nil]
        exact List.take_of_length_le (by omega)
      rw [hseg]
      refine hMperm.trans ?_
      have hs1 : seg a2 s mid = seg a1 s mid := by
        apply List.ext_getElem
        · rw [length_seg (by omega) (by omega), length_seg (by omega) (by omega)]
        · intro t ht1 ht2
          have ht : t < mid - s := by
            rw [length_seg (by omega) (by omega)] at ht1
            omega
          rw [← gd_eq_getElem ht1, ← gd_eq_getElem ht2,
            gd_seg ht (by omega), gd_seg ht (by omega)]
          exact hout2 (s + t) (by left; omega)
      have hs2 : seg a1 mid e = seg a mid e := by
        apply List.ext_getElem
        · rw [length_seg (by omega) (by omega), length_seg (by omega) (by omega)]
        · intro t ht1 ht2
          have ht : t < e - mid := by
            rw [length_seg (by omega) (by omega)] at ht1
            omega
          rw [← gd_eq_getElem ht1, ← gd_eq_getElem ht2,
            gd_seg ht (by omega), gd_seg ht (by omega)]
          exact hout1 (mid + t) (by right; omega)
      have hstep1 : seg a2 s e = seg a1 s mid ++ seg a2 mid e := by
        rw [← seg_append (show s ≤ mid by omega) (show mid ≤ e by omega), hs1]
      rw [hstep1]
      refine ((List.Perm.refl (seg a1 s mid)).append hperm2).trans ?_
      rw [hs2]
      refine (hperm1.append (List.Perm.refl (seg a mid e))).trans ?_
      rw [seg_append (show s ≤ mid by omega) (show mid ≤ e by omega)]
    · -- sortedness of the merged segment
      intro p q hp hpq hq
      rw [gd_writeSeg_in M a2 s p (by omega) hwb hp (by omega),
        gd_writeSeg_in M a2 s q (by omega) hwb (by omega) (by omega)]
      have hM := List.pairwise_iff_getElem.mp hMsorted
      have h1 : p - s < M.length := by
        rw [hMlen]
        omega
      have h2 : q - s < M.length := by
        rw [hMlen]
        omega
      rw [gd_eq_getElem h1, gd_eq_getElem h2]
      exact hM (p - s) (q - s) h1 h2 (by omega)
    · intro snap hsnap
      rcases List.mem_cons.mp hsnap with h1 | h1
      · rw [h1]
      rcases List.mem_append.mp h1 with h2 | h2
      · rcases List.mem_append.mp h2 with h3 | h3
        · rcases List.mem_append.mp h3 with h4 | h4
          · exact hdat1 snap h4
          · rw [hdat2 snap h4, hlen1]
        · rcases List.mem_cons.mp h3 with h4 | h4
          · rw [h4]
            exact hlen2'
          · rw [hdat3 snap h4]
            exact hlen2'
      · rcases List.mem_cons.mp h2 with h3 | h3
        · rw [h3]
          show (writeSeg a2 s M).length = a.length
          rw [length_writeSeg M a2 s hwb]
          exact hlen2'
        · simp at h3
termination_by e - s
decreasing_by
  · omega
  · omega

/-- Summary of one `merge_sort_visual` run: it succeeds, ends with the
all-final terminal snapshot, whose data is a non-decreasing permutation of
the input, and every snapshot's `data` has the input's length. -/
theorem merge_sort_visual_spec (l : List Int) :
    ∃ sn r, merge_sort_visual l =
        some (sn ++ [{ data := r, final := some (List.range l.length), depth := some 0 }]) ∧
      r.length = l.length ∧ r.Perm l ∧ List.Sorted (· ≤ ·) r ∧
      ∀ s ∈ sn, s.data.length = l.length := by
  obtain ⟨sn, r, hrec, hlen, hout, hperm, hsort, hdat⟩ :=
    msVisAux_spec l 0 l.length 0 (by omega) (le_refl _)
  have h1 : seg r 0 l.length = r := by
    simp only [seg]
    rw [List.drop_zero]
    exact List.take_of_length_le (by omega)
  have h2 : seg l 0 l.length = l := by
    simp only [seg]
    rw [List.drop_zero]
    exact List.take_of_length_le (by omega)
  refine ⟨sn, r, ?_, hlen, ?_, ?_, hdat⟩
  · rw [merge_sort_visual, hrec]
    rfl
  · rw [h1, h2] at hperm
    exact hperm
  · rw [← sortedLe_iff]
    intro i j hij hj
    exact hsort i j (by omega) hij (by omega)

/-! ## Quick sort (`_partition`, `quick_sort`, `quick_sort_visual`) -/

/-- Python int indices can be negative (`low - 1`, `pi - 1`), so the quick
sort helpers use `Int` indices; a negative index is out of range for the
accesses these functions perform. -/
def pgetI (a : List Int) (i : Int) : Option Int :=
  if i < 0 then none else pget a i.toNat

def psetI (a : List Int) (i : Int) (v : Int) : Option (List Int) :=
  if i < 0 then none else pset a i.toNat v

def pswapI (a : List Int) (i j : Int) : Option (List Int) :=
  if i < 0 ∨ j < 0 then none else pswap a i.toNat j.toNat

/-- Total read at an Int index (for invariant statements). -/
def gdI (a : List Int) (i : Int) : Int :=
  gd a i.toNat

theorem pgetI_eq_some {a : List Int} {i : Int} (h0 : 0 ≤ i)
    (h1 : i.toNat < a.length) : pgetI a i = some (gdI a i) := by
  rw [pgetI, if_neg (by omega), pget_eq_some h1, gdI]

theorem pswapI_eq_some {a : List Int} {i j : Int} (hi0 : 0 ≤ i) (hj0 : 0 ≤ j)
    (hi : i.toNat < a.length) (hj : j.toNat < a.length) :
    pswapI a i j = some (lswap a i.toNat j.toNat) := by
  rw [pswapI, if_neg (by omega), pswap_eq_some hi hj]

/-- Loop of `_partition` (src/sorting.py:112-116):
`for j in range(low, high): if data[j] <= pivot: i += 1; swap(i, j)`. -/
def partLoop (a : List Int) (pivot : Int) (i j high : Int) :
    Option (List Int × Int) :=
  if h : j < high then do
    let x ← pgetI a j
    if x ≤ pivot then do
      let a' ← pswapI a (i + 1) j
      partLoop a' pivot (i + 1) (j + 1) high
    else
      partLoop a pivot i (j + 1) high
  else
    some (a, i)
termination_by (high - j).toNat
decreasing_by
  · omega
  · omega

/-- `_partition` (src/sorting.py:107-119): Lomuto partition with the last
element as pivot; returns the post-state and the pivot's final index. -/
def partition (a : List Int) (low high : Int) : Option (List Int × Int) := do
  let pivot ← pgetI a high
  let (a1, i) ← partLoop a pivot (low - 1) low high
  let a2 ← pswapI a1 (i + 1) high
  some (a2, i + 1)

theorem partLoop_spec (low : Int) (a : List Int) (pivot : Int) (i j high : Int)
    (hlen : high.toNat < a.length) (hhigh0 : 0 ≤ high) (hlow0 : 0 ≤ low)
    (hij : low - 1 ≤ i) (hijlt : i < j) (hjh : j ≤ high)
    (hpiv : gdI a high = pivot)
    (hsmall : ∀ k : Int, low ≤ k → k ≤ i → gdI a k ≤ pivot)
    (hbig : ∀ k : Int, i < k → k < j → pivot < gdI a k) :
    ∃ a' i', partLoop a pivot i j high = some (a', i') ∧
      a'.length = a.length ∧ a'.Perm a ∧ i ≤ i' ∧ i' < high ∧
      (∀ k : Int, 0 ≤ k → (k < j ∧ k ≤ i) ∨ high ≤ k → gdI a' k = gdI a k) ∧
      (∀ k : Int, high ≤ k → gdI a' k = gdI a k) ∧
      (∀ k : Int, low ≤ k → k ≤ i' → gdI a' k ≤ pivot) ∧
      (∀ k : Int, i' < k → k < high → pivot < gdI a' k) := by
  rw [partLoop]
  by_cases h : j < high
  · rw [dif_pos h]
    have hj0 : 0 ≤ j := by omega
    have hjlen : j.toNat < a.length := by omega
    rw [pgetI_eq_some hj0 hjlen]
    simp only [Option.bind_eq_bind, Option.some_bind]
    by_cases hle : gdI a j ≤ pivot
    · rw [if_pos hle]
      rw [pswapI_eq_some (by omega) hj0 (by omega) hjlen]
      simp only [Option.bind_eq_bind, Option.some_bind]
      have hswl : (lswap a (i + 1).toNat j.toNat).length = a.length := by simp
      have hgd1 : gdI (lswap a (i + 1).toNat j.toNat) (i + 1) = gdI a j := by
        by_cases heq : (i + 1) = j
        · rw [heq, gdI, gd_lswap_right (by omega) hjlen]
          rfl
        · rw [gdI, gd_lswap_left (by omega) hjlen (by omega)]
          rfl
      have hgdother : ∀ k : Int, 0 ≤ k → k ≠ i + 1 → k ≠ j →
          gdI (lswap a (i + 1).toNat j.toNat) k = gdI a k := by
        intro k hk0 hk1 hk2
        rw [gdI, gd_lswap_other (by omega) (by omega)]
        rfl
      have hgdj : gdI (lswap a (i + 1).toNat j.toNat) j = gdI a (i + 1) := by
        rw [gdI, gd_lswap_right (by omega) hjlen]
        rfl
      obtain ⟨a', i', hrec, hl, hp, hii, hih, hkeep, hhighkeep, hsm, hbg⟩ :=
        partLoop_spec low (lswap a (i + 1).toNat j.toNat) pivot (i + 1) (j + 1)
          high (by omega) hhigh0 hlow0 (by omega) (by omega) (by omega)
          (by
            rw [hgdother high (by omega) (by omega) (by omega)]
            exact hpiv)
          (by
            intro k hk0 hki
            by_cases hk1 : k = i + 1
            · rw [hk1, hgd1]
              exact hle
            · rw [hgdother k (by omega) hk1 (by omega)]
              exact hsmall k hk0 (by omega))
          (by
            intro k hk1 hk2
            by_cases hkj : k = j
            · rw [hkj, hgdj]
              exact hbig (i + 1) (by omega) (by omega)
            · rw [hgdother k (by omega) (by omega) hkj]
              exact hbig k (by omega) (by omega))
      refine ⟨a', i', hrec, by rw [hl, hswl],
        hp.trans (lswap_perm a (by omega) hjlen), by omega, hih, ?_, ?_, hsm, hbg⟩
      · intro k hk0 hk
        rcases hk with ⟨hk1, hk2⟩ | hk1
        · rw [hkeep k hk0 (by left; omega), hgdother k hk0 (by omega) (by omega)]
        · rw [hkeep k hk0 (by right; omega),
            hgdother k hk0 (by omega) (by omega)]
      · intro k hk
        rw [hhighkeep k hk, hgdother k (by omega) (by omega) (by omega)]
    · rw [if_neg hle]
      obtain ⟨a', i', hrec, hl, hp, hii, hih, hkeep, hhighkeep, hsm, hbg⟩ :=
        partLoop_spec low a pivot i (j + 1) high hlen hhigh0 hlow0 hij
          (by omega) (by omega) hpiv hsmall
          (by
            intro k hk1 hk2
            by_cases hkj : k = j
            · rw [hkj]
              omega
            · exact hbig k hk1 (by omega))
      refine ⟨a', i', hrec, hl, hp, hii, hih, ?_, hhighkeep, hsm, hbg⟩
      intro k hk0 hk
      rcases hk with ⟨hk1, hk2⟩ | hk1
      · exact hkeep k hk0 (by left; omega)
      · exact hkeep k hk0 (by right; omega)
  · rw [dif_neg h]
    have hje : j = high := by omega
    refine ⟨a, i, rfl, rfl, List.Perm.refl a, le_refl i, by omega,
      fun k hk0 hk => rfl, fun k hk => rfl, hsmall, ?_⟩
    intro k hk1 hk2
    exact hbig k hk1 (by omega)
termination_by (high - j).toNat
decreasing_by
  · omega
  · omega

/-- Specification of `_partition` on a valid sub-range `0 ≤ low ≤ high < n`:
it succeeds and returns the pivot's final index `p` with `low ≤ p ≤ high`;
afterwards every element before `p` (within the range) is `≤` the element
at `p`, every element after `p` (within the range) is `>` it, the element
at `p` is the originally chosen pivot `data[high]`, positions outside
`[low, high]` are untouched, and the list is a permutation of the input. -/
theorem partition_spec (a : List Int) (low high : Int)
    (hlow : 0 ≤ low) (hlh : low ≤ high) (hhigh : high.toNat < a.length) :
    ∃ a2 p, partition a low high = some (a2, p) ∧
      a2.length = a.length ∧ a2.Perm a ∧ low ≤ p ∧ p ≤ high ∧
      (∀ k : Int, 0 ≤ k → (k < low ∨ high < k) → gdI a2 k = gdI a k) ∧
      (∀ k : Int, low ≤ k → k < p → gdI a2 k ≤ gdI a2 p) ∧
      (∀ k : Int, p < k → k ≤ high → gdI a2 p < gdI a2 k) ∧
      gdI a2 p = gdI a high := by
  rw [partition]
  rw [pgetI_eq_some (by omega) hhigh]
  simp only [Option.bind_eq_bind, Option.some_bind]
  obtain ⟨a1, i, hrec, hl1, hp1, hii, hih, hkeep, hhighkeep, hsm, hbg⟩ :=
    partLoop_spec low a (gdI a high) (low - 1) low high hhigh (by omega)
      hlow (by omega) (by omega) hlh rfl
      (fun k hk1 hk2 => by omega) (fun k hk1 hk2 => by omega)
  rw [hrec]
  simp only [Option.bind_eq_bind, Option.some_bind]
  rw [pswapI_eq_some (by omega) (by omega) (by omega) (by omega)]
  simp only [Option.bind_eq_bind, Option.some_bind]
  set a2 := lswap a1 (i + 1).toNat high.toNat with ha2
  have hl2 : a2.length = a1.length := by simp [ha2]
  have hpivloc : gdI a2 (i + 1) = gdI a high := by
    by_cases heq : i + 1 = high
    · rw [gdI, ha2]
      rw [show (i + 1).toNat = high.toNat by omega]
      rw [gd_lswap_right (by omega) (by omega)]
      rw [show gd a1 high.toNat = gdI a1 high from rfl, hhighkeep high (le_refl _)]
    · rw [gdI, ha2, gd_lswap_left (by omega) (by omega) (by omega)]
      rw [show gd a1 high.toNat = gdI a1 high from rfl, hhighkeep high (le_refl _)]
  have hgdhigh : gdI a2 high = gdI a1 (i + 1) := by
    rw [gdI, ha2, gd_lswap_right (by omega) (by omega)]
    rfl
  have hother : ∀ k : Int, 0 ≤ k → k ≠ i + 1 → k ≠ high → gdI a2 k = gdI a1 k := by
    intro k h1 h2 h3
    rw [gdI, ha2, gd_lswap_other (by omega) (by omega)]
    rfl
  refine ⟨a2, i + 1, rfl, by rw [hl2, hl1], (lswap_perm a1 (by omega) (by omega)).trans hp1,
    by omega, by omega, ?_, ?_, ?_, hpivloc⟩
  · intro k hk0 hk
    have hk1 : k ≠ i + 1 := by omega
    by_cases hk2 : k = high
    · omega
    · rw [hother k hk0 hk1 hk2]
      rcases hk with hk | hk
      · exact hkeep k hk0 (by left; omega)
      · exact hkeep k hk0 (by right; omega)
  · intro k hk1 hk2
    rw [hpivloc, hother k (by omega) (by omega) (by omega)]
    exact hsm k hk1 (by omega)
  · intro k hk1 hk2
    rw [hpivloc]
    by_cases hkh : k = high
    · rw [hkh, hgdhigh]
      exact hbg (i + 1) (by omega) (by omega)
    · rw [hother k (by omega) (by omega) hkh]
      exact hbg k (by omega) (by omega)

/-- Positions `< m` agree pointwise, so the taken prefixes are equal. -/
theorem take_eq_of_gd_eq {a' a : List Int} (m : Nat)
    (hl : a'.length = a.length) (h : ∀ k, k < m → gd a' k = gd a k) :
    a'.take m = a.take m := by
  apply List.ext_getElem?
  intro t
  by_cases hk : t < m
  · by_cases hk2 : t < a.length
    · have hk2' : t < a'.length := by omega
      simp only [List.getElem?_take, if_pos hk]
      rw [List.getElem?_eq_getElem hk2, List.getElem?_eq_getElem hk2']
      have := h t hk
      rw [gd_eq_getElem hk2', gd_eq_getElem hk2] at this
      rw [this]
    · rw [List.getElem?_len_le, List.getElem?_len_le]
      · rw [List.length_take]
        omega
      · rw [List.length_take]
        omega
  · rw [List.getElem?_len_le, List.getElem?_len_le]
    · rw [List.length_take]
      omega
    · rw [List.length_take]
      omega

/-- A permutation that only moves entries inside `[s, e)` permutes that
segment. -/
theorem seg_perm_of_outside_eq {a' a : List Int} (s e : Nat)
    (hl : a'.length = a.length) (hp : a'.Perm a)
    (hout : ∀ k, k < s ∨ e ≤ k → gd a' k = gd a k) :
    (seg a' s e).Perm (seg a s e) := by
  by_cases hse : s ≤ e
  · have hdrop : a'.drop e = a.drop e :=
      drop_eq_of_gd_eq e hl (fun k hk => hout k (Or.inr hk))
    have htake : (a'.take e).Perm (a.take e) :=
      take_perm_of_drop_eq e hp hdrop
    have htakes : a'.take s = a.take s :=
      take_eq_of_gd_eq s hl (fun k hk => hout k (Or.inl hk))
    have hes : e = s + (e - s) := by omega
    have h1 : a'.take e = a'.take s ++ seg a' s e := by
      conv_lhs => rw [hes]
      rw [List.take_add]
      rfl
    have h2 : a.take e = a.take s ++ seg a s e := by
      conv_lhs => rw [hes]
      rw [List.take_add]
      rfl
    rw [h1, htakes, h2] at htake
    exact (List.perm_append_left_iff _).mp htake
  · have h0 : e - s = 0 := by omega
    rw [seg, seg, h0]
    simp

/-- Each entry of a permuted segment comes from some position of the same
segment of the original list. -/
theorem exists_source_of_seg_perm {a' a : List Int} {s e : Nat}
    (hl : a'.length = a.length)
    (hp : (seg a' s e).Perm (seg a s e)) {k : Nat}
    (hk1 : s ≤ k) (hk2 : k < e) (hke : e ≤ a.length) :
    ∃ q, s ≤ q ∧ q < e ∧ gd a' k = gd a q := by
  have hke' : e ≤ a'.length := by omega
  have hlt : k - s < (seg a' s e).length := by
    rw [length_seg (by omega) hke']
    omega
  have hmem : gd a' k ∈ seg a' s e := by
    have h1 : gd (seg a' s e) (k - s) = gd a' k := by
      rw [gd_seg (by omega) hke']
      congr 1
      omega
    rw [← h1, gd_eq_getElem hlt]
    exact List.getElem_mem hlt
  have hmem2 : gd a' k ∈ seg a s e := hp.mem_iff.mp hmem
  obtain ⟨t, ht, hval⟩ := List.mem_iff_getElem.mp hmem2
  rw [length_seg (by omega) hke] at ht
  refine ⟨s + t, by omega, by omega, ?_⟩
  have h2 : gd (seg a s e) t = gd a (s + t) := gd_seg (by omega) hke
  rw [gd_eq_getElem (by rw [length_seg (by omega) hke]; omega)] at h2
  rw [← hval, h2]

theorem gdI_natCast (a : List Int) (k : Nat) : gdI a (k : Int) = gd a k := by
  simp [gdI]

/-- Recursion of `quick_sort` (src/sorting.py:121-141), fuel-indexed: the
body runs only when `low < high`, partitions, then recurses on the two
sub-ranges `[low, pi-1]` and `[pi+1, high]`. -/
def qsLoop (fuel : Nat) (a : List Int) (low high : Int) : Option (List Int) :=
  match fuel with
  | 0 => none
  | fuel + 1 =>
    if low < high then do
      let (a1, pi) ← partition a low high
      let a2 ← qsLoop fuel a1 low (pi - 1)
      qsLoop fuel a2 (pi + 1) high
    else
      some a

/-- `quick_sort` (src/sorting.py:121-141) at its initial call:
`low = 0`, `high = len(data) - 1`; fuel `len(data) + 1` is shown
sufficient by `qsLoop_spec`. -/
def quick_sort (data : List Int) : Option (List Int) :=
  qsLoop (data.length + 1) data 0 ((data.length : Int) - 1)

/-- With enough fuel, `qsLoop` succeeds, permutes the list, leaves
positions outside `[low, high]` untouched and sorts `[low, high]`. -/
theorem qsLoop_spec (fuel : Nat) (a : List Int) (low high : Int)
    (hlow : 0 ≤ low) (hhigh : high < (a.length : Int))
    (hfuel : (high + 1 - low).toNat < fuel) :
    ∃ r, qsLoop fuel a low high = some r ∧
      r.length = a.length ∧ r.Perm a ∧
      (∀ k : Int, 0 ≤ k → (k < low ∨ high < k) → gdI r k = gdI a k) ∧
      (∀ u v : Int, low ≤ u → u < v → v ≤ high → gdI r u ≤ gdI r v) := by
  induction fuel generalizing a low high with
  | zero => omega
  | succ fuel ih =>
    by_cases hlh : low < high
    · rw [qsLoop, if_pos hlh]
      obtain ⟨a2, p, hpart, hl2, hp2, hlp, hph, hout2, hsmall, hbig, hpiv⟩ :=
        partition_spec a low high hlow (le_of_lt hlh) (by omega)
      rw [hpart]
      simp only [Option.bind_eq_bind, Option.some_bind]
      obtain ⟨r1, hr1, hlr1, hpr1, hout1, hsort1⟩ :=
        ih a2 low (p - 1) hlow (by omega) (by omega)
      rw [hr1]
      simp only [Option.bind_eq_bind, Option.some_bind]
      obtain ⟨r, hr, hlr, hpr, hout0, hsort0⟩ :=
        ih r1 (p + 1) high (by omega) (by omega) (by omega)
      have hrp : gdI r p = gdI a2 p := by
        rw [hout0 p (by omega) (by omega)]
        exact hout1 p (by omega) (by omega)
      have hsegL : (seg r1 low.toNat p.toNat).Perm (seg a2 low.toNat p.toNat) := by
        apply seg_perm_of_outside_eq _ _ hlr1 hpr1
        intro k hk
        have h := hout1 (k : Int) (by omega) (by omega)
        rwa [gdI_natCast, gdI_natCast] at h
      have hLeft : ∀ u : Int, low ≤ u → u < p → gdI r u ≤ gdI a2 p := by
        intro u hu hup
        obtain ⟨q, hq1, hq2, hq3⟩ :=
          exists_source_of_seg_perm hlr1 hsegL (k := u.toNat)
            (by omega) (by omega) (by omega)
        have h1 : gdI r u = gdI r1 u := hout0 u (by omega) (by omega)
        have h2 : gdI r1 u = gd a2 q := by
          rw [gdI]
          exact hq3
        rw [h1, h2, ← gdI_natCast a2 q]
        exact hsmall (q : Int) (by omega) (by omega)
      have hsegR : (seg r (p + 1).toNat (high + 1).toNat).Perm
          (seg r1 (p + 1).toNat (high + 1).toNat) := by
        apply seg_perm_of_outside_eq _ _ hlr hpr
        intro k hk
        have h := hout0 (k : Int) (by omega) (by omega)
        rwa [gdI_natCast, gdI_natCast] at h
      have hRight : ∀ v : Int, p < v → v ≤ high → gdI a2 p < gdI r v := by
        intro v hpv hv
        obtain ⟨q, hq1, hq2, hq3⟩ :=
          exists_source_of_seg_perm hlr hsegR (k := v.toNat)
            (by omega) (by omega) (by omega)
        have h1 : gdI r v = gd r1 q := by
          rw [gdI]
          exact hq3
        have h2 : gd r1 q = gdI a2 (q : Int) := by
          rw [← gdI_natCast r1 q]
          exact hout1 (q : Int) (by omega) (by omega)
        rw [h1, h2]
        exact hbig (q : Int) (by omega) (by omega)
      refine ⟨r, hr, by omega, (hpr.trans hpr1).trans hp2, ?_, ?_⟩
      · intro k hk0 hk
        have h1 : gdI r k = gdI r1 k := hout0 k hk0 (by omega)
        have h2 : gdI r1 k = gdI a2 k := hout1 k hk0 (by omega)
        have h3 : gdI a2 k = gdI a k := hout2 k hk0 (by omega)
        rw [h1, h2, h3]
      · intro u v hu huv hv
        by_cases hup : p + 1 ≤ u
        · exact hsort0 u v hup huv hv
        by_cases hvp : v ≤ p - 1
        · have h1 : gdI r u = gdI r1 u := hout0 u (by omega) (by omega)
          have h2 : gdI r v = gdI r1 v := hout0 v (by omega) (by omega)
          rw [h1, h2]
          exact hsort1 u v hu huv hvp
        by_cases hveq : v = p
        · have hgv : gdI r v = gdI a2 p := by
            rw [hveq]
            exact hrp
          rw [hgv]
          exact hLeft u hu (by omega)
        by_cases hueq : u = p
        · have hgu : gdI r u = gdI a2 p := by
            rw [hueq]
            exact hrp
          rw [hgu]
          exact le_of_lt (hRight v (by omega) hv)
        · exact le_trans (hLeft u hu (by omega))
            (le_of_lt (hRight v (by omega) hv))
    · rw [qsLoop, if_neg hlh]
      exact ⟨a, rfl, rfl, List.Perm.refl a, fun k _ _ => rfl,
        fun u v h1 h2 h3 => absurd (h1.trans_lt (h2.trans_le h3)) (by omega)⟩

/-- `quick_sort` succeeds on every list and returns a sorted permutation
of its input. -/
theorem quick_sort_correct (l : List Int) :
    ∃ r, quick_sort l = some r ∧ r.length = l.length ∧ r.Perm l ∧
      List.Sorted (· ≤ ·) r := by
  obtain ⟨r, hr, hlen, hperm, _, hsort⟩ :=
    qsLoop_spec (l.length + 1) l 0 ((l.length : Int) - 1)
      (le_refl 0) (by omega) (by omega)
  refine ⟨r, hr, hlen, hperm, ?_⟩
  rw [← sortedLe_iff]
  intro i j hij hj
  have h := hsort (i : Int) (j : Int) (by omega) (by omega) (by omega)
  rwa [gdI_natCast, gdI_natCast] at h

/-- Swapping the same two positions twice restores the list. -/
theorem lswap_lswap {a : List Int} {i j : Nat}
    (hi : i < a.length) (hj : j < a.length) :
    lswap (lswap a i j) i j = a := by
  by_cases hij : i = j
  · rw [hij, lswap_self, lswap_self]
  · apply List.ext_getElem (by simp)
    intro k hk1 hk2
    have hi' : i < (lswap a i j).length := by simpa using hi
    have hj' : j < (lswap a i j).length := by simpa using hj
    rw [← gd_eq_getElem hk1, ← gd_eq_getElem hk2]
    by_cases hki : k = i
    · rw [hki, gd_lswap_left hi' hj' hij, gd_lswap_right hi hj]
    · by_cases hkj : k = j
      · rw [hkj, gd_lswap_right hi' hj', gd_lswap_left hi hj hij]
      · rw [gd_lswap_other hki hkj, gd_lswap_other hki hkj]

/-- Loop of `quick_sort_visual._partition` (src/sorting.py:396-407). Inside
the generator the parameter `arr` and the closure variable `data_copy` are
the SAME Python list object (it is launched as `_quick_sort(data_copy, …)`),
so the pair of statements `arr[i], arr[j] = arr[j], arr[i]` followed by
`data_copy[i], data_copy[j] = data_copy[j], data_copy[i]` swaps the same two
cells twice: the embedding performs both swaps on the single shared state.
A `swap` snapshot is only yielded when `i != j`. -/
def qsVisPartLoop (a : List Int) (pivot : Int) (low high i j : Int) :
    Option (List Snap × List Int × Int) :=
  if h : j < high then do
    let s1 : Snap := { data := a, compare := some [j.toNat, high.toNat],
                       pivot := some high.toNat,
                       range := some (low.toNat, high.toNat) }
    let x ← pgetI a j
    if x ≤ pivot then
      if i + 1 ≠ j then do
        let a1 ← pswapI a (i + 1) j
        let a2 ← pswapI a1 (i + 1) j
        let s2 : Snap := { data := a2, swap := some [(i + 1).toNat, j.toNat],
                           pivot := some high.toNat,
                           range := some (low.toNat, high.toNat) }
        let (sn, a3, r) ← qsVisPartLoop a2 pivot low high (i + 1) (j + 1)
        some (s1 :: s2 :: sn, a3, r)
      else do
        let (sn, a3, r) ← qsVisPartLoop a pivot low high (i + 1) (j + 1)
        some (s1 :: sn, a3, r)
    else do
      let (sn, a3, r) ← qsVisPartLoop a pivot low high i (j + 1)
      some (s1 :: sn, a3, r)
  else
    some ([], a, i)
termination_by (high - j).toNat
decreasing_by
  · omega
  · omega
  · omega

/-- `quick_sort_visual._partition` (src/sorting.py:388-417): yields a pivot
snapshot, runs the loop, then the final pivot placement — again a double
swap of the aliased `arr`/`data_copy` when `i + 1 != high`, with a
`pivot_placed` snapshot either way.  Both branches make `i + 1` the value
the driver extracts from the `pivot_placed` snapshot, which the embedding
returns directly. -/
def qsVisPartition (a : List Int) (low high : Int) :
    Option (List Snap × List Int × Int) := do
  let pivot ← pgetI a high
  let s0 : Snap := { data := a, pivot := some high.toNat,
                     range := some (low.toNat, high.toNat) }
  let (sn, a1, i) ← qsVisPartLoop a pivot low high (low - 1) low
  if i + 1 ≠ high then do
    let a2 ← pswapI a1 (i + 1) high
    let a3 ← pswapI a2 (i + 1) high
    let sf : Snap := { data := a3, swap := some [(i + 1).toNat, high.toNat],
                       pivotPlaced := some (i + 1).toNat,
                       range := some (low.toNat, high.toNat) }
    some (s0 :: sn ++ [sf], a3, i + 1)
  else
    let sf : Snap := { data := a1, pivotPlaced := some (i + 1).toNat,
                       range := some (low.toNat, high.toNat) }
    some (s0 :: sn ++ [sf], a1, i + 1)

/-- `quick_sort_visual._quick_sort` (src/sorting.py:419-444), fuel-indexed:
highlight the range, partition (yielding its snapshots), mark the pivot
index final, then recurse on both sides; a single-element range yields one
`final` snapshot. -/
def qsVisLoop (fuel : Nat) (a : List Int) (low high : Int) :
    Option (List Snap × List Int) :=
  match fuel with
  | 0 => none
  | fuel + 1 =>
    if low < high then do
      let hl := List.range' low.toNat (high.toNat + 1 - low.toNat)
      let s0 : Snap := { data := a, highlight := some hl,
                         range := some (low.toNat, high.toNat) }
      let (sn1, a1, pi) ← qsVisPartition a low high
      let sp : Snap := { data := a1, final := some [pi.toNat],
                         range := some (low.toNat, high.toNat) }
      let (sn2, a2) ← qsVisLoop fuel a1 low (pi - 1)
      let (sn3, a3) ← qsVisLoop fuel a2 (pi + 1) high
      some (s0 :: sn1 ++ sp :: sn2 ++ sn3, a3)
    else if low = high then
      some ([{ data := a, final := some [low.toNat],
               range := some (low.toNat, high.toNat) }], a)
    else
      some ([], a)

/-- `quick_sort_visual` (src/sorting.py:384-454): lists of length ≤ 1 yield
a single all-final snapshot; otherwise the recursion runs on the copy and a
terminal all-final snapshot is yielded. -/
def quick_sort_visual (data : List Int) : Option (List Snap) :=
  if data.length ≤ 1 then
    some [{ data := data, final := some (List.range data.length) }]
  else do
    let (sn, a) ← qsVisLoop (data.length + 1) data 0 ((data.length : Int) - 1)
    some (sn ++ [{ data := a, final := some (List.range data.length) }])

/-- Because `arr` and `data_copy` alias, the partition loop of
`quick_sort_visual` never changes the data: each "swap" swaps the same two
cells twice.  Every yielded snapshot therefore carries the unchanged list. -/
theorem qsVisPartLoop_spec (a : List Int) (pivot : Int) (low high i j : Int)
    (hlen : high.toNat < a.length) (hhigh0 : 0 ≤ high) (hlow0 : 0 ≤ low)
    (hij : low - 1 ≤ i) (hijlt : i < j) (hjh : j ≤ high) :
    ∃ sn i', qsVisPartLoop a pivot low high i j = some (sn, a, i') ∧
      i ≤ i' ∧ i' < high ∧ ∀ s ∈ sn, s.data = a := by
  rw [qsVisPartLoop]
  by_cases h : j < high
  · rw [dif_pos h]
    rw [pgetI_eq_some (by omega) (by omega)]
    simp only [Option.bind_eq_bind, Option.some_bind]
    by_cases hle : gdI a j ≤ pivot
    · rw [if_pos hle]
      by_cases hieq : i + 1 ≠ j
      · rw [if_pos hieq]
        rw [pswapI_eq_some (by omega) (by omega) (by omega) (by omega)]
        simp only [Option.bind_eq_bind, Option.some_bind]
        rw [pswapI_eq_some (by omega) (by omega)
          (by rw [length_lswap]; omega) (by rw [length_lswap]; omega)]
        simp only [Option.bind_eq_bind, Option.some_bind]
        rw [lswap_lswap (by omega) (by omega)]
        obtain ⟨sn, i', hrec, hii, hih, hdata⟩ :=
          qsVisPartLoop_spec a pivot low high (i + 1) (j + 1) hlen hhigh0
            hlow0 (by omega) (by omega) (by omega)
        rw [hrec]
        simp only [Option.bind_eq_bind, Option.some_bind]
        refine ⟨_, i', rfl, by omega, hih, ?_⟩
        intro s hs
        rcases List.mem_cons.mp hs with h1 | hs
        · rw [h1]
        rcases List.mem_cons.mp hs with h1 | hs
        · rw [h1]
        exact hdata s hs
      · rw [if_neg hieq]
        obtain ⟨sn, i', hrec, hii, hih, hdata⟩ :=
          qsVisPartLoop_spec a pivot low high (i + 1) (j + 1) hlen hhigh0
            hlow0 (by omega) (by omega) (by omega)
        rw [hrec]
        simp only [Option.bind_eq_bind, Option.some_bind]
        refine ⟨_, i', rfl, by omega, hih, ?_⟩
        intro s hs
        rcases List.mem_cons.mp hs with h1 | hs
        · rw [h1]
        exact hdata s hs
    · rw [if_neg hle]
      obtain ⟨sn, i', hrec, hii, hih, hdata⟩ :=
        qsVisPartLoop_spec a pivot low high i (j + 1) hlen hhigh0
          hlow0 hij (by omega) (by omega)
      rw [hrec]
      simp only [Option.bind_eq_bind, Option.some_bind]
      refine ⟨_, i', rfl, hii, hih, ?_⟩
      intro s hs
      rcases List.mem_cons.mp hs with h1 | hs
      · rw [h1]
      exact hdata s hs
  · rw [dif_neg h]
    exact ⟨[], i, rfl, le_refl i, by omega, by simp⟩
termination_by (high - j).toNat
decreasing_by
  · omega
  · omega
  · omega

/-- `quick_sort_visual._partition` leaves the data unchanged (aliased double
swaps) and reports pivot index `i + 1` with `low ≤ i + 1 ≤ high`. -/
theorem qsVisPartition_spec (a : List Int) (low high : Int)
    (hlow : 0 ≤ low) (hlh : low ≤ high) (hhigh : high.toNat < a.length) :
    ∃ sn p, qsVisPartition a low high = some (sn, a, p) ∧
      low ≤ p ∧ p ≤ high ∧ ∀ s ∈ sn, s.data = a := by
  rw [qsVisPartition, pgetI_eq_some (by omega) hhigh]
  simp only [Option.bind_eq_bind, Option.some_bind]
  obtain ⟨sn, i', hrec, hii, hih, hdata⟩ :=
    qsVisPartLoop_spec a (gdI a high) low high (low - 1) low hhigh
      (by omega) hlow (by omega) (by omega) hlh
  rw [hrec]
  simp only [Option.bind_eq_bind, Option.some_bind]
  by_cases hne : i' + 1 ≠ high
  · rw [if_pos hne]
    rw [pswapI_eq_some (by omega) (by omega) (by omega) (by omega)]
    simp only [Option.bind_eq_bind, Option.some_bind]
    rw [pswapI_eq_some (by omega) (by omega)
      (by rw [length_lswap]; omega) (by rw [length_lswap]; omega)]
    simp only [Option.bind_eq_bind, Option.some_bind]
    rw [lswap_lswap (by omega) (by omega)]
    refine ⟨_, i' + 1, rfl, by omega, by omega, ?_⟩
    intro s hs
    rcases List.mem_cons.mp hs with h1 | hs
    · rw [h1]
    rcases List.mem_append.mp hs with hs | hs
    · exact hdata s hs
    · rw [List.mem_singleton.mp hs]
  · rw [if_neg hne]
    refine ⟨_, i' + 1, rfl, by omega, by omega, ?_⟩
    intro s hs
    rcases List.mem_cons.mp hs with h1 | hs
    · rw [h1]
    rcases List.mem_append.mp hs with hs | hs
    · exact hdata s hs
    · rw [List.mem_singleton.mp hs]

/-- The recursion of `quick_sort_visual` succeeds with enough fuel, and —
because of the aliased double swaps — returns the data unchanged; every
snapshot carries the unchanged list. -/
theorem qsVisLoop_spec (fuel : Nat) (a : List Int) (low high : Int)
    (hlow : 0 ≤ low) (hhigh : high < (a.length : Int))
    (hfuel : (high + 1 - low).toNat < fuel) :
    ∃ sn, qsVisLoop fuel a low high = some (sn, a) ∧ ∀ s ∈ sn, s.data = a := by
  induction fuel generalizing low high with
  | zero => omega
  | succ fuel ih =>
    by_cases hlh : low < high
    · rw [qsVisLoop, if_pos hlh]
      obtain ⟨sn1, p, hpart, hlp, hph, hd1⟩ :=
        qsVisPartition_spec a low high hlow (by omega) (by omega)
      rw [hpart]
      simp only [Option.bind_eq_bind, Option.some_bind]
      obtain ⟨sn2, h2, hd2⟩ := ih low (p - 1) hlow (by omega) (by omega)
      rw [h2]
      simp only [Option.bind_eq_bind, Option.some_bind]
      obtain ⟨sn3, h3, hd3⟩ := ih (p + 1) high (by omega) (by omega) (by omega)
      rw [h3]
      simp only [Option.bind_eq_bind, Option.some_bind]
      refine ⟨_, rfl, ?_⟩
      intro s hs
      rcases List.mem_cons.mp hs with h1 | hs
      · rw [h1]
      rcases List.mem_append.mp hs with hs | hs
      · rcases List.mem_append.mp hs with hs | hs
        · exact hd1 s hs
        · rcases List.mem_cons.mp hs with h1 | hs
          · rw [h1]
          · exact hd2 s hs
      · exact hd3 s hs
    · rw [qsVisLoop, if_neg hlh]
      by_cases heq : low = high
      · rw [if_pos heq]
        refine ⟨_, rfl, ?_⟩
        intro s hs
        rw [List.mem_singleton.mp hs]
      · rw [if_neg heq]
        exact ⟨[], rfl, by simp⟩

/-- `quick_sort_visual` always terminates with a terminal snapshot marking
all indices final — but, due to the aliasing bug, the data in every
snapshot (including the terminal one) is the UNCHANGED input list. -/
theorem quick_sort_visual_spec (l : List Int) :
    ∃ sn, quick_sort_visual l =
        some (sn ++ [{ data := l, final := some (List.range l.length) }]) ∧
      ∀ s ∈ sn, s.data = l := by
  rw [quick_sort_visual]
  by_cases h : l.length ≤ 1
  · rw [if_pos h]
    exact ⟨[], rfl, by simp⟩
  · rw [if_neg h]
    obtain ⟨sn, hrec, hd⟩ :=
      qsVisLoop_spec (l.length + 1) l 0 ((l.length : Int) - 1)
        (le_refl 0) (by omega) (by omega)
    rw [hrec]
    simp only [Option.bind_eq_bind, Option.some_bind]
    exact ⟨sn, rfl, hd⟩

/-! ### Heap sort: subtree structure of the implicit binary heap -/

/-- `inSubtree i j`: position `j` lies in the subtree rooted at `i` of the
implicit binary heap (parent of `j` is `(j-1)/2`). -/
def inSubtree (i j : Nat) : Bool :=
  if j = i then true
  else if j ≤ i then false
  else inSubtree i ((j - 1) / 2)
termination_by j
decreasing_by
  omega

theorem inSubtree_self (i : Nat) : inSubtree i i = true := by
  rw [inSubtree]
  simp

theorem inSubtree_le {i j : Nat} (h : inSubtree i j = true) : i ≤ j := by
  by_contra hc
  rw [inSubtree] at h
  rw [if_neg (by omega), if_pos (by omega)] at h
  exact Bool.false_ne_true h

theorem inSubtree_unfold {i j : Nat} (hij : i < j) :
    inSubtree i j = inSubtree i ((j - 1) / 2) := by
  rw [inSubtree]
  rw [if_neg (by omega), if_neg (by omega)]

theorem inSubtree_child_left (i : Nat) : inSubtree i (2 * i + 1) = true := by
  rw [inSubtree_unfold (by omega)]
  have h : (2 * i + 1 - 1) / 2 = i := by omega
  rw [h, inSubtree_self]

theorem inSubtree_child_right (i : Nat) : inSubtree i (2 * i + 2) = true := by
  rw [inSubtree_unfold (by omega)]
  have h : (2 * i + 2 - 1) / 2 = i := by omega
  rw [h, inSubtree_self]

/-- Deep subtree members are at least `2i+1`. -/
theorem inSubtree_ge_child {i j : Nat} (h : inSubtree i j = true)
    (hij : i < j) : 2 * i + 1 ≤ j := by
  rw [inSubtree_unfold hij] at h
  have := inSubtree_le h
  omega

/-- Transitivity: the subtree of a subtree member is contained in the
subtree. -/
theorem inSubtree_trans {i c : Nat} (h1 : inSubtree i c = true) (j : Nat)
    (h2 : inSubtree c j = true) : inSubtree i j = true := by
  by_cases hjc : j = c
  · rw [hjc]
    exact h1
  · have hcj : c < j := by
      have := inSubtree_le h2
      omega
    have h2' : inSubtree c ((j - 1) / 2) = true := by
      rw [← inSubtree_unfold hcj]
      exact h2
    have hrec := inSubtree_trans h1 ((j - 1) / 2) h2'
    have hij : i < j := by
      have := inSubtree_le h1
      omega
    rw [inSubtree_unfold hij]
    exact hrec
termination_by j
decreasing_by omega

/-- Every position is in the subtree of the root. -/
theorem inSubtree_root (j : Nat) : inSubtree 0 j = true := by
  by_cases hj : j = 0
  · rw [hj]
    exact inSubtree_self 0
  · have h := inSubtree_root ((j - 1) / 2)
    rw [inSubtree_unfold (by omega)]
    exact h
termination_by j
decreasing_by omega

/-- A deep subtree member descends through one of the two children. -/
theorem inSubtree_descend {i j : Nat} (hij : i < j)
    (h : inSubtree i j = true) :
    inSubtree (2 * i + 1) j = true ∨ inSubtree (2 * i + 2) j = true := by
  have hp : inSubtree i ((j - 1) / 2) = true := by
    rw [← inSubtree_unfold hij]
    exact h
  by_cases hpi : (j - 1) / 2 = i
  · have hj : j = 2 * i + 1 ∨ j = 2 * i + 2 := by omega
    rcases hj with hj | hj
    · left
      rw [hj]
      exact inSubtree_self _
    · right
      rw [hj]
      exact inSubtree_self _
  · have hplt : i < (j - 1) / 2 := by
      have := inSubtree_le hp
      omega
    have hrec := inSubtree_descend hplt hp
    rcases hrec with hc | hc
    · left
      have hcj : 2 * i + 1 ≤ (j - 1) / 2 := inSubtree_le hc
      rw [inSubtree_unfold (by omega)]
      exact hc
    · right
      have hcj : 2 * i + 2 ≤ (j - 1) / 2 := inSubtree_le hc
      rw [inSubtree_unfold (by omega)]
      exact hc
termination_by j
decreasing_by omega

/-- Two subtrees sharing a member are nested one way or the other. -/
theorem inSubtree_nested {r k : Nat} (j : Nat) (h1 : inSubtree r j = true)
    (h2 : inSubtree k j = true) :
    inSubtree k r = true ∨ inSubtree r k = true := by
  by_cases hjr : j = r
  · left
    rw [← hjr]
    exact h2
  · by_cases hjk : j = k
    · right
      rw [← hjk]
      exact h1
    · have hrj : r < j := by
        have := inSubtree_le h1
        omega
      have hkj : k < j := by
        have := inSubtree_le h2
        omega
      exact inSubtree_nested ((j - 1) / 2)
        (by rw [← inSubtree_unfold hrj]; exact h1)
        (by rw [← inSubtree_unfold hkj]; exact h2)
termination_by j
decreasing_by omega

/-- Max-heap property of the subtree rooted at `i`, restricted to the first
`n` positions: every strict descendant is at most its parent. -/
def IsHeapAt (a : List Int) (n i : Nat) : Prop :=
  ∀ j, i < j → j < n → inSubtree i j = true → gd a j ≤ gd a ((j - 1) / 2)

/-- In a heap subtree the root dominates every member. -/
theorem heap_root_dominates {a : List Int} {n r : Nat}
    (h : IsHeapAt a n r) (j : Nat) (hj : inSubtree r j = true) (hjn : j < n) :
    gd a j ≤ gd a r := by
  by_cases hjr : j = r
  · rw [hjr]
  · have hrj : r < j := by
      have := inSubtree_le hj
      omega
    have hpair := h j hrj hjn hj
    have hp : inSubtree r ((j - 1) / 2) = true := by
      rw [← inSubtree_unfold hrj]
      exact hj
    have hrec := heap_root_dominates h ((j - 1) / 2) hp (by omega)
    exact le_trans hpair hrec
termination_by j
decreasing_by omega

/-- `IsHeapAt` only depends on the values at the subtree's positions below
`n`. -/
theorem isHeapAt_congr {a' a : List Int} {n r : Nat}
    (hcong : ∀ k, inSubtree r k = true → k < n → gd a' k = gd a k)
    (h : IsHeapAt a n r) : IsHeapAt a' n r := by
  intro j hrj hjn hsub
  have hp : inSubtree r ((j - 1) / 2) = true := by
    rw [← inSubtree_unfold hrj]
    exact hsub
  rw [hcong j hsub hjn, hcong ((j - 1) / 2) hp (by omega)]
  exact h j hrj hjn hsub

/-- A heap subtree is a heap at any of its members. -/
theorem isHeapAt_restrict {a : List Int} {n r r' : Nat}
    (h : IsHeapAt a n r) (hr : inSubtree r r' = true) : IsHeapAt a n r' := by
  intro j hrj hjn hsub
  have hrle : r ≤ r' := inSubtree_le hr
  exact h j (by omega) hjn (inSubtree_trans hr j hsub)

/-- Members of the left child's subtree are not in the right child's. -/
theorem inSubtree_sibling {i : Nat} (j : Nat)
    (hL : inSubtree (2 * i + 1) j = true) :
    inSubtree (2 * i + 2) j = false := by
  by_cases hjl : j = 2 * i + 1
  · rw [hjl, inSubtree]
    rw [if_neg (by omega), if_pos (by omega)]
  · have hlj : 2 * i + 1 < j := by
      have := inSubtree_le hL
      omega
    by_cases hjr : j = 2 * i + 2
    · exfalso
      have : (j - 1) / 2 = i := by omega
      rw [inSubtree_unfold hlj, this] at hL
      have := inSubtree_le hL
      omega
    · have hrec := inSubtree_sibling ((j - 1) / 2)
        (by rw [← inSubtree_unfold hlj]; exact hL)
      rw [inSubtree_unfold (by omega)]
      exact hrec
termination_by j
decreasing_by omega

/-- Leaves (and out-of-range roots) are trivially heaps: a subtree rooted
at `r` with `2r+1 ≥ n` has no strict member below `n`. -/
theorem isHeapAt_leaf {a : List Int} {n r : Nat} (h : n ≤ 2 * r + 1) :
    IsHeapAt a n r := by
  intro j hrj hjn hsub
  have := inSubtree_ge_child hsub hrj
  omega

theorem inSubtree_gt_false {i j : Nat} (h : j < i) : inSubtree i j = false := by
  cases hb : inSubtree i j
  · rfl
  · have := inSubtree_le hb
    omega

/-- First comparison of `_heapify` (src/sorting.py:150-151): the Python
condition `left < n and data[left] > data[largest]` short-circuits, reading
the two cells only when `left < n`. -/
def heapLargest1 (a : List Int) (n i : Nat) : Option Nat :=
  if 2 * i + 1 < n then do
    let x ← pget a (2 * i + 1)
    let y ← pget a i
    some (if y < x then 2 * i + 1 else i)
  else
    some i

/-- Second comparison of `_heapify` (src/sorting.py:154-155). -/
def heapLargest2 (a : List Int) (n i : Nat) (l1 : Nat) : Option Nat :=
  if 2 * i + 2 < n then do
    let x ← pget a (2 * i + 2)
    let y ← pget a l1
    some (if y < x then 2 * i + 2 else l1)
  else
    some l1

/-- `_heapify` (src/sorting.py:143-161), fuel-indexed (each recursive call
moves the root strictly deeper, so `n - i` fuel suffices; shown in
`pheapify_spec`). -/
def pheapify (fuel : Nat) (a : List Int) (n i : Nat) : Option (List Int) :=
  match fuel with
  | 0 => none
  | fuel + 1 => do
    let l1 ← heapLargest1 a n i
    let l2 ← heapLargest2 a n i l1
    if l2 ≠ i then do
      let a' ← pswap a i l2
      pheapify fuel a' n l2
    else
      some a

theorem heapLargest1_spec (a : List Int) (n i : Nat)
    (hn : n ≤ a.length) (hin : i < n) :
    ∃ l1, heapLargest1 a n i = some l1 ∧
      gd a i ≤ gd a l1 ∧
      (2 * i + 1 < n → gd a (2 * i + 1) ≤ gd a l1) ∧
      (l1 = i ∨ (l1 = 2 * i + 1 ∧ l1 < n)) := by
  rw [heapLargest1]
  by_cases h1 : 2 * i + 1 < n
  · rw [if_pos h1, pget_eq_some (by omega), pget_eq_some (by omega)]
    simp only [Option.bind_eq_bind, Option.some_bind]
    by_cases ht : gd a i < gd a (2 * i + 1)
    · rw [if_pos ht]
      exact ⟨2 * i + 1, rfl, le_of_lt ht, fun _ => le_refl _,
        Or.inr ⟨rfl, h1⟩⟩
    · rw [if_neg ht]
      exact ⟨i, rfl, le_refl _, fun _ => le_of_not_lt ht, Or.inl rfl⟩
  · rw [if_neg h1]
    exact ⟨i, rfl, le_refl _, fun hc => absurd hc h1, Or.inl rfl⟩

theorem heapLargest2_spec (a : List Int) (n i : Nat) (l1 : Nat)
    (hn : n ≤ a.length) (hl1 : l1 < n) :
    ∃ l2, heapLargest2 a n i l1 = some l2 ∧
      gd a l1 ≤ gd a l2 ∧
      (2 * i + 2 < n → gd a (2 * i + 2) ≤ gd a l2) ∧
      (l2 = l1 ∨ (l2 = 2 * i + 2 ∧ l2 < n)) := by
  rw [heapLargest2]
  by_cases h1 : 2 * i + 2 < n
  · rw [if_pos h1, pget_eq_some (by omega), pget_eq_some (by omega)]
    simp only [Option.bind_eq_bind, Option.some_bind]
    by_cases ht : gd a l1 < gd a (2 * i + 2)
    · rw [if_pos ht]
      exact ⟨2 * i + 2, rfl, le_of_lt ht, fun _ => le_refl _,
        Or.inr ⟨rfl, h1⟩⟩
    · rw [if_neg ht]
      exact ⟨l1, rfl, le_refl _, fun _ => le_of_not_lt ht, Or.inl rfl⟩
  · rw [if_neg h1]
    exact ⟨l1, rfl, le_refl _, fun hc => absurd hc h1, Or.inl rfl⟩

/-- Main lemma for `_heapify` (src/sorting.py:143-161): if both child
subtrees of `i` are heaps on `[0, n)`, heapify succeeds (with fuel
`> n - i`), permutes the list, changes nothing outside the subtree of `i`
below `n`, establishes the heap property at `i`, and never raises a
subtree value above a pre-existing uniform bound. -/
theorem pheapify_spec (fuel : Nat) (a : List Int) (n i : Nat)
    (hn : n ≤ a.length) (hin : i < n) (hfuel : n - i < fuel)
    (hL : IsHeapAt a n (2 * i + 1)) (hR : IsHeapAt a n (2 * i + 2)) :
    ∃ a', pheapify fuel a n i = some a' ∧
      a'.length = a.length ∧ a'.Perm a ∧
      (∀ k, inSubtree i k = false ∨ n ≤ k → gd a' k = gd a k) ∧
      IsHeapAt a' n i ∧
      (∀ b, (∀ k, inSubtree i k = true → k < n → gd a k ≤ b) →
        ∀ k, inSubtree i k = true → k < n → gd a' k ≤ b) := by
  cases fuel with
  | zero => omega
  | succ fuel =>
    rw [pheapify]
    obtain ⟨l1, hl1eq, hs0, hs1, hc1⟩ := heapLargest1_spec a n i hn hin
    have hl1n : l1 < n := by
      rcases hc1 with h | ⟨_, h⟩
      · omega
      · exact h
    obtain ⟨l2, hl2eq, ht0, ht2, hc2⟩ := heapLargest2_spec a n i l1 hn hl1n
    rw [hl1eq]
    simp only [Option.bind_eq_bind, Option.some_bind]
    rw [hl2eq]
    simp only [Option.bind_eq_bind, Option.some_bind]
    have F0 : gd a i ≤ gd a l2 := le_trans hs0 ht0
    have F1 : 2 * i + 1 < n → gd a (2 * i + 1) ≤ gd a l2 :=
      fun h => le_trans (hs1 h) ht0
    have F2 : 2 * i + 2 < n → gd a (2 * i + 2) ≤ gd a l2 := ht2
    by_cases hne : l2 ≠ i
    · rw [if_pos hne]
      have hCC : (l2 = 2 * i + 1 ∨ l2 = 2 * i + 2) ∧ l2 < n := by
        rcases hc2 with he | ⟨he, hn2⟩
        · rcases hc1 with h1 | ⟨h1, hn1⟩
          · exact absurd (he.trans h1) hne
          · exact ⟨Or.inl (he.trans h1), he ▸ hn1⟩
        · exact ⟨Or.inr he, hn2⟩
      obtain ⟨hchild, hl2n⟩ := hCC
      have hil2 : i < l2 := by rcases hchild with h | h <;> omega
      have hl2len : l2 < a.length := by omega
      have hilen : i < a.length := by omega
      rw [pswap_eq_some hilen hl2len]
      simp only [Option.bind_eq_bind, Option.some_bind]
      have hHl2 : IsHeapAt a n l2 := by
        rcases hchild with h | h
        · rw [h]
          exact hL
        · rw [h]
          exact hR
      have ha1_sub : ∀ k, inSubtree l2 k = true → k ≠ l2 →
          gd (lswap a i l2) k = gd a k := by
        intro k hk hkne
        have : l2 ≤ k := inSubtree_le hk
        exact gd_lswap_other (by omega) (by omega)
      have ha1_l2 : gd (lswap a i l2) l2 = gd a i := gd_lswap_right hilen hl2len
      have ha1_i : gd (lswap a i l2) i = gd a l2 :=
        gd_lswap_left hilen hl2len (by omega)
      have ha1_other : ∀ k, k ≠ i → k ≠ l2 →
          gd (lswap a i l2) k = gd a k :=
        fun k h1 h2 => gd_lswap_other h1 h2
      have hL' : IsHeapAt (lswap a i l2) n (2 * l2 + 1) := by
        apply isHeapAt_congr
        · intro k hk hkn
          have h2l : 2 * l2 + 1 ≤ k := inSubtree_le hk
          exact ha1_other k (by omega) (by omega)
        · exact isHeapAt_restrict hHl2 (inSubtree_child_left l2)
      have hR' : IsHeapAt (lswap a i l2) n (2 * l2 + 2) := by
        apply isHeapAt_congr
        · intro k hk hkn
          have h2l : 2 * l2 + 2 ≤ k := inSubtree_le hk
          exact ha1_other k (by omega) (by omega)
        · exact isHeapAt_restrict hHl2 (inSubtree_child_right l2)
      obtain ⟨a', hrec, hlen', hperm', huntouched', hheap', hbound'⟩ :=
        pheapify_spec fuel (lswap a i l2) n l2
          (by rw [length_lswap]; exact hn) hl2n (by omega) hL' hR'
      rw [hrec]
      have hnotin_i : inSubtree l2 i = false := inSubtree_gt_false hil2
      have hgdi : gd a' i = gd a l2 := by
        rw [huntouched' i (Or.inl hnotin_i), ha1_i]
      have hbnd1 : ∀ k, inSubtree l2 k = true → k < n →
          gd (lswap a i l2) k ≤ gd a l2 := by
        intro k hk hkn
        by_cases hkeq : k = l2
        · rw [hkeq, ha1_l2]
          exact F0
        · rw [ha1_sub k hk hkeq]
          exact heap_root_dominates hHl2 k hk hkn
      have hbnd' : ∀ k, inSubtree l2 k = true → k < n → gd a' k ≤ gd a l2 :=
        hbound' (gd a l2) hbnd1
      have hsubl2 : inSubtree i l2 = true := by
        rcases hchild with h | h
        · rw [h]
          exact inSubtree_child_left i
        · rw [h]
          exact inSubtree_child_right i
      refine ⟨a', rfl, by rw [hlen', length_lswap],
        hperm'.trans (lswap_perm a hilen hl2len), ?_, ?_, ?_⟩
      · intro k hk
        rcases hk with hk | hk
        · have hknotl2 : inSubtree l2 k = false := by
            cases hb : inSubtree l2 k
            · rfl
            · have := inSubtree_trans hsubl2 k hb
              rw [hk] at this
              exact (Bool.false_ne_true this).elim
          have hki : k ≠ i := by
            intro he
            rw [he, inSubtree_self] at hk
            exact (Bool.false_ne_true hk.symm).elim
          have hkl2 : k ≠ l2 := by
            intro he
            rw [he, hsubl2] at hk
            exact (Bool.false_ne_true hk.symm).elim
          rw [huntouched' k (Or.inl hknotl2), ha1_other k hki hkl2]
        · rw [huntouched' k (Or.inr hk), ha1_other k (by omega) (by omega)]
      · intro j hij hjn hsub
        by_cases hjl2 : inSubtree l2 j = true
        · by_cases hjeq : j = l2
          · have hpar : (j - 1) / 2 = i := by
              rcases hchild with h | h <;> omega
            rw [hpar, hgdi, hjeq]
            exact hbnd' l2 (inSubtree_self l2) hl2n
          · have hl2j : l2 < j := by
              have := inSubtree_le hjl2
              omega
            exact hheap' j hl2j hjn hjl2
        · have hjnotl2 : inSubtree l2 j = false := by
            cases hb : inSubtree l2 j
            · rfl
            · exact absurd hb hjl2
          have hdesc := inSubtree_descend hij hsub
          have hji : j ≠ i := by omega
          have hjLne : j ≠ l2 := by
            intro he
            rw [he, inSubtree_self] at hjnotl2
            exact (Bool.false_ne_true hjnotl2.symm).elim
          have hgdj : gd a' j = gd a j := by
            rw [huntouched' j (Or.inl hjnotl2), ha1_other j hji hjLne]
          by_cases hpj : (j - 1) / 2 = i
          · have hjc : j = 2 * i + 1 ∨ j = 2 * i + 2 := by omega
            rw [hpj, hgdi, hgdj]
            rcases hjc with h | h
            · rw [h]
              exact F1 (by omega)
            · rw [h]
              exact F2 (by omega)
          · rcases hchild with hcl | hcl
            · have hjc2 : inSubtree (2 * i + 2) j = true := by
                rcases hdesc with h | h
                · rw [← hcl, hjnotl2] at h
                  exact (Bool.false_ne_true h).elim
                · exact h
              have hcjlt : 2 * i + 2 < j := by
                have := inSubtree_le hjc2
                omega
              have hp2 : inSubtree (2 * i + 2) ((j - 1) / 2) = true := by
                rw [← inSubtree_unfold hcjlt]
                exact hjc2
              have hpne_l2 : (j - 1) / 2 ≠ l2 := by
                intro he
                rw [he, hcl] at hp2
                have := inSubtree_le hp2
                omega
              have hpnot_sub : inSubtree l2 ((j - 1) / 2) = false := by
                rw [hcl]
                cases hb : inSubtree (2 * i + 1) ((j - 1) / 2)
                · rfl
                · have := inSubtree_sibling ((j - 1) / 2) hb
                  rw [this] at hp2
                  exact (Bool.false_ne_true hp2).elim
              have hgdp : gd a' ((j - 1) / 2) = gd a ((j - 1) / 2) := by
                rw [huntouched' _ (Or.inl hpnot_sub), ha1_other _ hpj hpne_l2]
              rw [hgdj, hgdp]
              exact hR j (by omega) hjn hjc2
            · have hjc1 : inSubtree (2 * i + 1) j = true := by
                rcases hdesc with h | h
                · exact h
                · rw [← hcl, hjnotl2] at h
                  exact (Bool.false_ne_true h).elim
              have hcjlt : 2 * i + 1 < j := by
                have := inSubtree_le hjc1
                omega
              have hp2 : inSubtree (2 * i + 1) ((j - 1) / 2) = true := by
                rw [← inSubtree_unfold hcjlt]
                exact hjc1
              have hpne_l2 : (j - 1) / 2 ≠ l2 := by
                intro he
                rw [he, hcl] at hp2
                have := inSubtree_sibling (2 * i + 2) hp2
                rw [inSubtree_self] at this
                exact (Bool.false_ne_true this.symm).elim
              have hpnot_sub : inSubtree l2 ((j - 1) / 2) = false := by
                rw [hcl]
                exact inSubtree_sibling ((j - 1) / 2) hp2
              have hgdp : gd a' ((j - 1) / 2) = gd a ((j - 1) / 2) := by
                rw [huntouched' _ (Or.inl hpnot_sub), ha1_other _ hpj hpne_l2]
              rw [hgdj, hgdp]
              exact hL j (by omega) hjn hjc1
      · intro b hb k hk hkn
        by_cases hkl2 : inSubtree l2 k = true
        · apply hbound' b ?_ k hkl2 hkn
          intro m hm hmn
          by_cases hmeq : m = l2
          · rw [hmeq, ha1_l2]
            exact hb i (inSubtree_self i) hin
          · rw [ha1_sub m hm hmeq]
            exact hb m (inSubtree_trans hsubl2 m hm) hmn
        · have hknot : inSubtree l2 k = false := by
            cases hbk : inSubtree l2 k
            · rfl
            · exact absurd hbk hkl2
          rw [huntouched' k (Or.inl hknot)]
          by_cases hki : k = i
          · rw [hki, ha1_i]
            exact hb l2 hsubl2 hl2n
          · have hkne2 : k ≠ l2 := by
              intro he
              rw [he, inSubtree_self] at hknot
              exact (Bool.false_ne_true hknot.symm).elim
            rw [ha1_other k hki hkne2]
            exact hb k hk hkn
    · rw [if_neg hne]
      have hl2i : l2 = i := by omega
      refine ⟨a, rfl, rfl, List.Perm.refl a, fun k hk => rfl, ?_,
        fun b hb k hk hkn => hb k hk hkn⟩
      intro j hij hjn hsub
      rcases inSubtree_descend hij hsub with hc | hc
      · by_cases hj1 : j = 2 * i + 1
        · have hpar : (j - 1) / 2 = i := by omega
          rw [hpar, hj1]
          have hx := F1 (by omega)
          rw [hl2i] at hx
          exact hx
        · have hlt : 2 * i + 1 < j := by
            have := inSubtree_le hc
            omega
          exact hL j hlt hjn hc
      · by_cases hj1 : j = 2 * i + 2
        · have hpar : (j - 1) / 2 = i := by omega
          rw [hpar, hj1]
          have hx := F2 (by omega)
          rw [hl2i] at hx
          exact hx
        · have hlt : 2 * i + 2 < j := by
            have := inSubtree_le hc
            omega
          exact hR j hlt hjn hc
termination_by fuel
decreasing_by omega

theorem isHeapAt_mono {a : List Int} {n m r : Nat} (h : IsHeapAt a n r)
    (hm : m ≤ n) : IsHeapAt a m r :=
  fun j hrj hjm hsub => h j hrj (lt_of_lt_of_le hjm hm) hsub

/-- Build phase of `heap_sort` (src/sorting.py:174-176):
`for i in range(n // 2 - 1, -1, -1): _heapify(data, n, i)`, with `k` the
number of roots still to process (`i = k - 1` down to `0`). -/
def heapBuildLoop (a : List Int) (n : Nat) (k : Nat) : Option (List Int) :=
  match k with
  | 0 => some a
  | k + 1 => do
      let a' ← pheapify (n + 1) a n k
      heapBuildLoop a' n k

/-- Extraction phase of `heap_sort` (src/sorting.py:179-181):
`for i in range(n - 1, 0, -1): swap(i, 0); _heapify(data, i, 0)`. -/
def heapExtractLoop (a : List Int) (i : Nat) : Option (List Int) :=
  match i with
  | 0 => some a
  | v + 1 => do
      let a1 ← pswap a (v + 1) 0
      let a2 ← pheapify (v + 2) a1 (v + 1) 0
      heapExtractLoop a2 v

/-- `heap_sort` (src/sorting.py:163-181), in-place heap sort. -/
def heap_sort (data : List Int) : Option (List Int) := do
  let a1 ← heapBuildLoop data data.length (data.length / 2)
  heapExtractLoop a1 (data.length - 1)

/-- Build-phase invariant: processing roots `k-1, …, 0` turns the whole
array prefix `[0, n)` into a max-heap. -/
theorem heapBuildLoop_spec (k : Nat) (a : List Int) (n : Nat)
    (hn : n ≤ a.length) (hk : k ≤ n)
    (hinv : ∀ r, k ≤ r → IsHeapAt a n r) :
    ∃ a', heapBuildLoop a n k = some a' ∧
      a'.length = a.length ∧ a'.Perm a ∧
      (∀ j, n ≤ j → gd a' j = gd a j) ∧
      (∀ r, IsHeapAt a' n r) := by
  induction k generalizing a with
  | zero =>
    exact ⟨a, rfl, rfl, List.Perm.refl a, fun j hj => rfl,
      fun r => hinv r (Nat.zero_le r)⟩
  | succ k ih =>
    rw [heapBuildLoop]
    obtain ⟨a1, hh, hlen1, hperm1, huntouched1, hheap1, hbound1⟩ :=
      pheapify_spec (n + 1) a n k hn (by omega) (by omega)
        (hinv (2 * k + 1) (by omega)) (hinv (2 * k + 2) (by omega))
    rw [hh]
    simp only [Option.bind_eq_bind, Option.some_bind]
    have hinv1 : ∀ r, k ≤ r → IsHeapAt a1 n r := by
      intro r hr
      by_cases hreq : r = k
      · rw [hreq]
        exact hheap1
      · by_cases hrsub : inSubtree k r = true
        · exact isHeapAt_restrict hheap1 hrsub
        · apply isHeapAt_congr ?_ (hinv r (by omega))
          intro m hm hmn
          apply huntouched1
          left
          cases hb : inSubtree k m
          · rfl
          · rcases inSubtree_nested m hm hb with h | h
            · exact absurd h hrsub
            · have := inSubtree_le h
              omega
    obtain ⟨a2, hrec, hlen2, hperm2, huntouched2, hfull⟩ :=
      ih a1 (by omega) (by omega) hinv1
    refine ⟨a2, hrec, by omega, hperm2.trans hperm1, ?_, hfull⟩
    intro j hj
    rw [huntouched2 j hj, huntouched1 j (Or.inr hj)]

/-- Extraction-phase invariant: a heap on `[0, v+1)`, a sorted tail
`[v+1, len)`, and heap-region values dominated by the tail yield a fully
sorted result. -/
theorem heapExtractLoop_spec (v : Nat) (a : List Int)
    (hv : v < a.length)
    (hheap : IsHeapAt a (v + 1) 0)
    (htail : ∀ k, v < k → k + 1 < a.length → gd a k ≤ gd a (k + 1))
    (hdom : ∀ u w, u ≤ v → v < w → w < a.length → gd a u ≤ gd a w) :
    ∃ r, heapExtractLoop a v = some r ∧
      r.length = a.length ∧ r.Perm a ∧
      (∀ k, k + 1 < r.length → gd r k ≤ gd r (k + 1)) := by
  induction v generalizing a with
  | zero =>
    refine ⟨a, rfl, rfl, List.Perm.refl a, ?_⟩
    intro k hk
    by_cases hk0 : k = 0
    · rw [hk0]
      exact hdom 0 1 (le_refl 0) (by omega) (by omega)
    · exact htail k (by omega) hk
  | succ v ih =>
    rw [heapExtractLoop]
    rw [pswap_eq_some (by omega) (by omega)]
    simp only [Option.bind_eq_bind, Option.some_bind]
    have hl1 : (lswap a (v + 1) 0).length = a.length := length_lswap a _ _
    have ha1_top : gd (lswap a (v + 1) 0) (v + 1) = gd a 0 :=
      gd_lswap_left (by omega) (by omega) (by omega)
    have ha1_0 : gd (lswap a (v + 1) 0) 0 = gd a (v + 1) :=
      gd_lswap_right (by omega) (by omega)
    have ha1_other : ∀ k, k ≠ v + 1 → k ≠ 0 →
        gd (lswap a (v + 1) 0) k = gd a k :=
      fun k h1 h2 => gd_lswap_other h1 h2
    have hH1 : IsHeapAt (lswap a (v + 1) 0) (v + 1) 1 := by
      apply isHeapAt_congr
      · intro m hm hmn
        have := inSubtree_le hm
        exact ha1_other m (by omega) (by omega)
      · exact isHeapAt_mono
          (isHeapAt_restrict hheap (inSubtree_root 1)) (by omega)
    have hH2 : IsHeapAt (lswap a (v + 1) 0) (v + 1) 2 := by
      apply isHeapAt_congr
      · intro m hm hmn
        have := inSubtree_le hm
        exact ha1_other m (by omega) (by omega)
      · exact isHeapAt_mono
          (isHeapAt_restrict hheap (inSubtree_root 2)) (by omega)
    obtain ⟨a2, hh, hlen2, hperm2, huntouched2, hheap2, hbound2⟩ :=
      pheapify_spec (v + 2) (lswap a (v + 1) 0) (v + 1) 0
        (by omega) (by omega) (by omega)
        (by simpa using hH1) (by simpa using hH2)
    rw [hh]
    simp only [Option.bind_eq_bind, Option.some_bind]
    have hu2 : ∀ k, v + 1 ≤ k → gd a2 k = gd (lswap a (v + 1) 0) k :=
      fun k hk => huntouched2 k (Or.inr hk)
    have hdomA : ∀ j, j < v + 2 → gd a j ≤ gd a 0 := by
      intro j hj
      exact heap_root_dominates hheap j (inSubtree_root j) hj
    obtain ⟨r, hrec, hlen3, hperm3, hadj⟩ := ih a2 (by omega) hheap2
      (by
        intro k hk hk1
        rcases Nat.lt_or_ge k (v + 1) with hlt | hge
        · omega
        · rw [hu2 k hge, hu2 (k + 1) (by omega)]
          by_cases hkv : k = v + 1
          · rw [hkv, ha1_top, ha1_other (v + 2) (by omega) (by omega)]
            exact hdom 0 (v + 2) (by omega) (by omega) (by omega)
          · rw [ha1_other k (by omega) (by omega),
              ha1_other (k + 1) (by omega) (by omega)]
            exact htail k (by omega) (by omega))
      (by
        intro u w hu hw hwlen
        have hdrop : a2.drop (v + 1) = (lswap a (v + 1) 0).drop (v + 1) :=
          drop_eq_of_gd_eq (v + 1) (by omega) (fun k hk => hu2 k hk)
        have htake := take_perm_of_drop_eq (v + 1) hperm2 hdrop
        obtain ⟨q, hq1, hq2, hq3⟩ :=
          exists_source_of_take_perm htake (p := u) (by omega) (by omega)
        rw [hq3]
        have htarget : gd a2 w = gd (lswap a (v + 1) 0) w := hu2 w (by omega)
        rw [htarget]
        by_cases hwv : w = v + 1
        · rw [hwv, ha1_top]
          by_cases hq0 : q = 0
          · rw [hq0, ha1_0]
            exact hdomA (v + 1) (by omega)
          · rw [ha1_other q (by omega) hq0]
            exact hdomA q (by omega)
        · rw [ha1_other w (by omega) (by omega)]
          by_cases hq0 : q = 0
          · rw [hq0, ha1_0]
            exact hdom (v + 1) w (le_refl _) (by omega) (by omega)
          · rw [ha1_other q (by omega) hq0]
            exact hdom q w (by omega) (by omega) (by omega))
    refine ⟨r, hrec, by omega, ?_, hadj⟩
    exact (hperm3.trans hperm2).trans (lswap_perm a (by omega) (by omega))

/-- `heap_sort` succeeds on every list and returns a sorted permutation of
its input. -/
theorem heap_sort_correct (l : List Int) :
    ∃ r, heap_sort l = some r ∧ r.length = l.length ∧ r.Perm l ∧
      List.Sorted (· ≤ ·) r := by
  rw [heap_sort]
  obtain ⟨a1, hb, hlen1, hperm1, hunt1, hheapAll⟩ :=
    heapBuildLoop_spec (l.length / 2) l l.length (le_refl _) (by omega)
      (fun r hr => isHeapAt_leaf (by omega))
  rw [hb]
  simp only [Option.bind_eq_bind, Option.some_bind]
  by_cases hL0 : l.length = 0
  · have hle : l = [] := List.eq_nil_of_length_eq_zero hL0
    have ha1 : a1 = [] := List.eq_nil_of_length_eq_zero (by omega)
    subst hle
    rw [ha1]
    exact ⟨[], rfl, rfl, List.Perm.refl [], List.sorted_nil⟩
  · obtain ⟨r, he, hlen2, hperm2, hadj⟩ :=
      heapExtractLoop_spec (l.length - 1) a1 (by omega)
        (by
          have hone : l.length - 1 + 1 = l.length := by omega
          rw [hone]
          exact hheapAll 0)
        (fun k hk hk1 => absurd hk1 (by omega))
        (fun u w hu hw hwlen => absurd hwlen (by omega))
    rw [he]
    refine ⟨r, rfl, by omega, hperm2.trans hperm1, ?_⟩
    rw [← sortedLe_iff]
    exact sortedLe_of_adjacent (fun i hi => hadj i hi)

/-- First comparison of `heap_sort_visual._heapify` (src/sorting.py:468-472):
a `compare` snapshot, then on success a `largest` snapshot. -/
def heapVisLargest1 (a : List Int) (n i : Nat) : Option (List Snap × Nat) :=
  if 2 * i + 1 < n then do
    let s : Snap := { data := a, compare := some [i, 2 * i + 1],
                      heapLevel := some true }
    let x ← pget a (2 * i + 1)
    let y ← pget a i
    if y < x then
      some ([s, { data := a, largest := some (2 * i + 1),
                  heapLevel := some true }], 2 * i + 1)
    else
      some ([s], i)
  else
    some (([] : List Snap), i)

/-- Second comparison of `heap_sort_visual._heapify` (src/sorting.py:475-479). -/
def heapVisLargest2 (a : List Int) (n i l1 : Nat) : Option (List Snap × Nat) :=
  if 2 * i + 2 < n then do
    let s : Snap := { data := a, compare := some [l1, 2 * i + 2],
                      heapLevel := some true }
    let x ← pget a (2 * i + 2)
    let y ← pget a l1
    if y < x then
      some ([s, { data := a, largest := some (2 * i + 2),
                  heapLevel := some true }], 2 * i + 2)
    else
      some ([s], l1)
  else
    some (([] : List Snap), l1)

/-- `heap_sort_visual._heapify` (src/sorting.py:462-488).  As in
`quick_sort_visual`, the generator's `arr` parameter and the closure
variable `data_copy` are the SAME list object (`_heapify(data_copy, n, i)`),
so the pair `arr[i], arr[largest] = …` / `data_copy[i], data_copy[largest]
= …` swaps the same cells twice — a net no-op, modeled as two successive
swaps of the single shared state. -/
def heapVisHeapify (fuel : Nat) (a : List Int) (n i : Nat) :
    Option (List Snap × List Int) :=
  match fuel with
  | 0 => none
  | fuel + 1 => do
    let (sn1, l1) ← heapVisLargest1 a n i
    let (sn2, l2) ← heapVisLargest2 a n i l1
    if l2 ≠ i then do
      let a1 ← pswap a i l2
      let a2 ← pswap a1 i l2
      let s3 : Snap := { data := a2, swap := some [i, l2],
                         heapLevel := some true }
      let (sn3, a3) ← heapVisHeapify fuel a2 n l2
      some (sn1 ++ sn2 ++ s3 :: sn3, a3)
    else
      some (sn1 ++ sn2, a)

theorem heapVisLargest1_spec (a : List Int) (n i : Nat)
    (hn : n ≤ a.length) (hin : i < n) :
    ∃ sn l1, heapVisLargest1 a n i = some (sn, l1) ∧
      (l1 = i ∨ (i < l1 ∧ l1 < n)) ∧ ∀ s ∈ sn, s.data = a := by
  rw [heapVisLargest1]
  by_cases h1 : 2 * i + 1 < n
  · rw [if_pos h1, pget_eq_some (by omega), pget_eq_some (by omega)]
    simp only [Option.bind_eq_bind, Option.some_bind]
    by_cases ht : gd a i < gd a (2 * i + 1)
    · rw [if_pos ht]
      refine ⟨_, _, rfl, Or.inr ⟨by omega, h1⟩, ?_⟩
      intro s hs
      rcases List.mem_cons.mp hs with h | hs
      · rw [h]
      · rw [List.mem_singleton.mp hs]
    · rw [if_neg ht]
      refine ⟨_, _, rfl, Or.inl rfl, ?_⟩
      intro s hs
      rw [List.mem_singleton.mp hs]
  · rw [if_neg h1]
    exact ⟨_, _, rfl, Or.inl rfl, by simp⟩

theorem heapVisLargest2_spec (a : List Int) (n i l1 : Nat)
    (hn : n ≤ a.length) (hl1 : l1 = i ∨ (i < l1 ∧ l1 < n)) (hin : i < n) :
    ∃ sn l2, heapVisLargest2 a n i l1 = some (sn, l2) ∧
      (l2 = i ∨ (i < l2 ∧ l2 < n)) ∧ ∀ s ∈ sn, s.data = a := by
  rw [heapVisLargest2]
  have hl1n : l1 < n := by rcases hl1 with h | ⟨_, h⟩ <;> omega
  by_cases h1 : 2 * i + 2 < n
  · rw [if_pos h1, pget_eq_some (by omega), pget_eq_some (by omega)]
    simp only [Option.bind_eq_bind, Option.some_bind]
    by_cases ht : gd a l1 < gd a (2 * i + 2)
    · rw [if_pos ht]
      refine ⟨_, _, rfl, Or.inr ⟨by omega, h1⟩, ?_⟩
      intro s hs
      rcases List.mem_cons.mp hs with h | hs
      · rw [h]
      · rw [List.mem_singleton.mp hs]
    · rw [if_neg ht]
      refine ⟨_, _, rfl, hl1, ?_⟩
      intro s hs
      rw [List.mem_singleton.mp hs]
  · rw [if_neg h1]
    exact ⟨_, _, rfl, hl1, by simp⟩

/-- The visual heapify never changes the data (aliased double swaps); all
its snapshots carry the unchanged list. -/
theorem heapVisHeapify_spec (fuel : Nat) (a : List Int) (n i : Nat)
    (hn : n ≤ a.length) (hin : i < n) (hfuel : n - i < fuel) :
    ∃ sn, heapVisHeapify fuel a n i = some (sn, a) ∧ ∀ s ∈ sn, s.data = a := by
  cases fuel with
  | zero => omega
  | succ fuel =>
    rw [heapVisHeapify]
    obtain ⟨sn1, l1, h1, hc1, hd1⟩ := heapVisLargest1_spec a n i hn hin
    rw [h1]
    simp only [Option.bind_eq_bind, Option.some_bind]
    obtain ⟨sn2, l2, h2, hc2, hd2⟩ := heapVisLargest2_spec a n i l1 hn hc1 hin
    rw [h2]
    simp only [Option.bind_eq_bind, Option.some_bind]
    by_cases hne : l2 ≠ i
    · rw [if_pos hne]
      have hil2 : i < l2 ∧ l2 < n := by rcases hc2 with h | h <;> [omega; exact h]
      rw [pswap_eq_some (by omega) (by omega)]
      simp only [Option.bind_eq_bind, Option.some_bind]
      rw [pswap_eq_some (by rw [length_lswap]; omega) (by rw [length_lswap]; omega)]
      simp only [Option.bind_eq_bind, Option.some_bind]
      rw [lswap_lswap (by omega) (by omega)]
      obtain ⟨sn3, hrec, hd3⟩ :=
        heapVisHeapify_spec fuel a n l2 hn (by omega) (by omega)
      rw [hrec]
      simp only [Option.bind_eq_bind, Option.some_bind]
      refine ⟨_, rfl, ?_⟩
      intro s hs
      rcases List.mem_append.mp hs with hs | hs
      · rcases List.mem_append.mp hs with hs | hs
        · exact hd1 s hs
        · exact hd2 s hs
      · rcases List.mem_cons.mp hs with h | hs
        · rw [h]
        · exact hd3 s hs
    · rw [if_neg hne]
      refine ⟨_, rfl, ?_⟩
      intro s hs
      rcases List.mem_append.mp hs with hs | hs
      · exact hd1 s hs
      · exact hd2 s hs
termination_by fuel
decreasing_by omega

/-- Build phase of `heap_sort_visual` (src/sorting.py:490-493). -/
def heapVisBuildLoop (a : List Int) (n k : Nat) : Option (List Snap × List Int) :=
  match k with
  | 0 => some ([], a)
  | k + 1 => do
      let s0 : Snap := { data := a, highlight := some [k],
                         heapLevel := some true }
      let (sn1, a1) ← heapVisHeapify (n + 1) a n k
      let (sn2, a2) ← heapVisBuildLoop a1 n k
      some (s0 :: sn1 ++ sn2, a2)

/-- Extraction phase of `heap_sort_visual` (src/sorting.py:496-505): the
root swap mutates `data_copy` once (no aliased double swap here), then the
(no-op) visual heapify runs. -/
def heapVisExtractLoop (a : List Int) (i : Nat) : Option (List Snap × List Int) :=
  match i with
  | 0 => some ([], a)
  | v + 1 => do
      let a1 ← pswap a (v + 1) 0
      let s0 : Snap := { data := a1, swap := some [0, v + 1],
                         heapLevel := some false }
      let s1 : Snap := { data := a1, final := some [v + 1],
                         heapLevel := some false }
      let (sn2, a2) ← heapVisHeapify (v + 2) a1 (v + 1) 0
      let (sn3, a3) ← heapVisExtractLoop a2 v
      some (s0 :: s1 :: sn2 ++ sn3, a3)

/-- `heap_sort_visual` (src/sorting.py:457-508). -/
def heap_sort_visual (data : List Int) : Option (List Snap) := do
  let (sn1, a1) ← heapVisBuildLoop data data.length (data.length / 2)
  let (sn2, a2) ← heapVisExtractLoop a1 (data.length - 1)
  some (sn1 ++ sn2 ++ [{ data := a2, final := some (List.range data.length) }])

/-- The visual build phase never changes the data (its heapify is a no-op
because of the aliasing). -/
theorem heapVisBuildLoop_spec (k : Nat) (a : List Int) (n : Nat)
    (hn : n ≤ a.length) (hk : k ≤ n) :
    ∃ sn, heapVisBuildLoop a n k = some (sn, a) ∧ ∀ s ∈ sn, s.data = a := by
  induction k with
  | zero => exact ⟨[], rfl, by simp⟩
  | succ k ih =>
    rw [heapVisBuildLoop]
    obtain ⟨sn1, h1, hd1⟩ := heapVisHeapify_spec (n + 1) a n k hn (by omega) (by omega)
    rw [h1]
    simp only [Option.bind_eq_bind, Option.some_bind]
    obtain ⟨sn2, h2, hd2⟩ := ih (by omega)
    rw [h2]
    simp only [Option.bind_eq_bind, Option.some_bind]
    refine ⟨_, rfl, ?_⟩
    intro s hs
    rcases List.mem_cons.mp hs with h | hs
    · rw [h]
    rcases List.mem_append.mp hs with hs | hs
    · exact hd1 s hs
    · exact hd2 s hs

/-- The visual extraction phase performs only the root swaps (the heapify
calls are no-ops): the result is some permutation of the input, and every
snapshot's data has the input's length. -/
theorem heapVisExtractLoop_spec (v : Nat) (a : List Int) (hv : v < a.length) :
    ∃ sn d, heapVisExtractLoop a v = some (sn, d) ∧
      d.length = a.length ∧ d.Perm a ∧
      ∀ s ∈ sn, s.data.length = a.length := by
  induction v generalizing a with
  | zero => exact ⟨[], a, rfl, rfl, List.Perm.refl a, by simp⟩
  | succ v ih =>
    rw [heapVisExtractLoop]
    rw [pswap_eq_some (by omega) (by omega)]
    simp only [Option.bind_eq_bind, Option.some_bind]
    obtain ⟨sn2, h2, hd2⟩ :=
      heapVisHeapify_spec (v + 2) (lswap a (v + 1) 0) (v + 1) 0
        (by rw [length_lswap]; omega) (by omega) (by omega)
    rw [h2]
    simp only [Option.bind_eq_bind, Option.some_bind]
    obtain ⟨sn3, d, h3, hlen3, hperm3, hd3⟩ :=
      ih (lswap a (v + 1) 0) (by rw [length_lswap]; omega)
    rw [h3]
    simp only [Option.bind_eq_bind, Option.some_bind]
    refine ⟨_, d, rfl, by rw [hlen3, length_lswap],
      hperm3.trans (lswap_perm a (by omega) (by omega)), ?_⟩
    intro s hs
    rcases List.mem_cons.mp hs with h | hs
    · rw [h]
      simp
    rcases List.mem_cons.mp hs with h | hs
    · rw [h]
      simp
    rcases List.mem_append.mp hs with hs | hs
    · rw [hd2 s hs]
      simp
    · rw [hd3 s hs, length_lswap]

/-- `heap_sort_visual` always ends with an all-final terminal snapshot whose
data is some permutation of the input — but NOT, in general, the sorted one:
the visual heapify never changes the data (aliasing bug), so only the root
swaps of the extraction phase act on it. -/
theorem heap_sort_visual_spec (l : List Int) :
    ∃ sn d, heap_sort_visual l =
        some (sn ++ [{ data := d, final := some (List.range l.length) }]) ∧
      d.length = l.length ∧ d.Perm l ∧
      ∀ s ∈ sn, s.data.length = l.length := by
  rw [heap_sort_visual]
  obtain ⟨sn1, h1, hd1⟩ :=
    heapVisBuildLoop_spec (l.length / 2) l l.length (le_refl _) (by omega)
  rw [h1]
  simp only [Option.bind_eq_bind, Option.some_bind]
  by_cases hL0 : l.length = 0
  · have hle : l = [] := List.eq_nil_of_length_eq_zero hL0
    subst hle
    have hsn1 : sn1 = [] ∨ sn1 ≠ [] := by tauto
    refine ⟨sn1, [], ?_, rfl, List.Perm.refl [], ?_⟩
    · rw [show ([] : List Int).length - 1 = 0 from rfl, heapVisExtractLoop]
      simp only [Option.bind_eq_bind, Option.some_bind]
      simp
    · intro s hs
      rw [hd1 s hs]
  · obtain ⟨sn2, d, h3, hlen3, hperm3, hd3⟩ :=
      heapVisExtractLoop_spec (l.length - 1) l (by omega)
    rw [h3]
    simp only [Option.bind_eq_bind, Option.some_bind]
    refine ⟨sn1 ++ sn2, d, by rw [List.append_assoc], hlen3, hperm3, ?_⟩
    intro s hs
    rcases List.mem_append.mp hs with hs | hs
    · rw [hd1 s hs]
    · exact hd3 s hs

/-! ### Driver model (`SortData.start_sort`, src/models/sort_data.py:61-103)

`SortData` holds the data, per-algorithm statistics, the current snapshot
and the `is_sorting` flag.  `start_sort` is a generator: with `is_sorting`
set it returns before yielding anything or touching any field; otherwise it
drains the algorithm's generator, counting steps, then records the
statistics and installs the last snapshot's data.  Wall-clock time is not
modeled; a statistics entry keeps only its step count. -/

structure SortState where
  data : List Int
  algorithmStats : List (String × Nat) := []
  currentState : Option Snap := none
  currentAlgorithm : String := ""
  isSorting : Bool := false
  deriving DecidableEq

/-- Python dict assignment `algorithm_stats[name] = entry`. -/
def statsSet (stats : List (String × Nat)) (name : String) (steps : Nat) :
    List (String × Nat) :=
  if stats.any (fun p => p.1 = name) then
    stats.map (fun p => if p.1 = name then (name, steps) else p)
  else
    stats ++ [(name, steps)]

/-- `SortData.start_sort` (src/models/sort_data.py:61-103), with the
driven algorithm's full snapshot stream as its result: `(final state,
yielded snapshots)`.  The guard `if self.is_sorting: return` makes the call
a silently rejected no-op while a run is active. -/
def startSortRun (st : SortState) (alg : List Int → Option (List Snap))
    (name : String) : Option (SortState × List Snap) :=
  if st.isSorting then
    some (st, [])
  else do
    let sn ← alg st.data
    let cur := match sn.getLast? with
      | some s => some s
      | none => st.currentState
    some ({ st with
      isSorting := false,
      currentAlgorithm := name,
      currentState := cur,
      algorithmStats := statsSet st.algorithmStats name sn.length,
      data := match cur with
        | some s => s.data
        | none => st.data }, sn)

/-! ## Claim theorems -/

/-- C3 (corrected): the two merges differ on ties.  `mergeLoop_spec` shows
the reference `merge_sort` merge loop computes `mergeG` with the strict
test `x < y` (src/sorting.py:84-91), and `msVisMerge_spec` shows
`merge_sort_visual` merges with the non-strict test `x ≤ y`
(src/sorting.py:336-350).  Tagging equal values by their side: with equal
front elements the visual merge writes the LEFT element first (stable,
left-biased, as the spec claims), but the reference merge writes the RIGHT
element first, so the spec's "ties resolved by taking the left element
first" is wrong for the reference `merge_sort`. -/
theorem merge_tie_bias (v : Int) (t1 t2 : Nat) (xs ys : List (Int × Nat)) :
    mergeG (fun p q => p.1 < q.1) ((v, t1) :: xs) ((v, t2) :: ys) =
      (v, t2) :: mergeG (fun p q => p.1 < q.1) ((v, t1) :: xs) ys ∧
    mergeG (fun p q => p.1 ≤ q.1) ((v, t1) :: xs) ((v, t2) :: ys) =
      (v, t1) :: mergeG (fun p q => p.1 ≤ q.1) xs ((v, t2) :: ys) := by
  constructor
  · rw [mergeG]
    simp
  · rw [mergeG]
    simp

/-- C3 counterexample at a concrete input: merging the single left element
`(4, 0)` with the single right element `(4, 1)` (equal keys `4`, tags
recording the side), the reference merge shape emits the right element
first while the visual merge shape emits the left element first. -/
theorem merge_tie_bias_cex :
    mergeG (fun p q : Int × Nat => p.1 < q.1) [(4, 0)] [(4, 1)] =
      [(4, 1), (4, 0)] ∧
    mergeG (fun p q : Int × Nat => p.1 ≤ q.1) [(4, 0)] [(4, 1)] =
      [(4, 0), (4, 1)] := by
  constructor
  · rw [mergeG]
    simp [mergeG]
  · rw [mergeG]
    simp [mergeG]

/-- C2 (confirmed): each of the seven reference sorts succeeds on every
finite list of integers and produces a permutation of its input that is
non-decreasing.  The statement is universal over all lists, so it covers
n = 0, n = 1, lists with duplicate values, and already-sorted or
reverse-sorted inputs as instances. -/
theorem reference_sorts_sort (l : List Int) :
    (∃ r, selection_sort l = some r ∧ r.Perm l ∧ List.Sorted (· ≤ ·) r) ∧
    (∃ r, bubble_sort l = some r ∧ r.Perm l ∧ List.Sorted (· ≤ ·) r) ∧
    (∃ r, insertion_sort l = some r ∧ r.Perm l ∧ List.Sorted (· ≤ ·) r) ∧
    (∃ r, merge_sort l = some r ∧ r.Perm l ∧ List.Sorted (· ≤ ·) r) ∧
    (∃ r, quick_sort l = some r ∧ r.Perm l ∧ List.Sorted (· ≤ ·) r) ∧
    (∃ r, heap_sort l = some r ∧ r.Perm l ∧ List.Sorted (· ≤ ·) r) ∧
    (∃ r, comb_sort l = some r ∧ r.Perm l ∧ List.Sorted (· ≤ ·) r) := by
  obtain ⟨r1, h1, _, hp1, hs1⟩ := selection_sort_correct l
  obtain ⟨r2, h2, _, hp2, hs2⟩ := bubble_sort_correct l
  obtain ⟨r3, h3, _, hp3, hs3⟩ := insertion_sort_correct l
  obtain ⟨r4, h4, _, hp4, hs4⟩ := merge_sort_correct l
  obtain ⟨r5, h5, _, hp5, hs5⟩ := quick_sort_correct l
  obtain ⟨r6, h6, _, hp6, hs6⟩ := heap_sort_correct l
  obtain ⟨r7, h7, _, hp7, hs7⟩ := comb_sort_correct l
  exact ⟨⟨r1, h1, hp1, hs1⟩, ⟨r2, h2, hp2, hs2⟩, ⟨r3, h3, hp3, hs3⟩,
    ⟨r4, h4, hp4, hs4⟩, ⟨r5, h5, hp5, hs5⟩, ⟨r6, h6, hp6, hs6⟩,
    ⟨r7, h7, hp7, hs7⟩⟩

/-- C1 counterexample at concrete inputs: on `[2, 1]` the terminal snapshot
of `quick_sort_visual` carries the UNCHANGED input `[2, 1]`, and on
`[1, 2]` the terminal snapshot of `heap_sort_visual` carries `[2, 1]` —
neither is non-decreasing, refuting the claimed sortedness of the final
snapshot for these two generators. -/
theorem quick_heap_visual_final_unsorted_cex :
    (∃ sn, quick_sort_visual [2, 1] =
      some (sn ++ [{ data := [2, 1], final := some (List.range 2) }])) ∧
    (∃ sn, heap_sort_visual [1, 2] =
      some (sn ++ [{ data := [2, 1], final := some (List.range 2) }])) ∧
    ¬ List.Sorted (· ≤ ·) ([2, 1] : List Int) := by
  refine ⟨?_, ?_, by decide⟩
  · obtain ⟨sn, heq, _⟩ := quick_sort_visual_spec [2, 1]
    exact ⟨sn, heq⟩
  · refine ⟨[{ data := [1, 2], highlight := some [0], heapLevel := some true },
      { data := [1, 2], compare := some [0, 1], heapLevel := some true },
      { data := [1, 2], largest := some 1, heapLevel := some true },
      { data := [1, 2], swap := some [0, 1], heapLevel := some true },
      { data := [2, 1], swap := some [0, 1], heapLevel := some false },
      { data := [2, 1], final := some [1], heapLevel := some false }], ?_⟩
    decide

/-- C1 (code bug): the claimed property — the last snapshot's data is a
non-decreasing permutation of the input — holds for five of the seven
generators (selection, bubble, insertion, merge, comb), but NOT for
`quick_sort_visual` and `heap_sort_visual`.  In both of those the nested
generator receives the closure list `data_copy` itself as its `arr`
parameter, so each `arr[…] = …` swap followed by the matching
`data_copy[…] = …` swap swaps the same two cells twice — a net no-op.
`quick_sort_visual` therefore never changes its data at all (its terminal
snapshot carries the raw input), and `heap_sort_visual` applies only the
extraction-phase root swaps to an array that was never heapified, ending in
a generally unsorted permutation (see the counterexample theorem). -/
theorem visual_terminal_data_status (l : List Int) :
    (∃ sn s, selection_sort_visual l = some (sn ++ [s]) ∧
      s.data.Perm l ∧ List.Sorted (· ≤ ·) s.data) ∧
    (∃ sn s, bubble_sort_visual l = some (sn ++ [s]) ∧
      s.data.Perm l ∧ List.Sorted (· ≤ ·) s.data) ∧
    (∃ sn s, insertion_sort_visual l = some (sn ++ [s]) ∧
      s.data.Perm l ∧ List.Sorted (· ≤ ·) s.data) ∧
    (∃ sn s, merge_sort_visual l = some (sn ++ [s]) ∧
      s.data.Perm l ∧ List.Sorted (· ≤ ·) s.data) ∧
    (∃ sn s, comb_sort_visual l = some (sn ++ [s]) ∧
      s.data.Perm l ∧ List.Sorted (· ≤ ·) s.data) ∧
    (∃ sn s, quick_sort_visual l = some (sn ++ [s]) ∧ s.data = l) ∧
    (∃ sn s, heap_sort_visual l = some (sn ++ [s]) ∧ s.data.Perm l) := by
  refine ⟨?_, ?_, ?_, ?_, ?_, ?_, ?_⟩
  · obtain ⟨sn, r, heq, href, _⟩ := selection_sort_visual_spec l
    obtain ⟨r', h', _, hperm, hsort⟩ := selection_sort_correct l
    rw [href] at h'
    obtain rfl := Option.some.inj h'
    exact ⟨sn, _, heq, hperm, hsort⟩
  · obtain ⟨sn, r, heq, href, _⟩ := bubble_sort_visual_spec l
    obtain ⟨r', h', _, hperm, hsort⟩ := bubble_sort_correct l
    rw [href] at h'
    obtain rfl := Option.some.inj h'
    exact ⟨sn, _, heq, hperm, hsort⟩
  · obtain ⟨sn, r, heq, href, _⟩ := insertion_sort_visual_spec l
    obtain ⟨r', h', _, hperm, hsort⟩ := insertion_sort_correct l
    rw [href] at h'
    obtain rfl := Option.some.inj h'
    exact ⟨{ data := l, final := some [0] } :: sn, _, heq, hperm, hsort⟩
  · obtain ⟨sn, r, heq, _, hperm, hsort, _⟩ := merge_sort_visual_spec l
    exact ⟨sn, _, heq, hperm, hsort⟩
  · obtain ⟨sn, r, heq, href, _⟩ := comb_sort_visual_spec l
    obtain ⟨r', h', _, hperm, hsort⟩ := comb_sort_correct l
    rw [href] at h'
    obtain rfl := Option.some.inj h'
    exact ⟨sn, _, heq, hperm, hsort⟩
  · obtain ⟨sn, heq, _⟩ := quick_sort_visual_spec l
    exact ⟨sn, _, heq, rfl⟩
  · obtain ⟨sn, d, heq, _, hperm, _⟩ := heap_sort_visual_spec l
    exact ⟨sn, _, heq, hperm⟩

/-- C4 counterexample at a concrete input: on `[2, 1]` with bounds
`low = 0`, `high = 1` the visual partition returns pivot index `0` but
leaves the data UNCHANGED as `[2, 1]` (its two aliased swaps cancel), so
the element at position `1` (value `1`) is not greater than the element at
the reported pivot position `0` (value `2`) — the claimed post-state
property fails for `quick_sort_visual._partition`. -/
theorem visual_partition_noop_cex :
    qsVisPartition [2, 1] 0 1 =
      some ([{ data := [2, 1], pivot := some 1, range := some (0, 1) },
        { data := [2, 1], compare := some [0, 1], pivot := some 1,
          range := some (0, 1) },
        { data := [2, 1], swap := some [0, 1], pivotPlaced := some 0,
          range := some (0, 1) }], [2, 1], 0) ∧
    ¬ gdI ([2, 1] : List Int) 0 < gdI [2, 1] 1 := by
  constructor
  · simp [qsVisPartition, qsVisPartLoop, pgetI, pget, pswapI, pswap, pset,
      gdI, gd, lswap]
  · decide

/-- C4 (code bug): the REFERENCE `_partition` satisfies the claimed
property on every valid sub-range — the returned index `p` lies in
`[low, high]`, elements before `p` are `≤` the element at `p`, elements
after `p` (up to `high`) are `>` it, and the element at `p` is the chosen
pivot `data[high]`.  The claim also covers `quick_sort_visual._partition`
(src/sorting.py:388-417), where it FAILS: that generator's `arr` aliases
`data_copy`, its double swaps cancel, and the post-state is the unchanged
input while a pivot index is still reported — shown here on `[2, 1]`,
where the reference partition rearranges the data to `[1, 2]` but the
visual partition leaves `[2, 1]` with reported pivot index `0`, violating
the "elements after `p` are greater" clause. -/
theorem partition_reference_vs_visual :
    (∀ (a : List Int) (low high : Int), 0 ≤ low → low ≤ high →
      high.toNat < a.length →
      ∃ a2 p, partition a low high = some (a2, p) ∧
        low ≤ p ∧ p ≤ high ∧
        (∀ k : Int, low ≤ k → k < p → gdI a2 k ≤ gdI a2 p) ∧
        (∀ k : Int, p < k → k ≤ high → gdI a2 p < gdI a2 k) ∧
        gdI a2 p = gdI a high) ∧
    partition [2, 1] 0 1 = some ([1, 2], 0) ∧
    (∃ sn, qsVisPartition [2, 1] 0 1 = some (sn, [2, 1], 0)) ∧
    ¬ gdI ([2, 1] : List Int) 0 < gdI [2, 1] 1 := by
  refine ⟨?_, ?_, ?_, by decide⟩
  · intro a low high h1 h2 h3
    obtain ⟨a2, p, heq, _, _, hp1, hp2, _, hsmall, hbig, hpiv⟩ :=
      partition_spec a low high h1 h2 h3
    exact ⟨a2, p, heq, hp1, hp2, hsmall, hbig, hpiv⟩
  · simp [partition, partLoop, pgetI, pget, pswapI, pswap, pset, gdI, gd,
      lswap]
  · refine ⟨[{ data := [2, 1], pivot := some 1, range := some (0, 1) },
      { data := [2, 1], compare := some [0, 1], pivot := some 1,
        range := some (0, 1) },
      { data := [2, 1], swap := some [0, 1], pivotPlaced := some 0,
        range := some (0, 1) }], ?_⟩
    simp [qsVisPartition, qsVisPartLoop, pgetI, pget, pswapI, pswap, pset,
      gdI, gd, lswap]

/-- C5 counterexample at a concrete input: running `insertion_sort_visual`
(one of the algorithms the claim lists as marking indices final
incrementally) on `[1]` yields two snapshots and BOTH mark index `0` as
final — an index appears in a `final` field more than once across the run,
refuting the no-re-marking half of the claim. -/
theorem insertion_final_remarked_cex :
    insertion_sort_visual [1] =
      some [{ data := [1], final := some [0] },
        { data := [1], final := some [0] }] := by
  simp [insertion_sort_visual, insVisOuterLoop, insVisShiftLoop, pget, pset,
    List.range_succ]

/-- C5 (corrected): the half of the claim about the terminal snapshot is
right — every one of the seven generators ends with a snapshot whose
`final` field is exactly `list(range(n))`, which contains every index
`0 ≤ i < n` exactly once (it has no duplicates).  The other half is wrong:
indices ARE re-marked across a run (each terminal snapshot re-marks all of
them, and insertion re-marks the whole sorted prefix at every insertion;
see the counterexample theorem). -/
theorem terminal_final_marks_all_once (l : List Int) :
    ((List.range l.length).Nodup ∧
      ∀ i, i < l.length → i ∈ List.range l.length) ∧
    (∃ sn s, selection_sort_visual l = some (sn ++ [s]) ∧
      s.final = some (List.range l.length)) ∧
    (∃ sn s, bubble_sort_visual l = some (sn ++ [s]) ∧
      s.final = some (List.range l.length)) ∧
    (∃ sn s, insertion_sort_visual l = some (sn ++ [s]) ∧
      s.final = some (List.range l.length)) ∧
    (∃ sn s, merge_sort_visual l = some (sn ++ [s]) ∧
      s.final = some (List.range l.length)) ∧
    (∃ sn s, quick_sort_visual l = some (sn ++ [s]) ∧
      s.final = some (List.range l.length)) ∧
    (∃ sn s, heap_sort_visual l = some (sn ++ [s]) ∧
      s.final = some (List.range l.length)) ∧
    (∃ sn s, comb_sort_visual l = some (sn ++ [s]) ∧
      s.final = some (List.range l.length)) := by
  refine ⟨⟨List.nodup_range _, fun i hi => List.mem_range.mpr hi⟩,
    ?_, ?_, ?_, ?_, ?_, ?_, ?_⟩
  · obtain ⟨sn, r, heq, _, _⟩ := selection_sort_visual_spec l
    exact ⟨sn, _, heq, rfl⟩
  · obtain ⟨sn, r, heq, _, _⟩ := bubble_sort_visual_spec l
    exact ⟨sn, _, heq, rfl⟩
  · obtain ⟨sn, r, heq, _, _⟩ := insertion_sort_visual_spec l
    exact ⟨{ data := l, final := some [0] } :: sn, _, heq, rfl⟩
  · obtain ⟨sn, r, heq, _, _, _, _⟩ := merge_sort_visual_spec l
    exact ⟨sn, _, heq, rfl⟩
  · obtain ⟨sn, heq, _⟩ := quick_sort_visual_spec l
    exact ⟨sn, _, heq, rfl⟩
  · obtain ⟨sn, d, heq, _, _, _⟩ := heap_sort_visual_spec l
    exact ⟨sn, _, heq, rfl⟩
  · obtain ⟨sn, r, heq, _, _⟩ := comb_sort_visual_spec l
    exact ⟨sn, _, heq, rfl⟩

/-- C6 counterexample at the concrete input `[]`: `insertion_sort_visual`
yields TWO snapshots, and the first of them has `final = [0]` (the code
unconditionally yields a "first element is trivially sorted" snapshot even
for an empty list), refuting both "exactly one snapshot" and
"final field is the empty list"; `comb_sort_visual` also yields two. -/
theorem empty_input_two_snapshots_cex :
    insertion_sort_visual [] =
      some [{ data := [], final := some [0] }, { data := [], final := some [] }] ∧
    comb_sort_visual [] =
      some [{ data := [], gap := some 1 }, { data := [], final := some [] }] := by
  constructor
  · simp [insertion_sort_visual, insVisOuterLoop]
  · simp [comb_sort_visual, combVisLoop, combVisNextGap, combVisPass,
      get_next_gap]

/-- C6 (corrected): on inputs of length ≤ 1 no generator fails and each
yields a short already-final run, but the snapshot counts are not "exactly
one" across the board: on `[]`, selection, bubble, merge, quick and heap
yield exactly one snapshot while insertion and comb yield exactly two
(insertion's first snapshot even carries `final = [0]` for the empty
list); on a singleton, quick and heap yield one snapshot, insertion,
merge and comb two, selection and bubble three. -/
theorem small_input_snapshot_counts :
    (selection_sort_visual [] = some [{ data := [], final := some [] }]) ∧
    (bubble_sort_visual [] =
      some [{ data := [], final := some [], sortedUpto := some 0 }]) ∧
    (insertion_sort_visual [] =
      some [{ data := [], final := some [0] }, { data := [], final := some [] }]) ∧
    (merge_sort_visual [] =
      some [{ data := [], final := some [], depth := some 0 }]) ∧
    (quick_sort_visual [] = some [{ data := [], final := some [] }]) ∧
    (heap_sort_visual [] = some [{ data := [], final := some [] }]) ∧
    (comb_sort_visual [] =
      some [{ data := [], gap := some 1 }, { data := [], final := some [] }]) ∧
    ∀ a : Int,
      ((selection_sort_visual [a]).map List.length = some 3) ∧
      ((bubble_sort_visual [a]).map List.length = some 3) ∧
      ((insertion_sort_visual [a]).map List.length = some 2) ∧
      ((merge_sort_visual [a]).map List.length = some 2) ∧
      (quick_sort_visual [a] =
        some [{ data := [a], final := some (List.range 1) }]) ∧
      (heap_sort_visual [a] =
        some [{ data := [a], final := some (List.range 1) }]) ∧
      ((comb_sort_visual [a]).map List.length = some 2) := by
  refine ⟨?_, ?_, ?_, ?_, ?_, ?_, ?_, ?_⟩
  · simp [selection_sort_visual, selVisOuterLoop]
  · simp [bubble_sort_visual, bubVisOuterLoop]
  · simp [insertion_sort_visual, insVisOuterLoop]
  · simp [merge_sort_visual, msVisAux]
  · simp [quick_sort_visual]
  · simp [heap_sort_visual, heapVisBuildLoop, heapVisExtractLoop]
  · simp [comb_sort_visual, combVisLoop, combVisNextGap, combVisPass,
      get_next_gap]
  · intro a
    refine ⟨?_, ?_, ?_, ?_, ?_, ?_, ?_⟩
    · simp [selection_sort_visual, selVisOuterLoop, selVisMinLoop, pswap,
        pget]
    · simp [bubble_sort_visual, bubVisOuterLoop, bubVisPass]
    · simp [insertion_sort_visual, insVisOuterLoop]
    · simp [merge_sort_visual, msVisAux]
    · simp [quick_sort_visual]
    · simp [heap_sort_visual, heapVisBuildLoop, heapVisExtractLoop]
    · simp [comb_sort_visual, combVisLoop, combVisNextGap, combVisPass,
        get_next_gap]

/-- C7 (confirmed): every snapshot yielded at any point of any run by any
of the seven step-emitting generators has a `data` field whose length
equals the original input's length. -/
theorem snapshot_data_length_invariant (l : List Int) :
    (∃ sns, selection_sort_visual l = some sns ∧
      ∀ s ∈ sns, s.data.length = l.length) ∧
    (∃ sns, bubble_sort_visual l = some sns ∧
      ∀ s ∈ sns, s.data.length = l.length) ∧
    (∃ sns, insertion_sort_visual l = some sns ∧
      ∀ s ∈ sns, s.data.length = l.length) ∧
    (∃ sns, merge_sort_visual l = some sns ∧
      ∀ s ∈ sns, s.data.length = l.length) ∧
    (∃ sns, quick_sort_visual l = some sns ∧
      ∀ s ∈ sns, s.data.length = l.length) ∧
    (∃ sns, heap_sort_visual l = some sns ∧
      ∀ s ∈ sns, s.data.length = l.length) ∧
    (∃ sns, comb_sort_visual l = some sns ∧
      ∀ s ∈ sns, s.data.length = l.length) := by
  refine ⟨?_, ?_, ?_, ?_, ?_, ?_, ?_⟩
  · obtain ⟨sn, r, heq, href, hdat⟩ := selection_sort_visual_spec l
    obtain ⟨r', h', hlen, _, _⟩ := selection_sort_correct l
    rw [href] at h'
    obtain rfl := Option.some.inj h'
    refine ⟨_, heq, ?_⟩
    intro s hs
    rcases List.mem_append.mp hs with hs | hs
    · exact hdat s hs
    · rw [List.mem_singleton.mp hs]
      exact hlen
  · obtain ⟨sn, r, heq, href, hdat⟩ := bubble_sort_visual_spec l
    obtain ⟨r', h', hlen, _, _⟩ := bubble_sort_correct l
    rw [href] at h'
    obtain rfl := Option.some.inj h'
    refine ⟨_, heq, ?_⟩
    intro s hs
    rcases List.mem_append.mp hs with hs | hs
    · exact hdat s hs
    · rw [List.mem_singleton.mp hs]
      exact hlen
  · obtain ⟨sn, r, heq, href, hdat⟩ := insertion_sort_visual_spec l
    obtain ⟨r', h', hlen, _, _⟩ := insertion_sort_correct l
    rw [href] at h'
    obtain rfl := Option.some.inj h'
    refine ⟨_, heq, ?_⟩
    intro s hs
    rcases List.mem_cons.mp hs with h | hs
    · rw [h]
    rcases List.mem_append.mp hs with hs | hs
    · exact hdat s hs
    · rw [List.mem_singleton.mp hs]
      exact hlen
  · obtain ⟨sn, r, heq, hlen, _, _, hdat⟩ := merge_sort_visual_spec l
    refine ⟨_, heq, ?_⟩
    intro s hs
    rcases List.mem_append.mp hs with hs | hs
    · exact hdat s hs
    · rw [List.mem_singleton.mp hs]
      exact hlen
  · obtain ⟨sn, heq, hdat⟩ := quick_sort_visual_spec l
    refine ⟨_, heq, ?_⟩
    intro s hs
    rcases List.mem_append.mp hs with hs | hs
    · rw [hdat s hs]
    · rw [List.mem_singleton.mp hs]
  · obtain ⟨sn, d, heq, hlen, _, hdat⟩ := heap_sort_visual_spec l
    refine ⟨_, heq, ?_⟩
    intro s hs
    rcases List.mem_append.mp hs with hs | hs
    · exact hdat s hs
    · rw [List.mem_singleton.mp hs]
      exact hlen
  · obtain ⟨sn, r, heq, href, hdat⟩ := comb_sort_visual_spec l
    obtain ⟨r', h', hlen, _, _⟩ := comb_sort_correct l
    rw [href] at h'
    obtain rfl := Option.some.inj h'
    refine ⟨_, heq, ?_⟩
    intro s hs
    rcases List.mem_append.mp hs with hs | hs
    · exact hdat s hs
    · rw [List.mem_singleton.mp hs]
      exact hlen

/-- C8 (confirmed): `SortData.start_sort` begins with
`if self.is_sorting: return`, so starting a new sort while a run is active
yields no snapshot and returns the state object completely unchanged — no
statistics entry, same data, same current snapshot, same algorithm name,
flag still set. -/
theorem concurrent_start_rejected (st : SortState)
    (alg : List Int → Option (List Snap)) (name : String)
    (h : st.isSorting = true) :
    startSortRun st alg name = some (st, []) := by
  rw [startSortRun, if_pos h]

def busySt : SortState :=
  { data := [3, 1], isSorting := true }

def busyAlgName : String :=
  "insertion_sort"

/-- Witness for C8 at a concrete state: a driver whose `isSorting` flag is
set rejects a new `insertion_sort_visual` run and stays unchanged. -/
theorem concurrent_start_rejected_witness :
    busySt.isSorting = true ∧
    startSortRun busySt insertion_sort_visual busyAlgName =
      some (busySt, []) :=
  ⟨rfl, concurrent_start_rejected busySt insertion_sort_visual busyAlgName rfl⟩

/-- C9 (confirmed): `comb_sort` terminates on every finite input.  The
embedding runs the source's `while gap != 1 or swapped` loop on fuel
`2n + 3`, and `comb_sort_correct` (used here) shows that this fuel is never
exhausted: the gap update `_get_next_gap` — `(gap * 10) // 13` clamped to a
minimum of `1` — strictly decreases every gap `≥ 2` and never drops below
`1`, and the loop body returns immediately when `gap = 1` and the previous
pass swapped nothing.  On the spec's example the gap sequence from `5` is
`5 → 3 → 2 → 1`. -/
theorem comb_sort_terminates :
    (∀ l : List Int, ∃ r, comb_sort l = some r) ∧
    (∀ g, 2 ≤ g → get_next_gap g < g) ∧
    (∀ g, 1 ≤ get_next_gap g) ∧
    (∀ (n fuel : Nat) (a : List Int), combLoop n (fuel + 1) a 1 false = some a) ∧
    get_next_gap 5 = 3 ∧ get_next_gap 3 = 2 ∧ get_next_gap 2 = 1 := by
  refine ⟨?_, fun g hg => get_next_gap_lt hg, one_le_get_next_gap, ?_,
    by decide, by decide, by decide⟩
  · intro l
    obtain ⟨r, h, _, _, _⟩ := comb_sort_correct l
    exact ⟨r, h⟩
  · intro n fuel a
    rw [combLoop, if_neg (by simp)]

/-- C10 (confirmed): all fourteen entry points are total.  In this
embedding every sequence read, write and swap is checked (`pget`, `pset`,
`pswap` and their `Int`-indexed variants return `none` for an out-of-range
index and the failure propagates), so `isSome` of each result proves that
no run of any of the seven reference sorts or seven generators ever
accesses an index outside `0 .. n-1`. -/
theorem all_entry_points_total (l : List Int) :
    (selection_sort l).isSome = true ∧ (bubble_sort l).isSome = true ∧
    (insertion_sort l).isSome = true ∧ (merge_sort l).isSome = true ∧
    (quick_sort l).isSome = true ∧ (heap_sort l).isSome = true ∧
    (comb_sort l).isSome = true ∧
    (selection_sort_visual l).isSome = true ∧
    (bubble_sort_visual l).isSome = true ∧
    (insertion_sort_visual l).isSome = true ∧
    (merge_sort_visual l).isSome = true ∧
    (quick_sort_visual l).isSome = true ∧
    (heap_sort_visual l).isSome = true ∧
    (comb_sort_visual l).isSome = true := by
  obtain ⟨r1, h1, _⟩ := selection_sort_correct l
  obtain ⟨r2, h2, _⟩ := bubble_sort_correct l
  obtain ⟨r3, h3, _⟩ := insertion_sort_correct l
  obtain ⟨r4, h4, _⟩ := merge_sort_correct l
  obtain ⟨r5, h5, _⟩ := quick_sort_correct l
  obtain ⟨r6, h6, _⟩ := heap_sort_correct l
  obtain ⟨r7, h7, _⟩ := comb_sort_correct l
  obtain ⟨s1, w1, v1, _, _⟩ := selection_sort_visual_spec l
  obtain ⟨s2, w2, v2, _, _⟩ := bubble_sort_visual_spec l
  obtain ⟨s3, w3, v3, _, _⟩ := insertion_sort_visual_spec l
  obtain ⟨s4, w4, v4, _, _, _, _⟩ := merge_sort_visual_spec l
  obtain ⟨s5, v5, _⟩ := quick_sort_visual_spec l
  obtain ⟨s6, s6d, v6, _⟩ := heap_sort_visual_spec l
  obtain ⟨s7, w7, v7, _, _⟩ := comb_sort_visual_spec l
  rw [h1, h2, h3, h4, h5, h6, h7, v1, v2, v3, v4, v5, v6, v7]
  exact ⟨rfl, rfl, rfl, rfl, rfl, rfl, rfl, rfl, rfl, rfl, rfl, rfl, rfl, rfl⟩
